import Mathlib

/-!
# avemlist: averaging of tracked molecule lists

A shallow embedding of `storm_analysis/sa_utilities/avemlist.c`.

Modelling conventions.

* A record is the array of `OBJECT_DATA_SIZE` 4-byte fields of the C code.  The float view of a
  field is a value of an arbitrary type `α` carrying `+`, `*`, `/` and a square root function
  `sqrt : α → α` given as a parameter (exact arithmetic: the theorems take `α` to be a field).
  The integer view of the same 4 bytes (`object_data_int[...]` in `averageTrack`, the
  `uint32_t object_data[...]` array in `avemlist`) goes through an `IntView α`, which gives the
  32-bit pattern of a field and the field holding a given 32-bit pattern.
* The input file is a header (bytes) followed by the list of its complete records.  A read at
  an index that is not a complete record is a short read.  The state of the input file also
  keeps two traces: the record indices handed to `fread` in the scan loop and in
  `averageTrack`, and the record indices written back with `fwrite`.
* The `while` loop of `averageTrack` need not terminate (cyclic `LINK`s); it is run with a
  bound on the number of iterations and reports `Ret.running` when the bound is hit with the
  loop condition still true.
* `DATA` and `MOLECULES` (header size and offset of the molecule count, both from `insight.h`)
  are parameters; the model covers layouts with `MOLECULES + 4 ≤ DATA` and files of at least
  `DATA` bytes.  The field indices follow the order documented on `average_flag`.
* Signed overflow of `unvisited+1` wraps to 32 bits.  The progress messages, the `fflush` on a
  change of FRAME and the `TESTING` diagnostics do not touch the files and are left out, as are
  the argument count check and the two `fopen` calls.
-/

namespace Avemlist

/-! ## Record layout -/

/-- Number of fields of a record (the length of the `average_flag` table). -/
abbrev OBJECT_DATA_SIZE : Nat := 18

/-- Index of a field inside a record. -/
abbrev Idx := Fin OBJECT_DATA_SIZE

/-- One record: `float object_data[OBJECT_DATA_SIZE]`. -/
abbrev Record (α : Type) := Idx → α

def NOAVERAGE : Nat := 0
def AVERAGE : Nat := 1
def TOTAL : Nat := 2

def XO : Idx := 0
def YO : Idx := 1
def X : Idx := 2
def Y : Idx := 3
def HEIGHT : Idx := 4
def AREA : Idx := 5
def WIDTH : Idx := 6
def VISITED : Idx := 7
def ASPECT : Idx := 8
def BACKGROUND : Idx := 9
def SUM : Idx := 10
def CAT : Idx := 11
def FITI : Idx := 12
def FRAME : Idx := 13
def TLEN : Idx := 14
def LINK : Idx := 15
def ZO : Idx := 16
def Z : Idx := 17

/-- The static table `average_flag[]`, in the field order of the source comments. -/
def average_flag : Idx → Nat :=
  ![AVERAGE,      -- XO
    AVERAGE,      -- YO
    AVERAGE,      -- X
    AVERAGE,      -- Y
    TOTAL,        -- HEIGHT
    TOTAL,        -- AREA
    AVERAGE,      -- WIDTH
    NOAVERAGE,    -- VISITED
    AVERAGE,      -- ASPECT
    AVERAGE,      -- BACKGROUND
    NOAVERAGE,    -- SUM
    NOAVERAGE,    -- CAT
    NOAVERAGE,    -- FITI
    NOAVERAGE,    -- FRAME
    NOAVERAGE,    -- TLEN
    NOAVERAGE,    -- LINK
    AVERAGE,      -- ZO
    AVERAGE]      -- Z

/-! ## Machine integers and the integer view of a field -/

/-- Conversion of an integer to `uint32_t`. -/
def toU32 (x : Int) : Nat := (x % 4294967296).toNat

/-- The 32-bit pattern `n` read as a signed `int` (two-complement). -/
def toInt32 (n : Nat) : Int :=
  if n % 4294967296 < 2147483648 then ((n % 4294967296 : Nat) : Int)
  else ((n % 4294967296 : Nat) : Int) - 4294967296

/-- Reinterpretation of the 4 bytes of a field: `bits a` is the 32-bit pattern of the field
`a`, `ofBits n` is the field whose pattern is `n`. -/
structure IntView (α : Type) where
  bits : α → Nat
  ofBits : Nat → α

/-- Storing a pattern and reading it back gives the same 32 bits. -/
def IntView.RoundTrip {α : Type} (V : IntView α) : Prop :=
  ∀ n : Nat, V.bits (V.ofBits n) % 4294967296 = n % 4294967296

/-- The field read through a `uint32_t *`. -/
def IntView.u32 {α : Type} (V : IntView α) (a : α) : Nat := V.bits a % 4294967296

/-- The field read through an `int *`. -/
def IntView.i32 {α : Type} (V : IntView α) (a : α) : Int := toInt32 (V.bits a)

/-- The field stored through an `int *`. -/
def IntView.ofInt {α : Type} (V : IntView α) (x : Int) : α := V.ofBits (toU32 x)

/-! ## The input file -/

/-- The input file while it is processed: its complete records, the indices of the records
read so far by the scan and by `averageTrack`, and the indices of the records written back. -/
structure MListState (α : Type) where
  records : List (Record α)
  reads : List Int
  writes : List Int

/-- The record at index `molecule`, if the file holds a complete record there.  The model is
that of the code for `0 ≤ molecule` only.  At a negative index the `fseek` of the code is not
checked: it fails or lands before the records, and the `fread` and `fwrite` that follow act
on other bytes of the file.  That behaviour is not modelled: the value `none` below only
keeps the function total, and a statement that depends on what a read returns is made under
hypotheses that keep every read at an index `0 ≤ molecule` (a head index that is not
negative, fewer than 2^31 scanned records, a run that returns 0). -/
def readRecord {α : Type} (records : List (Record α)) (molecule : Int) : Option (Record α) :=
  if 0 ≤ molecule then records[molecule.toNat]? else none

/-- The pair `fseek` + `fread` of one record at index `molecule`. -/
def freadRecord {α : Type} (s : MListState α) (molecule : Int) :
    Option (Record α) × MListState α :=
  (readRecord s.records molecule, { s with reads := s.reads ++ [molecule] })

/-- The pair `fseek` + `fwrite` of one record at index `molecule`. -/
def fwriteRecord {α : Type} (s : MListState α) (molecule : Int) (object_data : Record α) :
    MListState α :=
  { s with records := s.records.set molecule.toNat object_data,
           writes := s.writes ++ [molecule] }

/-! ## averageTrack -/

/-- Outcome of a function: `return 0`, `return 1`, or still inside the `while` loop of
`averageTrack` when the iteration bound was reached. -/
inductive Ret where
  | zero
  | one
  | running
  deriving DecidableEq

/-- The loop "normalize relevant fields". -/
def normalizeFields {α : Type} [Mul α] (average_data : Record α) (weight : α) : Record α :=
  fun i => if average_flag i = AVERAGE then average_data i * weight else average_data i

/-- The loop "average/sum relevant fields". -/
def accumulateFields {α : Type} [Add α] [Mul α] (average_data object_data : Record α)
    (weight : α) : Record α :=
  fun i =>
    if average_flag i = AVERAGE then average_data i + object_data i * weight
    else if average_flag i = TOTAL then average_data i + object_data i
    else average_data i

/-- The loop "perform weighted averages". -/
def divideFields {α : Type} [Div α] (average_data : Record α) (total_weight : α) : Record α :=
  fun i => if average_flag i = AVERAGE then average_data i / total_weight else average_data i

/-- State left by the `while` loop of `averageTrack`. -/
structure LoopResult (α : Type) where
  ret : Ret
  input : MListState α
  average_data : Record α
  total_weight : α

/-- The loop `while(object_data_int[LINK]>0)` of `averageTrack`, run for at most `fuel`
iterations.  `ret` is `zero` when the loop condition became false, `one` on a short read. -/
def whileLink {α : Type} [Add α] [Mul α] (V : IntView α) (sqrt : α → α) (visited : Int) :
    Nat → MListState α → Record α → Record α → α → LoopResult α
  | fuel, s, object_data, average_data, total_weight =>
    if 0 < V.i32 (object_data LINK) then
      match fuel with
      | 0 => ⟨Ret.running, s, average_data, total_weight⟩
      | fuel + 1 =>
        let molecule := V.i32 (object_data LINK)
        match freadRecord s molecule with
        | (none, s1) => ⟨Ret.one, s1, average_data, total_weight⟩
        | (some object_data, s1) =>
          let weight := sqrt (object_data HEIGHT)
          let average_data := accumulateFields average_data object_data weight
          let total_weight := total_weight + weight
          let object_data := Function.update object_data VISITED (V.ofInt visited)
          let s2 := fwriteRecord s1 molecule object_data
          whileLink V sqrt visited fuel s2 object_data average_data total_weight
    else ⟨Ret.zero, s, average_data, total_weight⟩

/-- Result of `averageTrack`: return value, input file and output records. -/
structure TrackResult (α : Type) where
  ret : Ret
  input : MListState α
  output : List (Record α)

/-- The function `averageTrack(input_mlist, output_mlist, molecule, visited)`. -/
def averageTrack {α : Type} [Add α] [Mul α] [Div α] (V : IntView α) (sqrt : α → α)
    (fuel : Nat) (s : MListState α) (output : List (Record α)) (molecule visited : Int) :
    TrackResult α :=
  match freadRecord s molecule with
  | (none, s1) => ⟨Ret.one, s1, output⟩
  | (some object_data, s1) =>
    let average_data := object_data
    let weight := sqrt (object_data HEIGHT)
    let average_data := normalizeFields average_data weight
    let total_weight := weight
    let object_data := Function.update object_data VISITED (V.ofInt visited)
    let s2 := fwriteRecord s1 molecule object_data
    match whileLink V sqrt visited fuel s2 object_data average_data total_weight with
    | ⟨Ret.zero, s3, average_data, total_weight⟩ =>
      ⟨Ret.zero, s3, output ++ [divideFields average_data total_weight]⟩
    | ⟨r, s3, _, _⟩ => ⟨r, s3, output⟩

/-! ## avemlist -/

/-- A 32-bit word as 4 bytes, least significant first. -/
def word32 (v : Nat) : List Nat :=
  [v % 256, v / 256 % 256, v / 65536 % 256, v / 16777216 % 256]

/-- The `uint32_t` stored at byte offset `off`. -/
def readWord32 (bytes : List Nat) (off : Nat) : Nat :=
  bytes.getD off 0 % 256 + 256 * (bytes.getD (off + 1) 0 % 256)
    + 65536 * (bytes.getD (off + 2) 0 % 256) + 16777216 * (bytes.getD (off + 3) 0 % 256)

/-- Overwrite the 4 bytes at offset `off` with the word `v`. -/
def writeWord32 (bytes : List Nat) (off : Nat) (v : Nat) : List Nat :=
  (((bytes.set off (v % 256)).set (off + 1) (v / 256 % 256)).set (off + 2)
    (v / 65536 % 256)).set (off + 3) (v / 16777216 % 256)

/-- An Insight3 molecule list file: the header bytes and the complete records after it. -/
structure MList (α : Type) where
  header : List Nat
  records : List (Record α)

/-- State of the scan loop of `avemlist`. -/
structure ScanResult (α : Type) where
  ret : Ret
  input : MListState α
  output : List (Record α)
  tracks : Nat

/-- The loop `for(i=0;i<molecules;i++)` of `avemlist`, with `n` iterations left at index `i`.
Here `object_data` is the `uint32_t` array of `avemlist`: the test `object_data[CAT] >= 0`
compares an unsigned value with 0, and `object_data[VISITED] == unvisited` converts `unvisited`
to `uint32_t`.  The arguments `i` and `unvisited+1` of `averageTrack` are converted to `int`. -/
def scanLoop {α : Type} [Add α] [Mul α] [Div α] (V : IntView α) (sqrt : α → α) (fuel : Nat)
    (unvisited : Int) : Nat → Nat → MListState α → List (Record α) → Nat → ScanResult α
  | 0, _, s, output, tracks => ⟨Ret.zero, s, output, tracks⟩
  | n + 1, i, s, output, tracks =>
    match freadRecord s (i : Int) with
    | (none, s1) => ⟨Ret.one, s1, output, tracks⟩
    | (some object_data, s1) =>
      if V.u32 (object_data VISITED) = toU32 unvisited then
        if 0 ≤ V.u32 (object_data CAT) then
          match averageTrack V sqrt fuel s1 output (toInt32 i)
              (toInt32 (toU32 (unvisited + 1))) with
          | ⟨Ret.zero, s2, output2⟩ =>
            scanLoop V sqrt fuel unvisited n (i + 1) s2 output2 ((tracks + 1) % 4294967296)
          | ⟨error_code, s2, output2⟩ => ⟨error_code, s2, output2, tracks⟩
        else
          let object_data :=
            Function.update object_data VISITED (V.ofBits (toU32 (unvisited + 1)))
          scanLoop V sqrt fuel unvisited n (i + 1) (fwriteRecord s1 (i : Int) object_data)
            output tracks
      else scanLoop V sqrt fuel unvisited n (i + 1) s1 output tracks

/-- Files after a run of `avemlist`: return value, input file, and the output file as its
header bytes, its records and the bytes written after the records. -/
structure RunResult (α : Type) where
  ret : Ret
  input : MListState α
  header : List Nat
  records : List (Record α)
  trailer : List Nat
  tracks : Nat

/-- The value `unvisited = object_data[VISITED]` read from the first record before the scan.
The result of this `fread` is not checked by the code; when the file has no complete record
the value is not used by the scan (its first read is short), and it is taken to be 0 here. -/
def readUnvisited {α : Type} (V : IntView α) (records : List (Record α)) : Int :=
  match records[0]? with
  | some object_data => toInt32 (V.u32 (object_data VISITED))
  | none => 0

/-- The function `avemlist` once both files are open: copy of the header, read of the
molecule count and of `unvisited`, scan, trailing zero word and update of the count in the
output header (which lies inside the header when `MOLECULES + 4 ≤ DATA`). -/
def avemlist {α : Type} [Add α] [Mul α] [Div α] (V : IntView α) (sqrt : α → α) (fuel : Nat)
    (DATA MOLECULES : Nat) (f : MList α) : RunResult α :=
  let header := f.header.take DATA
  let molecules := readWord32 f.header MOLECULES
  let unvisited : Int := readUnvisited V f.records
  match scanLoop V sqrt fuel unvisited molecules 0 ⟨f.records, [], []⟩ [] 0 with
  | ⟨Ret.zero, s, output, tracks⟩ =>
    ⟨Ret.zero, s, writeWord32 header MOLECULES tracks, output, word32 0, tracks⟩
  | ⟨r, s, output, tracks⟩ => ⟨r, s, header, output, [], tracks⟩

/-! ## Specification-side notions -/

/-- The LINK chain starting at record `molecule`, as the list of (index, record) pairs
`molecule, LINK(molecule), ...` up to the first record whose LINK is not positive.  The result
is `none` when an index of the chain is not a complete record of the file, or when the chain
has more than `fuel + 1` records. -/
def chainFrom {α : Type} (V : IntView α) (records : List (Record α)) :
    Nat → Int → Option (List (Int × Record α))
  | fuel, molecule =>
    match readRecord records molecule with
    | none => none
    | some r =>
      if 0 < V.i32 (r LINK) then
        match fuel with
        | 0 => none
        | fuel + 1 =>
          (chainFrom V records fuel (V.i32 (r LINK))).map (fun rest => (molecule, r) :: rest)
      else some [(molecule, r)]

/-- Two records hold the same value in every field except `f0`. -/
def AgreeOff {α : Type} (f0 : Idx) (a b : Record α) : Prop := ∀ i, i ≠ f0 → a i = b i

/-- Two record arrays have the same length and agree record by record except in field `f0`. -/
def StoreAgreeOff {α : Type} (f0 : Idx) (s t : List (Record α)) : Prop :=
  s.length = t.length ∧
    ∀ (k : Nat) (a b : Record α), s[k]? = some a → t[k]? = some b → AgreeOff f0 a b

/-- Sum of `sqrt(HEIGHT)` over the records of a chain. -/
def chainWeight {α : Type} [Add α] [Zero α] (sqrt : α → α)
    (chain : List (Int × Record α)) : α :=
  (chain.map (fun p => sqrt (p.2 HEIGHT))).sum

/-- Sum of `f * sqrt(HEIGHT)` over the records of a chain. -/
def chainWeighted {α : Type} [Add α] [Zero α] [Mul α] (sqrt : α → α)
    (chain : List (Int × Record α)) (f : Idx) : α :=
  (chain.map (fun p => p.2 f * sqrt (p.2 HEIGHT))).sum

/-- Sum of the field `f` over the records of a chain. -/
def chainTotal {α : Type} [Add α] [Zero α] (chain : List (Int × Record α)) (f : Idx) : α :=
  (chain.map (fun p => p.2 f)).sum

/-- Frame of a run on the input file, from state `s` to state `s2`: the number of records is
unchanged and, `w` being what the run appended to the trace of writes, every index in `w` is a
record of the file, a record whose index is not in `w` is unchanged, and a record whose index
is in `w` is unchanged in every field except VISITED, which holds `stamp`. -/
def FrameVisited {α : Type} (stamp : α) (s s2 : MListState α) : Prop :=
  s2.records.length = s.records.length ∧
  ∃ w : List Int, s2.writes = s.writes ++ w ∧
    (∀ m ∈ w, 0 ≤ m ∧ m.toNat < s.records.length) ∧
    (∀ k : Nat, (k : Int) ∉ w → s2.records[k]? = s.records[k]?) ∧
    (∀ k : Nat, (k : Int) ∈ w → ∀ r r2, s.records[k]? = some r → s2.records[k]? = some r2 →
      AgreeOff VISITED r2 r ∧ r2 VISITED = stamp)

/-- What a run appended to the trace of reads, with respect to short reads: the run returned 1
exactly when one of its reads was short (`records` is the record array of the file). -/
def ReadsExplain {α : Type} (records : List (Record α)) (ret : Ret) (s s2 : MListState α) :
    Prop :=
  ∃ rd : List Int, s2.reads = s.reads ++ rd ∧
    (ret = Ret.one → ∃ m ∈ rd, readRecord records m = none) ∧
    (ret ≠ Ret.one → ∀ m ∈ rd, readRecord records m ≠ none)

/-- Noise exclusion as the specification states it, on the records folded into output
records.  Every record that `averageTrack` folds into its accumulator is written back right
after, so the folded records of a run are those of the trace of writes: none of them has a
negative CAT. -/
def NoiseExcluded {α : Type} (V : IntView α) (f : MList α) (res : RunResult α) : Prop :=
  ∀ m ∈ res.input.writes, ∀ r, readRecord f.records m = some r → 0 ≤ V.i32 (r CAT)

/-- Each of the first `molecules` records is written back exactly once, and nothing else is
written: the trace of writes has `molecules` entries and holds every index below `molecules`
once. -/
def StampedOnce (molecules : Nat) (writes : List Int) : Prop :=
  writes.length = molecules ∧ ∀ k : Nat, k < molecules → writes.count (k : Int) = 1

/-- The data-model invariants of the specification on the first `n` records of a file: they
are complete records (fewer than 2^31 of them), they all carry the value `u` in VISITED, every
positive LINK is the index of a later record among them, and no two records have the same
positive LINK. -/
structure WellLinked {α : Type} (V : IntView α) (records : List (Record α)) (n u : Nat) :
    Prop where
  complete : n ≤ records.length
  small : n ≤ 2147483648
  unvisited : ∀ (m : Int) (r : Record α), m < n → readRecord records m = some r →
    V.u32 (r VISITED) = u
  forward : ∀ (m : Int) (r : Record α), m < n → readRecord records m = some r →
    0 < V.i32 (r LINK) → m < V.i32 (r LINK) ∧ V.i32 (r LINK) < n
  injective : ∀ (j k : Int) (rj rk : Record α), j < n → k < n →
    readRecord records j = some rj → readRecord records k = some rk →
    0 < V.i32 (rj LINK) → V.i32 (rj LINK) = V.i32 (rk LINK) → j = k

/-- State of the input file between two iterations of the scan, at scan index `i`: the
records differ from the original ones `recs0` in VISITED only, a record carries the stamp
pattern `u2` if it was written back and the unvisited pattern `u` otherwise, no index was
written twice, every written index is below `n`, every written index is below `i` or is the
LINK of a written record, and every index below `i` was written. -/
structure ScanInv {α : Type} (V : IntView α) (recs0 : List (Record α)) (n u u2 : Nat)
    (i : Int) (s : MListState α) : Prop where
  agree : StoreAgreeOff VISITED s.records recs0
  marks : ∀ (m : Int) (r : Record α), m < n → readRecord s.records m = some r →
    (m ∈ s.writes → V.u32 (r VISITED) = u2) ∧ (m ∉ s.writes → V.u32 (r VISITED) = u)
  nodup : s.writes.Nodup
  range : ∀ m ∈ s.writes, 0 ≤ m ∧ m < n
  origin : ∀ m ∈ s.writes, m < i ∨
    ∃ (j : Int) (r : Record α), j ∈ s.writes ∧ readRecord recs0 j = some r ∧ V.i32 (r LINK) = m
  done : ∀ m : Int, 0 ≤ m → m < i → m ∈ s.writes

/-- State of the input file inside the while loop of averageTrack called at scan index `i`,
the last record written back being `cur`: as `ScanInv`, except that the head `i` is written
and that the LINK of `cur` has not been followed yet. -/
structure LoopInv {α : Type} (V : IntView α) (recs0 : List (Record α)) (n u u2 : Nat)
    (i cur : Int) (s : MListState α) : Prop where
  agree : StoreAgreeOff VISITED s.records recs0
  marks : ∀ (m : Int) (r : Record α), m < n → readRecord s.records m = some r →
    (m ∈ s.writes → V.u32 (r VISITED) = u2) ∧ (m ∉ s.writes → V.u32 (r VISITED) = u)
  nodup : s.writes.Nodup
  range : ∀ m ∈ s.writes, 0 ≤ m ∧ m < n
  origin : ∀ m ∈ s.writes, m ≤ i ∨
    ∃ (j : Int) (r : Record α), j ∈ s.writes ∧ j ≠ cur ∧ readRecord recs0 j = some r ∧
      V.i32 (r LINK) = m
  done : ∀ m : Int, 0 ≤ m → m ≤ i → m ∈ s.writes
  current : cur ∈ s.writes ∧ i ≤ cur

/-! ## Concrete instances used to evaluate the definitions -/

/-- Integer view on rationals: the field holding the pattern `n` is the rational `n`. -/
def ratView : IntView ℚ := ⟨fun q => q.num.toNat, fun n => (n : ℚ)⟩

/-- Integer square root by search: the largest `k ≤ n` with `k * k ≤ n`. -/
def natSqrt (n : Nat) : Nat :=
  (List.range (n + 1)).foldl (fun r k => if k * k ≤ n then k else r) 0

/-- Square root on rationals, exact on quotients of perfect squares. -/
def ratSqrt (q : ℚ) : ℚ := (natSqrt q.num.toNat : ℚ) / (natSqrt q.den : ℚ)

/-- A record given by its X, HEIGHT, AREA, VISITED, CAT and LINK fields, the others zero. -/
def mkRecord (x height area visited cat link : ℚ) : Record ℚ :=
  ![0, 0, x, 0, height, area, 0, visited, 0, 0, 0, cat, 0, 0, 0, link, 0, 0]

/-- Two linked records: record 0 (X=10, HEIGHT=4, AREA=7, LINK=1) and record 1 (X=20,
HEIGHT=9, AREA=8, LINK=-1). -/
def pairStore : List (Record ℚ) :=
  [mkRecord 10 4 7 0 0 1, mkRecord 20 9 8 0 0 4294967295]

/-- The chain of `pairStore` starting at record 0. -/
def pairChain : List (Int × Record ℚ) :=
  [(0, mkRecord 10 4 7 0 0 1), (1, mkRecord 20 9 8 0 0 4294967295)]

/-- An Insight3 header of 16 bytes with the molecule count `n` at offset 12. -/
def insightHeader (n : Nat) : List Nat :=
  [77, 52, 50, 53, 0, 0, 0, 0, 0, 0, 0, 0] ++ word32 n

/-- The end-to-end scenario: 3 molecules, records 0 (HEIGHT=4, X=10, CAT=0, LINK=1),
1 (HEIGHT=9, X=20, CAT=0, LINK=-1) and 2 (CAT=-1, LINK=-1), all with VISITED=0. -/
def scenarioFile : MList ℚ :=
  ⟨insightHeader 3, [mkRecord 10 4 7 0 0 1, mkRecord 20 9 8 0 0 4294967295,
    mkRecord 5 1 2 0 4294967295 4294967295]⟩

/-- A file of one molecule whose only record has CAT=-1, VISITED=0 and LINK=-1. -/
def noiseFile : MList ℚ := ⟨insightHeader 1, [mkRecord 5 1 2 0 4294967295 4294967295]⟩

/-- A file whose header announces 2 molecules but which holds one complete record. -/
def truncatedFile : MList ℚ := ⟨insightHeader 2, [mkRecord 5 1 2 0 0 4294967295]⟩

/-- A file of 2 molecules where record 0 (CAT=0, LINK=1) links to record 1, which has
CAT=-1 and LINK=-1. -/
def linkedNoiseFile : MList ℚ :=
  ⟨insightHeader 2, [mkRecord 10 4 7 0 0 1, mkRecord 20 9 8 0 4294967295 4294967295]⟩

/-- A file of 3 molecules where records 0 and 1 both have LINK=2 and record 2 has LINK=-1. -/
def sharedTargetFile : MList ℚ :=
  ⟨insightHeader 3, [mkRecord 10 4 7 0 0 2, mkRecord 20 9 8 0 0 2,
    mkRecord 5 1 2 0 0 4294967295]⟩

/-- A file whose header announces 0 molecules and which holds no record. -/
def emptyFile : MList ℚ := ⟨insightHeader 0, []⟩

/-- The state of `averageTrack` when it reaches "perform weighted averages": the result of
its while loop started on the head record (accumulator, total weight, input file), or `none`
when the read of the head record is short. -/
def trackLoop {α : Type} [Add α] [Mul α] (V : IntView α) (sqrt : α → α) (fuel : Nat)
    (s : MListState α) (molecule visited : Int) : Option (LoopResult α) :=
  match freadRecord s molecule with
  | (none, _) => none
  | (some object_data, s1) =>
    let average_data := object_data
    let weight := sqrt (object_data HEIGHT)
    let average_data := normalizeFields average_data weight
    let total_weight := weight
    let object_data := Function.update object_data VISITED (V.ofInt visited)
    let s2 := fwriteRecord s1 molecule object_data
    some (whileLink V sqrt visited fuel s2 object_data average_data total_weight)

/-- A store of one record with HEIGHT=0 and LINK=-1. -/
def zeroHeightStore : List (Record ℚ) := [mkRecord 5 0 2 0 0 4294967295]

/-- A store of one record with X=5, HEIGHT=4, AREA=2 and LINK=-1. -/
def singleStore : List (Record ℚ) := [mkRecord 5 4 2 0 0 4294967295]

/-- Every positive LINK of the store is the index of a complete record placed after the
record that holds it. -/
def ForwardLinks {α : Type} (V : IntView α) (records : List (Record α)) : Prop :=
  ∀ (m : Int) (r : Record α), readRecord records m = some r → 0 < V.i32 (r LINK) →
    m < V.i32 (r LINK) ∧ V.i32 (r LINK) < records.length

/-- The list `chain` is head, LINK(head), LINK(LINK(head)), ... with their records, up to and
including the first record whose LINK is not positive. -/
def IsLinkChain {α : Type} (V : IntView α) (records : List (Record α)) :
    Int → List (Int × Record α) → Prop
  | _, [] => False
  | m, [p] => p.1 = m ∧ readRecord records m = some p.2 ∧ V.i32 (p.2 LINK) ≤ 0
  | m, p :: q :: rest =>
    p.1 = m ∧ readRecord records m = some p.2 ∧ 0 < V.i32 (p.2 LINK) ∧
      IsLinkChain V records (V.i32 (p.2 LINK)) (q :: rest)

/-- The positive LINK values held by the first `n` records of the file, in file order. -/
def linkTargets {α : Type} (V : IntView α) (records : List (Record α)) (n : Nat) : List Int :=
  (records.take n).filterMap
    (fun r => if 0 < V.i32 (r LINK) then some (V.i32 (r LINK)) else none)

/-- The number of records with index below `n` that are not the LINK target of any of the
first `n` records. -/
def headCount {α : Type} (V : IntView α) (records : List (Record α)) (n : Nat) : Nat :=
  ((List.range n).filter (fun k : Nat => decide ((k : Int) ∉ linkTargets V records n))).length

/-- The record `rec` is the average of the records of `chain`: its AVERAGE-flagged fields are
the weighted means and its TOTAL-flagged fields the sums over the chain. -/
def IsTrackOf {α : Type} [Add α] [Zero α] [Mul α] [Div α] (sqrt : α → α)
    (chain : List (Int × Record α)) (rec : Record α) : Prop :=
  ∀ i, (average_flag i = AVERAGE →
      rec i = chainWeighted sqrt chain i / chainWeight sqrt chain) ∧
    (average_flag i = TOTAL → rec i = chainTotal chain i)

/-- The output records are, in order, the averages of the LINK chains `chains` of the file:
the constituents of the j-th output record are the records of the j-th chain. -/
def TracksOf {α : Type} [Add α] [Zero α] [Mul α] [Div α] (V : IntView α) (sqrt : α → α)
    (records : List (Record α)) (chains : List (List (Int × Record α)))
    (output : List (Record α)) : Prop :=
  List.Forall₂
    (fun chain rec => (∃ head, IsLinkChain V records head chain) ∧ IsTrackOf sqrt chain rec)
    chains output

/-- State of a run between two iterations of the scan, at scan index `i`, with respect to the
tracks emitted so far: the written indices are closed under positive LINKs, a written index
not yet scanned is a LINK target, the output records are the averages of chains whose indices
make up the trace of writes, and the track counter counts the scanned indices that are not
LINK targets. -/
structure PartInv {α : Type} [Add α] [Zero α] [Mul α] [Div α] (V : IntView α)
    (sqrt : α → α) (recs0 : List (Record α)) (n : Nat) (i : Nat) (s : MListState α)
    (output : List (Record α)) (tracks : Nat) : Prop where
  closed : ∀ j ∈ s.writes, ∀ r, readRecord recs0 j = some r → 0 < V.i32 (r LINK) →
    V.i32 (r LINK) ∈ s.writes
  targets : ∀ m ∈ s.writes, m < (i : Int) ∨ m ∈ linkTargets V recs0 n
  chains : ∃ chains : List (List (Int × Record α)),
    TracksOf V sqrt recs0 chains output ∧
      (chains.map (fun c => c.map Prod.fst)).flatten = s.writes
  count : tracks =
    ((List.range i).filter
      (fun k : Nat => decide ((k : Int) ∉ linkTargets V recs0 n))).length

/-- Relation between the output records of a first and of a second run: the two records are
equal in every field except VISITED, which holds the pattern `u` in the first and the pattern
`u2` in the second. -/
def RerunRecord {α : Type} (V : IntView α) (u u2 : Nat) (r1 r2 : Record α) : Prop :=
  AgreeOff VISITED r1 r2 ∧ V.u32 (r1 VISITED) = u ∧ V.u32 (r2 VISITED) = u2

/-- The input file as a run of `avemlist` leaves it: the header is not written, the records
are those of the final state of the run. -/
def rerunInput {α : Type} (f : MList α) (res : RunResult α) : MList α :=
  ⟨f.header, res.input.records⟩

/-- A file whose header announces 0 molecules and which holds one record with VISITED=0. -/
def staleRecordFile : MList ℚ := ⟨insightHeader 0, [mkRecord 5 1 2 0 0 4294967295]⟩

/-- The records reached by record reads at the indices `trav`: the indices of `trav`, in
order, at which the file holds a complete record (a read at another index is short). -/
def reached {α : Type} (records : List (Record α)) (trav : List Int) : List Int :=
  trav.filter (fun m => (readRecord records m).isSome)

/-- Frame of the traversals of a run on the input file, from state `s` to state `s2`, where
`trav` lists the indices of the record reads of the traversals: the number of records is
unchanged, the records written back are exactly the records reached, in the order in which
they were reached, a record whose index was not read by a traversal is unchanged in all
fields, and a record reached is unchanged in every field except VISITED, which holds
`stamp`. -/
def ReachedFrame {α : Type} (stamp : α) (trav : List Int) (s s2 : MListState α) : Prop :=
  s2.records.length = s.records.length ∧
  s2.writes = s.writes ++ reached s.records trav ∧
  (∀ k : Nat, (k : Int) ∉ trav → s2.records[k]? = s.records[k]?) ∧
  (∀ (k : Nat) (r : Record α), (k : Int) ∈ trav → s.records[k]? = some r →
    ∃ r2, s2.records[k]? = some r2 ∧ AgreeOff VISITED r2 r ∧ r2 VISITED = stamp)

/-- The record at index `k` is complete and has a positive LINK whose target is not a
complete record of the file. -/
def LinkShort {α : Type} (V : IntView α) (records : List (Record α)) (k : Int) : Prop :=
  ∃ r, readRecord records k = some r ∧ 0 < V.i32 (r LINK) ∧
    readRecord records (V.i32 (r LINK)) = none

/-- The record reads of a run of `avemlist` whose written-back records are `writes`: a read
is at a scanned index below the molecule count (by the scan, or by `averageTrack` at the head
handed over by the scan), or at the positive LINK of a record that `averageTrack` folded.
Every record that `averageTrack` folds is written back right after, so the folded records
are those of the trace of writes. -/
def ReadKind {α : Type} (V : IntView α) (records : List (Record α)) (molecules : Nat)
    (writes : List Int) (m : Int) : Prop :=
  (∃ i : Nat, i < molecules ∧ m = (i : Int)) ∨
  (∃ k ∈ writes, ∃ r, readRecord records k = some r ∧ 0 < V.i32 (r LINK) ∧
    m = V.i32 (r LINK))

/-! ## Basic facts -/

theorem agreeOff_refl {α : Type} (f0 : Idx) (a : Record α) : AgreeOff f0 a a :=
  fun _ _ => rfl

theorem agreeOff_update {α : Type} (f0 : Idx) (a b : Record α) (v : α)
    (h : AgreeOff f0 a b) : AgreeOff f0 (Function.update a f0 v) b := by
  intro i hi
  rw [Function.update_noteq hi]
  exact h i hi

theorem storeAgreeOff_refl {α : Type} (f0 : Idx) (s : List (Record α)) :
    StoreAgreeOff f0 s s := by
  refine ⟨rfl, ?_⟩
  intro k a b ha hb
  rw [ha] at hb
  cases hb
  exact agreeOff_refl f0 a

theorem storeAgreeOff_set {α : Type} (f0 : Idx) (s t : List (Record α)) (k : Nat)
    (a b : Record α) (h : StoreAgreeOff f0 s t) (hb : t[k]? = some b) (hab : AgreeOff f0 a b) :
    StoreAgreeOff f0 (s.set k a) t := by
  refine ⟨by rw [List.length_set]; exact h.1, ?_⟩
  intro j a1 b1 ha1 hb1
  rw [List.getElem?_set] at ha1
  by_cases hkj : k = j
  · subst hkj
    rw [if_pos rfl] at ha1
    rw [hb] at hb1
    cases hb1
    split at ha1
    · cases ha1
      exact hab
    · cases ha1
  · rw [if_neg hkj] at ha1
    exact h.2 j a1 b1 ha1 hb1

theorem readRecord_agree {α : Type} (f0 : Idx) (s t : List (Record α)) (m : Int)
    (b : Record α) (h : StoreAgreeOff f0 s t) (hb : readRecord t m = some b) :
    ∃ a, readRecord s m = some a ∧ AgreeOff f0 a b ∧ 0 ≤ m ∧ t[m.toNat]? = some b := by
  unfold readRecord at hb ⊢
  split at hb
  · rename_i hm
    rw [if_pos hm]
    obtain ⟨hlt, _⟩ := List.getElem?_eq_some.1 hb
    have hlt2 : m.toNat < s.length := by rw [h.1]; exact hlt
    refine ⟨s[m.toNat], List.getElem?_eq_getElem hlt2, ?_, hm, hb⟩
    exact h.2 m.toNat _ _ (List.getElem?_eq_getElem hlt2) hb
  · cases hb

theorem accumulateFields_agree {α : Type} [Add α] [Mul α] (avg a b : Record α) (sqrt : α → α)
    (h : AgreeOff VISITED a b) :
    accumulateFields avg a (sqrt (a HEIGHT)) = accumulateFields avg b (sqrt (b HEIGHT)) := by
  funext i
  have hH : a HEIGHT = b HEIGHT := h HEIGHT (by decide)
  unfold accumulateFields
  by_cases hi : i = VISITED
  · subst hi
    rw [if_neg (by decide), if_neg (by decide), if_neg (by decide), if_neg (by decide)]
  · rw [h i hi, hH]

/-! ## Unfolding the while loop -/

theorem whileLink_done {α : Type} [Add α] [Mul α] (V : IntView α) (sqrt : α → α)
    (visited : Int) (fuel : Nat) (s : MListState α) (od avg : Record α) (tw : α)
    (h : ¬ 0 < V.i32 (od LINK)) :
    whileLink V sqrt visited fuel s od avg tw = ⟨Ret.zero, s, avg, tw⟩ := by
  unfold whileLink
  simp only [h, if_false]

theorem whileLink_zero {α : Type} [Add α] [Mul α] (V : IntView α) (sqrt : α → α)
    (visited : Int) (s : MListState α) (od avg : Record α) (tw : α)
    (h : 0 < V.i32 (od LINK)) :
    whileLink V sqrt visited 0 s od avg tw = ⟨Ret.running, s, avg, tw⟩ := by
  unfold whileLink
  simp only [h, if_true]

theorem whileLink_short {α : Type} [Add α] [Mul α] (V : IntView α) (sqrt : α → α)
    (visited : Int) (fuel : Nat) (s : MListState α) (od avg : Record α) (tw : α)
    (h : 0 < V.i32 (od LINK)) (hr : readRecord s.records (V.i32 (od LINK)) = none) :
    whileLink V sqrt visited (fuel + 1) s od avg tw =
      ⟨Ret.one, { s with reads := s.reads ++ [V.i32 (od LINK)] }, avg, tw⟩ := by
  unfold whileLink
  simp only [h, if_true, freadRecord, hr]

theorem whileLink_step {α : Type} [Add α] [Mul α] (V : IntView α) (sqrt : α → α)
    (visited : Int) (fuel : Nat) (s : MListState α) (od avg : Record α) (tw : α)
    (od2 : Record α)
    (h : 0 < V.i32 (od LINK)) (hr : readRecord s.records (V.i32 (od LINK)) = some od2) :
    whileLink V sqrt visited (fuel + 1) s od avg tw =
      whileLink V sqrt visited fuel
        (fwriteRecord { s with reads := s.reads ++ [V.i32 (od LINK)] } (V.i32 (od LINK))
          (Function.update od2 VISITED (V.ofInt visited)))
        (Function.update od2 VISITED (V.ofInt visited))
        (accumulateFields avg od2 (sqrt (od2 HEIGHT))) (tw + sqrt (od2 HEIGHT)) := by
  conv => lhs; unfold whileLink
  simp only [h, if_true, freadRecord, hr]

/-! ## The while loop along a chain -/

theorem chainFrom_head {α : Type} (V : IntView α) (recs : List (Record α)) (fuel : Nat)
    (m : Int) (chain : List (Int × Record α)) (h : chainFrom V recs fuel m = some chain) :
    ∃ r rest, readRecord recs m = some r ∧ chain = (m, r) :: rest := by
  unfold chainFrom at h
  cases hr : readRecord recs m with
  | none => rw [hr] at h; cases h
  | some r =>
    rw [hr] at h
    simp only at h
    split at h
    · cases fuel with
      | zero => cases h
      | succ k =>
        simp only [Option.map_eq_some'] at h
        obtain ⟨rest, _, hrest⟩ := h
        exact ⟨r, rest, rfl, hrest.symm⟩
    · cases h
      exact ⟨r, [], rfl, rfl⟩

theorem whileLink_chain {α : Type} [Add α] [Mul α] (V : IntView α) (sqrt : α → α)
    (visited : Int) (recs0 : List (Record α)) :
    ∀ (fuel : Nat) (m : Int) (chain : List (Int × Record α)) (fuel' : Nat) (s : MListState α)
      (od avg : Record α) (tw : α),
      chainFrom V recs0 fuel m = some chain →
      fuel ≤ fuel' →
      StoreAgreeOff VISITED s.records recs0 →
      (∀ r, readRecord recs0 m = some r → AgreeOff VISITED od r) →
      (whileLink V sqrt visited fuel' s od avg tw).ret = Ret.zero ∧
      (whileLink V sqrt visited fuel' s od avg tw).average_data =
        chain.tail.foldl (fun a p => accumulateFields a p.2 (sqrt (p.2 HEIGHT))) avg ∧
      (whileLink V sqrt visited fuel' s od avg tw).total_weight =
        chain.tail.foldl (fun w p => w + sqrt (p.2 HEIGHT)) tw ∧
      (whileLink V sqrt visited fuel' s od avg tw).input.writes =
        s.writes ++ chain.tail.map Prod.fst ∧
      (whileLink V sqrt visited fuel' s od avg tw).input.reads =
        s.reads ++ chain.tail.map Prod.fst ∧
      StoreAgreeOff VISITED (whileLink V sqrt visited fuel' s od avg tw).input.records
        recs0 := by
  intro fuel
  induction fuel with
  | zero =>
    intro m chain fuel' s od avg tw hc _ hs hod
    unfold chainFrom at hc
    cases hr : readRecord recs0 m with
    | none => rw [hr] at hc; cases hc
    | some r =>
      rw [hr] at hc
      simp only at hc
      have hlink : od LINK = r LINK := hod r hr LINK (by decide)
      split at hc
      · cases hc
      · rename_i hneg
        cases hc
        rw [whileLink_done V sqrt visited fuel' s od avg tw (by rw [hlink]; exact hneg)]
        simp [hs]
  | succ k ih =>
    intro m chain fuel' s od avg tw hc hle hs hod
    unfold chainFrom at hc
    cases hr : readRecord recs0 m with
    | none => rw [hr] at hc; cases hc
    | some r =>
      rw [hr] at hc
      simp only at hc
      have hlink : od LINK = r LINK := hod r hr LINK (by decide)
      split at hc
      · rename_i hpos
        simp only [Option.map_eq_some'] at hc
        obtain ⟨rest, hrest, hchain⟩ := hc
        subst hchain
        obtain ⟨r2, rest2, hr2, hrest2⟩ := chainFrom_head V recs0 k _ rest hrest
        obtain ⟨od2, hod2, hag2, hnn, hget⟩ :=
          readRecord_agree VISITED s.records recs0 _ r2 hs hr2
        cases fuel' with
        | zero => omega
        | succ k' =>
          rw [← hlink] at hpos hod2 hrest hr2 hget
          rw [whileLink_step V sqrt visited k' s od avg tw od2 hpos hod2]
          have hstore : StoreAgreeOff VISITED
              (fwriteRecord { s with reads := s.reads ++ [V.i32 (od LINK)] } (V.i32 (od LINK))
                (Function.update od2 VISITED (V.ofInt visited))).records recs0 := by
            simp only [fwriteRecord]
            exact storeAgreeOff_set VISITED _ _ _ _ r2 hs hget
              (agreeOff_update VISITED od2 r2 _ hag2)
          have hnext : ∀ r', readRecord recs0 (V.i32 (od LINK)) = some r' →
              AgreeOff VISITED (Function.update od2 VISITED (V.ofInt visited)) r' := by
            intro r' hr'
            rw [hr2] at hr'
            cases hr'
            exact agreeOff_update VISITED od2 r2 _ hag2
          have := ih (V.i32 (od LINK)) rest k'
            (fwriteRecord { s with reads := s.reads ++ [V.i32 (od LINK)] } (V.i32 (od LINK))
                (Function.update od2 VISITED (V.ofInt visited)))
            (Function.update od2 VISITED (V.ofInt visited))
            (accumulateFields avg od2 (sqrt (od2 HEIGHT)))
            (tw + sqrt (od2 HEIGHT)) hrest (by omega) hstore hnext
          obtain ⟨h1, h2, h3, h4, h5, h6⟩ := this
          refine ⟨h1, ?_, ?_, ?_, ?_, h6⟩
          · rw [h2, hrest2, accumulateFields_agree avg od2 r2 sqrt hag2]
            rfl
          · rw [h3, hrest2, hag2 HEIGHT (by decide)]
            rfl
          · rw [h4, hrest2]
            simp [fwriteRecord, hlink]
          · rw [h5, hrest2]
            simp [fwriteRecord, hlink]
      · rename_i hneg
        cases hc
        rw [whileLink_done V sqrt visited fuel' s od avg tw (by rw [hlink]; exact hneg)]
        simp [hs]

/-! ## Unfolding averageTrack -/

theorem averageTrack_short {α : Type} [Add α] [Mul α] [Div α] (V : IntView α) (sqrt : α → α)
    (fuel : Nat) (s : MListState α) (output : List (Record α)) (molecule visited : Int)
    (hr : readRecord s.records molecule = none) :
    averageTrack V sqrt fuel s output molecule visited =
      ⟨Ret.one, { s with reads := s.reads ++ [molecule] }, output⟩ := by
  unfold averageTrack
  simp only [freadRecord, hr]

theorem averageTrack_read {α : Type} [Add α] [Mul α] [Div α] (V : IntView α) (sqrt : α → α)
    (fuel : Nat) (s : MListState α) (output : List (Record α)) (molecule visited : Int)
    (od : Record α) (hr : readRecord s.records molecule = some od) (L : LoopResult α)
    (hL : whileLink V sqrt visited fuel
        (fwriteRecord { s with reads := s.reads ++ [molecule] } molecule
          (Function.update od VISITED (V.ofInt visited)))
        (Function.update od VISITED (V.ofInt visited))
        (normalizeFields od (sqrt (od HEIGHT))) (sqrt (od HEIGHT)) = L) :
    averageTrack V sqrt fuel s output molecule visited =
      if L.ret = Ret.zero then
        ⟨Ret.zero, L.input, output ++ [divideFields L.average_data L.total_weight]⟩
      else ⟨L.ret, L.input, output⟩ := by
  unfold averageTrack
  simp only [freadRecord, hr, hL]
  rcases L with ⟨ret, inp, a, t⟩
  cases ret <;> simp

/-! ## Sums along a chain -/

theorem foldl_accumulate {α : Type} [Field α] (sqrt : α → α) (chain : List (Int × Record α)) :
    ∀ (avg : Record α) (i : Idx),
      chain.foldl (fun a p => accumulateFields a p.2 (sqrt (p.2 HEIGHT))) avg i =
        if average_flag i = AVERAGE then avg i + chainWeighted sqrt chain i
        else if average_flag i = TOTAL then avg i + chainTotal chain i
        else avg i := by
  induction chain with
  | nil =>
    intro avg i
    simp [chainWeighted, chainTotal]
  | cons p rest ih =>
    intro avg i
    rw [List.foldl_cons, ih]
    unfold accumulateFields chainWeighted chainTotal
    by_cases h1 : average_flag i = AVERAGE
    · simp only [if_pos h1, List.map_cons, List.sum_cons]
      ring
    · by_cases h2 : average_flag i = TOTAL
      · simp only [if_neg h1, if_pos h2, List.map_cons, List.sum_cons]
        ring
      · simp only [if_neg h1, if_neg h2]

theorem foldl_weight {α : Type} [Field α] (sqrt : α → α) (chain : List (Int × Record α)) :
    ∀ (tw : α),
      chain.foldl (fun w p => w + sqrt (p.2 HEIGHT)) tw = tw + chainWeight sqrt chain := by
  induction chain with
  | nil =>
    intro tw
    simp [chainWeight]
  | cons p rest ih =>
    intro tw
    rw [List.foldl_cons, ih]
    unfold chainWeight
    simp only [List.map_cons, List.sum_cons]
    ring

/-- What `averageTrack` does on a head whose chain is in range and ends: it returns 0, appends
one record whose AVERAGE fields are weighted means, whose TOTAL fields are sums and whose other
fields are those of the head, and it reads and writes back the records of the chain in order. -/
theorem averageTrack_chain {α : Type} [Field α] (V : IntView α) (sqrt : α → α)
    (fuel fuel' : Nat) (s : MListState α) (output : List (Record α)) (head visited : Int)
    (chain : List (Int × Record α))
    (hc : chainFrom V s.records fuel head = some chain) (hle : fuel ≤ fuel') :
    ∃ (hd : Record α) (s' : MListState α) (rec : Record α),
      readRecord s.records head = some hd ∧
      averageTrack V sqrt fuel' s output head visited = ⟨Ret.zero, s', output ++ [rec]⟩ ∧
      (∀ i, rec i =
        if average_flag i = AVERAGE then chainWeighted sqrt chain i / chainWeight sqrt chain
        else if average_flag i = TOTAL then chainTotal chain i
        else hd i) ∧
      s'.reads = s.reads ++ chain.map Prod.fst ∧
      s'.writes = s.writes ++ chain.map Prod.fst ∧
      StoreAgreeOff VISITED s'.records s.records := by
  obtain ⟨hd, rest, hhd, hchain⟩ := chainFrom_head V s.records fuel head chain hc
  obtain ⟨hlt, hget⟩ : 0 ≤ head ∧ s.records[head.toNat]? = some hd := by
    unfold readRecord at hhd
    split at hhd
    · rename_i h0
      exact ⟨h0, hhd⟩
    · cases hhd
  have hstore : StoreAgreeOff VISITED
      (fwriteRecord { s with reads := s.reads ++ [head] } head
        (Function.update hd VISITED (V.ofInt visited))).records s.records := by
    simp only [fwriteRecord]
    exact storeAgreeOff_set VISITED _ _ _ _ hd (storeAgreeOff_refl VISITED s.records) hget
      (agreeOff_update VISITED hd hd _ (agreeOff_refl VISITED hd))
  have hod : ∀ r, readRecord s.records head = some r →
      AgreeOff VISITED (Function.update hd VISITED (V.ofInt visited)) r := by
    intro r hr
    rw [hhd] at hr
    cases hr
    exact agreeOff_update VISITED hd hd _ (agreeOff_refl VISITED hd)
  obtain ⟨h1, h2, h3, h4, h5, h6⟩ := whileLink_chain V sqrt visited s.records fuel head chain
    fuel' (fwriteRecord { s with reads := s.reads ++ [head] } head
        (Function.update hd VISITED (V.ofInt visited)))
    (Function.update hd VISITED (V.ofInt visited))
    (normalizeFields hd (sqrt (hd HEIGHT))) (sqrt (hd HEIGHT)) hc hle hstore hod
  generalize hL : whileLink V sqrt visited fuel'
    (fwriteRecord { s with reads := s.reads ++ [head] } head
        (Function.update hd VISITED (V.ofInt visited)))
    (Function.update hd VISITED (V.ofInt visited))
    (normalizeFields hd (sqrt (hd HEIGHT))) (sqrt (hd HEIGHT)) = L at h1 h2 h3 h4 h5 h6
  refine ⟨hd, L.input, divideFields L.average_data L.total_weight, hhd, ?_, ?_, ?_, ?_, h6⟩
  · rw [averageTrack_read V sqrt fuel' s output head visited hd hhd L hL, if_pos h1]
  · intro i
    unfold divideFields
    rw [h2, h3, foldl_accumulate, foldl_weight, hchain]
    unfold normalizeFields chainWeighted chainTotal chainWeight
    by_cases ha : average_flag i = AVERAGE
    · simp only [if_pos ha, List.tail_cons, List.map_cons, List.sum_cons]
    · by_cases ht : average_flag i = TOTAL
      · simp only [if_neg ha, if_pos ht, List.tail_cons, List.map_cons, List.sum_cons]
      · simp only [if_neg ha, if_neg ht]
  · rw [h5, hchain]
    simp [fwriteRecord]
  · rw [h4, hchain]
    simp [fwriteRecord]

/-! ## Evaluation of the concrete square root -/

theorem natSqrt_one : natSqrt 1 = 1 := by decide

theorem natSqrt_four : natSqrt 4 = 2 := by decide

theorem natSqrt_nine : natSqrt 9 = 3 := by decide

theorem pairChain_weight : chainWeight ratSqrt pairChain = 5 := by
  simp [chainWeight, pairChain, ratSqrt, mkRecord, HEIGHT, natSqrt_one, natSqrt_four,
    natSqrt_nine]
  norm_num

/-! ## Claims on averageTrack -/

/-- C1: when the LINK chain of the head is in range and ends at a record with non-positive
LINK, and the total weight is not zero, averageTrack returns 0 and emits one record whose
AVERAGE-flagged fields (exactly XO, YO, X, Y, WIDTH, ASPECT, BACKGROUND, ZO, Z) are
`(Σ f(r) * sqrt(HEIGHT(r))) / (Σ sqrt(HEIGHT(r)))` over the records `r` of the chain. -/
theorem averageTrack_weighted_average {α : Type} [Field α] (V : IntView α) (sqrt : α → α)
    (fuel fuel' : Nat) (s : MListState α) (output : List (Record α)) (head visited : Int)
    (chain : List (Int × Record α))
    (hchain : chainFrom V s.records fuel head = some chain) (hfuel : fuel ≤ fuel')
    (hweight : (chain.map (fun p => sqrt (p.2 HEIGHT))).sum ≠ 0) :
    (averageTrack V sqrt fuel' s output head visited).ret = Ret.zero ∧
    (∀ f, average_flag f = AVERAGE ↔
      f ∈ [XO, YO, X, Y, WIDTH, ASPECT, BACKGROUND, ZO, Z]) ∧
    ∃ rec, (averageTrack V sqrt fuel' s output head visited).output = output ++ [rec] ∧
      ∀ f, average_flag f = AVERAGE →
        rec f = (chain.map (fun p => p.2 f * sqrt (p.2 HEIGHT))).sum /
            (chain.map (fun p => sqrt (p.2 HEIGHT))).sum ∧
        rec f * (chain.map (fun p => sqrt (p.2 HEIGHT))).sum =
          (chain.map (fun p => p.2 f * sqrt (p.2 HEIGHT))).sum := by
  obtain ⟨hd, s', rec, _, hrun, hrec, _, _, _⟩ :=
    averageTrack_chain V sqrt fuel fuel' s output head visited chain hchain hfuel
  refine ⟨by rw [hrun], by decide, rec, by rw [hrun], ?_⟩
  intro f hf
  have h := hrec f
  rw [if_pos hf] at h
  unfold chainWeighted chainWeight at h
  refine ⟨h, ?_⟩
  rw [h, div_mul_cancel₀ _ hweight]

theorem averageTrack_weighted_average_witness :
    chainFrom ratView pairStore 1 0 = some pairChain ∧
    (pairChain.map (fun p => ratSqrt (p.2 HEIGHT))).sum ≠ 0 ∧
    (averageTrack ratView ratSqrt 1 ⟨pairStore, [], []⟩ [] 0 1).ret = Ret.zero ∧
    (∀ f, average_flag f = AVERAGE ↔
      f ∈ [XO, YO, X, Y, WIDTH, ASPECT, BACKGROUND, ZO, Z]) ∧
    ∃ rec, (averageTrack ratView ratSqrt 1 ⟨pairStore, [], []⟩ [] 0 1).output = [] ++ [rec] ∧
      ∀ f, average_flag f = AVERAGE →
        rec f = (pairChain.map (fun p => p.2 f * ratSqrt (p.2 HEIGHT))).sum /
            (pairChain.map (fun p => ratSqrt (p.2 HEIGHT))).sum ∧
        rec f * (pairChain.map (fun p => ratSqrt (p.2 HEIGHT))).sum =
          (pairChain.map (fun p => p.2 f * ratSqrt (p.2 HEIGHT))).sum :=
  have hw : (pairChain.map (fun p => ratSqrt (p.2 HEIGHT))).sum ≠ 0 := by
    have h := pairChain_weight
    unfold chainWeight at h
    rw [h]
    norm_num
  ⟨by decide, hw,
    averageTrack_weighted_average ratView ratSqrt 1 1 ⟨pairStore, [], []⟩ [] 0 1 pairChain
      (by decide) (Nat.le_refl 1) hw⟩

/-- C2: when the LINK chain of the head is in range and ends, averageTrack returns 0 and
emits one record whose TOTAL-flagged fields (exactly HEIGHT and AREA) hold the plain sum of
that field over the records of the chain, the head counted once. -/
theorem averageTrack_total_sum {α : Type} [Field α] (V : IntView α) (sqrt : α → α)
    (fuel fuel' : Nat) (s : MListState α) (output : List (Record α)) (head visited : Int)
    (chain : List (Int × Record α))
    (hchain : chainFrom V s.records fuel head = some chain) (hfuel : fuel ≤ fuel') :
    (averageTrack V sqrt fuel' s output head visited).ret = Ret.zero ∧
    (∀ f, average_flag f = TOTAL ↔ f ∈ [HEIGHT, AREA]) ∧
    ∃ rec, (averageTrack V sqrt fuel' s output head visited).output = output ++ [rec] ∧
      ∀ f, average_flag f = TOTAL → rec f = (chain.map (fun p => p.2 f)).sum := by
  obtain ⟨hd, s', rec, _, hrun, hrec, _, _, _⟩ :=
    averageTrack_chain V sqrt fuel fuel' s output head visited chain hchain hfuel
  refine ⟨by rw [hrun], by decide, rec, by rw [hrun], ?_⟩
  intro f hf
  have h := hrec f
  have hna : ¬ average_flag f = AVERAGE := by
    rw [hf]
    decide
  rw [if_neg hna, if_pos hf] at h
  exact h

theorem averageTrack_total_sum_witness :
    chainFrom ratView pairStore 1 0 = some pairChain ∧
    (averageTrack ratView ratSqrt 1 ⟨pairStore, [], []⟩ [] 0 1).ret = Ret.zero ∧
    (∀ f, average_flag f = TOTAL ↔ f ∈ [HEIGHT, AREA]) ∧
    ∃ rec, (averageTrack ratView ratSqrt 1 ⟨pairStore, [], []⟩ [] 0 1).output = [] ++ [rec] ∧
      ∀ f, average_flag f = TOTAL → rec f = (pairChain.map (fun p => p.2 f)).sum :=
  ⟨by decide,
    averageTrack_total_sum ratView ratSqrt 1 1 ⟨pairStore, [], []⟩ [] 0 1 pairChain
      (by decide) (Nat.le_refl 1)⟩

/-! ## Unfolding the scan loop -/

theorem scanLoop_zero {α : Type} [Add α] [Mul α] [Div α] (V : IntView α) (sqrt : α → α)
    (fuel : Nat) (unvisited : Int) (i : Nat) (s : MListState α) (output : List (Record α))
    (tracks : Nat) :
    scanLoop V sqrt fuel unvisited 0 i s output tracks = ⟨Ret.zero, s, output, tracks⟩ := by
  unfold scanLoop
  rfl

theorem scanLoop_short {α : Type} [Add α] [Mul α] [Div α] (V : IntView α) (sqrt : α → α)
    (fuel : Nat) (unvisited : Int) (n i : Nat) (s : MListState α) (output : List (Record α))
    (tracks : Nat) (hr : readRecord s.records (i : Int) = none) :
    scanLoop V sqrt fuel unvisited (n + 1) i s output tracks =
      ⟨Ret.one, { s with reads := s.reads ++ [(i : Int)] }, output, tracks⟩ := by
  conv => lhs; unfold scanLoop
  simp only [freadRecord, hr]

theorem scanLoop_skip {α : Type} [Add α] [Mul α] [Div α] (V : IntView α) (sqrt : α → α)
    (fuel : Nat) (unvisited : Int) (n i : Nat) (s : MListState α) (output : List (Record α))
    (tracks : Nat) (od : Record α) (hr : readRecord s.records (i : Int) = some od)
    (hv : V.u32 (od VISITED) ≠ toU32 unvisited) :
    scanLoop V sqrt fuel unvisited (n + 1) i s output tracks =
      scanLoop V sqrt fuel unvisited n (i + 1) { s with reads := s.reads ++ [(i : Int)] }
        output tracks := by
  conv => lhs; unfold scanLoop
  simp only [freadRecord, hr, if_neg hv]

theorem scanLoop_track {α : Type} [Add α] [Mul α] [Div α] (V : IntView α) (sqrt : α → α)
    (fuel : Nat) (unvisited : Int) (n i : Nat) (s : MListState α) (output : List (Record α))
    (tracks : Nat) (od : Record α) (hr : readRecord s.records (i : Int) = some od)
    (hv : V.u32 (od VISITED) = toU32 unvisited) (T : TrackResult α)
    (hT : averageTrack V sqrt fuel { s with reads := s.reads ++ [(i : Int)] } output
      (toInt32 i) (toInt32 (toU32 (unvisited + 1))) = T) :
    scanLoop V sqrt fuel unvisited (n + 1) i s output tracks =
      if T.ret = Ret.zero then
        scanLoop V sqrt fuel unvisited n (i + 1) T.input T.output
          ((tracks + 1) % 4294967296)
      else ⟨T.ret, T.input, T.output, tracks⟩ := by
  conv => lhs; unfold scanLoop
  simp only [freadRecord, hr, if_pos hv, Nat.zero_le, if_true, hT]
  rcases T with ⟨ret, inp, out⟩
  cases ret <;> simp

/-! ## Output records and the track counter -/

theorem averageTrack_output {α : Type} [Add α] [Mul α] [Div α] (V : IntView α) (sqrt : α → α)
    (fuel : Nat) (s : MListState α) (output : List (Record α)) (molecule visited : Int) :
    ((averageTrack V sqrt fuel s output molecule visited).ret = Ret.zero →
      ∃ rec, (averageTrack V sqrt fuel s output molecule visited).output = output ++ [rec]) ∧
    ((averageTrack V sqrt fuel s output molecule visited).ret ≠ Ret.zero →
      (averageTrack V sqrt fuel s output molecule visited).output = output) := by
  cases hr : readRecord s.records molecule with
  | none =>
    rw [averageTrack_short V sqrt fuel s output molecule visited hr]
    simp
  | some od =>
    rw [averageTrack_read V sqrt fuel s output molecule visited od hr _ rfl]
    split
    · simp
    · rename_i h
      simp [h]

theorem scanLoop_tracks {α : Type} [Add α] [Mul α] [Div α] (V : IntView α) (sqrt : α → α)
    (fuel : Nat) (unvisited : Int) :
    ∀ (n i : Nat) (s : MListState α) (output : List (Record α)) (tracks : Nat),
      tracks + n < 4294967296 → output.length = tracks →
      (scanLoop V sqrt fuel unvisited n i s output tracks).ret = Ret.zero →
      (scanLoop V sqrt fuel unvisited n i s output tracks).output.length =
        (scanLoop V sqrt fuel unvisited n i s output tracks).tracks ∧
      (scanLoop V sqrt fuel unvisited n i s output tracks).tracks ≤ tracks + n := by
  intro n
  induction n with
  | zero =>
    intro i s output tracks _ hlen _
    rw [scanLoop_zero]
    exact ⟨hlen, Nat.le_refl _⟩
  | succ n ih =>
    intro i s output tracks hlt hlen hret
    cases hr : readRecord s.records (i : Int) with
    | none =>
      rw [scanLoop_short V sqrt fuel unvisited n i s output tracks hr] at hret
      cases hret
    | some od =>
      by_cases hv : V.u32 (od VISITED) = toU32 unvisited
      · rw [scanLoop_track V sqrt fuel unvisited n i s output tracks od hr hv _ rfl] at hret ⊢
        split at hret
        · rename_i hz
          rw [if_pos hz] 
          obtain ⟨rec, hrec⟩ := (averageTrack_output V sqrt fuel
            { s with reads := s.reads ++ [(i : Int)] } output (toInt32 i)
            (toInt32 (toU32 (unvisited + 1)))).1 hz
          have hmod : (tracks + 1) % 4294967296 = tracks + 1 := Nat.mod_eq_of_lt (by omega)
          rw [hmod] at hret ⊢
          have := ih (i + 1) _ _ (tracks + 1) (by omega)
            (by rw [hrec, List.length_append, hlen]; rfl) hret
          exact ⟨this.1, by omega⟩
        · rename_i hz
          exact absurd hret hz
      · rw [scanLoop_skip V sqrt fuel unvisited n i s output tracks od hr hv] at hret ⊢
        have := ih (i + 1) _ output tracks (by omega) hlen hret
        exact ⟨this.1, by omega⟩

/-! ## Header bytes -/

theorem readWord32_lt (bytes : List Nat) (off : Nat) : readWord32 bytes off < 4294967296 := by
  unfold readWord32
  omega

theorem getD_set_self (l : List Nat) (k v : Nat) (h : k < l.length) :
    (l.set k v).getD k 0 = v := by
  rw [List.getD_eq_getElem?_getD, List.getElem?_set, if_pos rfl, if_pos h]
  rfl

theorem getD_set_other (l : List Nat) (k j v : Nat) (h : k ≠ j) :
    (l.set k v).getD j 0 = l.getD j 0 := by
  rw [List.getD_eq_getElem?_getD, List.getD_eq_getElem?_getD, List.getElem?_set, if_neg h]

theorem readWord32_writeWord32 (bytes : List Nat) (off v : Nat) (h : off + 4 ≤ bytes.length)
    (hv : v < 4294967296) : readWord32 (writeWord32 bytes off v) off = v := by
  unfold readWord32 writeWord32
  rw [getD_set_other _ _ _ _ (by omega), getD_set_other _ _ _ _ (by omega),
    getD_set_other _ _ _ _ (by omega), getD_set_self _ _ _ (by omega),
    getD_set_other _ _ _ _ (by omega), getD_set_other _ _ _ _ (by omega),
    getD_set_self _ _ _ (by simp only [List.length_set]; omega),
    getD_set_other _ _ _ _ (by omega),
    getD_set_self _ _ _ (by simp only [List.length_set]; omega),
    getD_set_self _ _ _ (by simp only [List.length_set]; omega)]
  omega

theorem writeWord32_length (bytes : List Nat) (off v : Nat) :
    (writeWord32 bytes off v).length = bytes.length := by
  unfold writeWord32
  simp only [List.length_set]

theorem writeWord32_getElem_other (bytes : List Nat) (off v k : Nat)
    (h : k < off ∨ off + 4 ≤ k) : (writeWord32 bytes off v)[k]? = bytes[k]? := by
  unfold writeWord32
  rw [List.getElem?_set_ne (by omega), List.getElem?_set_ne (by omega),
    List.getElem?_set_ne (by omega), List.getElem?_set_ne (by omega)]
/-! ## Unfolding avemlist -/

theorem avemlist_eq {α : Type} [Add α] [Mul α] [Div α] (V : IntView α) (sqrt : α → α)
    (fuel DATA MOLECULES : Nat) (f : MList α) (S : ScanResult α)
    (hS : scanLoop V sqrt fuel (readUnvisited V f.records) (readWord32 f.header MOLECULES) 0
      ⟨f.records, [], []⟩ [] 0 = S) :
    avemlist V sqrt fuel DATA MOLECULES f =
      if S.ret = Ret.zero then
        ⟨Ret.zero, S.input, writeWord32 (f.header.take DATA) MOLECULES S.tracks, S.output,
          word32 0, S.tracks⟩
      else ⟨S.ret, S.input, f.header.take DATA, S.output, [], S.tracks⟩ := by
  unfold avemlist
  simp only [hS]
  rcases S with ⟨ret, inp, out, t⟩
  cases ret <;> simp

/-! ## Claims on the output file -/

/-- C6: when the run returns 0 (header of at least DATA bytes, count field inside it), the
output file is a header of DATA bytes, then the emitted records, then exactly one zero word
of 4 bytes; the number of records equals the track counter (incremented once per successful
averageTrack call), and the 4-byte field at offset MOLECULES of the output header holds it. -/
theorem avemlist_output_layout {α : Type} [Add α] [Mul α] [Div α] (V : IntView α)
    (sqrt : α → α) (fuel DATA MOLECULES : Nat) (f : MList α)
    (hfield : MOLECULES + 4 ≤ DATA) (hheader : DATA ≤ f.header.length)
    (hret : (avemlist V sqrt fuel DATA MOLECULES f).ret = Ret.zero) :
    (avemlist V sqrt fuel DATA MOLECULES f).header.length = DATA ∧
    (avemlist V sqrt fuel DATA MOLECULES f).trailer = [0, 0, 0, 0] ∧
    (avemlist V sqrt fuel DATA MOLECULES f).records.length =
      (avemlist V sqrt fuel DATA MOLECULES f).tracks ∧
    readWord32 (avemlist V sqrt fuel DATA MOLECULES f).header MOLECULES =
      (avemlist V sqrt fuel DATA MOLECULES f).records.length := by
  rw [avemlist_eq V sqrt fuel DATA MOLECULES f _ rfl] at hret ⊢
  split at hret
  · rename_i hz
    rw [if_pos hz]
    have hm := readWord32_lt f.header MOLECULES
    obtain ⟨h1, h2⟩ := scanLoop_tracks V sqrt fuel (readUnvisited V f.records)
      (readWord32 f.header MOLECULES) 0 ⟨f.records, [], []⟩ [] 0 (by omega) rfl hz
    have hlen : (f.header.take DATA).length = DATA := by
      rw [List.length_take]
      omega
    refine ⟨?_, rfl, h1, ?_⟩
    · simp only [writeWord32_length, hlen]
    · simp only
      rw [readWord32_writeWord32 _ _ _ (by omega) (by omega), h1]
  · rename_i hz
    exact absurd hret hz

theorem avemlist_output_layout_witness :
    12 + 4 ≤ 16 ∧ 16 ≤ scenarioFile.header.length ∧
    (avemlist ratView ratSqrt 1 16 12 scenarioFile).ret = Ret.zero ∧
    (avemlist ratView ratSqrt 1 16 12 scenarioFile).header.length = 16 ∧
    (avemlist ratView ratSqrt 1 16 12 scenarioFile).trailer = [0, 0, 0, 0] ∧
    (avemlist ratView ratSqrt 1 16 12 scenarioFile).records.length =
      (avemlist ratView ratSqrt 1 16 12 scenarioFile).tracks ∧
    readWord32 (avemlist ratView ratSqrt 1 16 12 scenarioFile).header 12 =
      (avemlist ratView ratSqrt 1 16 12 scenarioFile).records.length :=
  ⟨by decide, by decide, by decide,
    avemlist_output_layout ratView ratSqrt 1 16 12 scenarioFile (by decide) (by decide)
      (by decide)⟩

/-- C7: every byte of the output header outside the 4-byte count field at offset MOLECULES
equals the byte at the same offset of the input header; in particular the first MOLECULES
bytes are identical.  (This holds for every run, also one that does not return 0.) -/
theorem avemlist_header_copy {α : Type} [Add α] [Mul α] [Div α] (V : IntView α)
    (sqrt : α → α) (fuel DATA MOLECULES : Nat) (f : MList α) (k : Nat)
    (hfield : MOLECULES + 4 ≤ DATA) (hk : k < DATA)
    (hout : k < MOLECULES ∨ MOLECULES + 4 ≤ k) :
    (avemlist V sqrt fuel DATA MOLECULES f).header[k]? = f.header[k]? ∧
    (avemlist V sqrt fuel DATA MOLECULES f).header.take MOLECULES =
      f.header.take MOLECULES := by
  rw [avemlist_eq V sqrt fuel DATA MOLECULES f _ rfl]
  have hbyte : ∀ j, j < DATA → (j < MOLECULES ∨ MOLECULES + 4 ≤ j) →
      (writeWord32 (f.header.take DATA) MOLECULES
        (scanLoop V sqrt fuel (readUnvisited V f.records) (readWord32 f.header MOLECULES) 0
          ⟨f.records, [], []⟩ [] 0).tracks)[j]? = f.header[j]? := by
    intro j hj hjo
    rw [writeWord32_getElem_other _ _ _ _ hjo, List.getElem?_take, if_pos hj]
  have htake : ∀ j, j < DATA → (f.header.take DATA)[j]? = f.header[j]? := by
    intro j hj
    rw [List.getElem?_take, if_pos hj]
  split
  · refine ⟨hbyte k hk hout, ?_⟩
    apply List.ext_getElem?
    intro j
    simp only [List.getElem?_take]
    split
    · exact hbyte j (by omega) (Or.inl (by omega))
    · rfl
  · refine ⟨htake k hk, ?_⟩
    apply List.ext_getElem?
    intro j
    simp only [List.getElem?_take]
    split
    · rename_i hj
      rw [if_pos (by omega)]
    · rfl

theorem avemlist_header_copy_witness :
    12 + 4 ≤ 16 ∧ (0 : Nat) < 16 ∧ ((0 : Nat) < 12 ∨ 12 + 4 ≤ (0 : Nat)) ∧
    (avemlist ratView ratSqrt 1 16 12 scenarioFile).header[0]? = scenarioFile.header[0]? ∧
    (avemlist ratView ratSqrt 1 16 12 scenarioFile).header.take 12 =
      scenarioFile.header.take 12 :=
  ⟨by decide, by decide, by decide,
    avemlist_header_copy ratView ratSqrt 1 16 12 scenarioFile 0 (by decide) (by decide)
      (by decide)⟩

/-! ## The test on CAT in the scan -/

theorem mkRecord_X (x h a v c l : ℚ) : mkRecord x h a v c l X = x := rfl

theorem mkRecord_AREA (x h a v c l : ℚ) : mkRecord x h a v c l AREA = a := rfl

theorem flag_X : average_flag X = AVERAGE := rfl

theorem flag_AREA : average_flag AREA = TOTAL := rfl

theorem ratSqrt_one : ratSqrt 1 = 1 := by
  simp [ratSqrt, natSqrt_one]

theorem ratSqrt_four : ratSqrt 4 = 2 := by
  simp [ratSqrt, natSqrt_one, natSqrt_four]

theorem ratSqrt_nine : ratSqrt 9 = 3 := by
  simp [ratSqrt, natSqrt_one, natSqrt_nine]

/-- C3 (the code at the failing input): the only record of `noiseFile` carries the unvisited
value and has CAT = -1 as a signed integer, yet the scan calls averageTrack on it (two reads
of index 0), one record is emitted and the track counter is 1. -/
theorem avemlist_negative_cat_head :
    ratView.i32 (mkRecord 5 1 2 0 4294967295 4294967295 CAT) = -1 ∧
    ratView.u32 (mkRecord 5 1 2 0 4294967295 4294967295 VISITED) =
      toU32 (readUnvisited ratView noiseFile.records) ∧
    (avemlist ratView ratSqrt 1 16 12 noiseFile).ret = Ret.zero ∧
    (avemlist ratView ratSqrt 1 16 12 noiseFile).input.reads = [0, 0] ∧
    (avemlist ratView ratSqrt 1 16 12 noiseFile).input.writes = [0] ∧
    (avemlist ratView ratSqrt 1 16 12 noiseFile).records.length = 1 ∧
    (avemlist ratView ratSqrt 1 16 12 noiseFile).tracks = 1 := by
  decide

/-- C5 (the code at the scenario input): the run returns 0 and the first output record has
X = 16 and AREA = 7 + 8, but the output holds 2 records, not 1, and the track count in the
output header is 2: record 2 (CAT = -1) is averaged as a track of its own. -/
theorem avemlist_scenario :
    (avemlist ratView ratSqrt 1 16 12 scenarioFile).ret = Ret.zero ∧
    (avemlist ratView ratSqrt 1 16 12 scenarioFile).records.length = 2 ∧
    (avemlist ratView ratSqrt 1 16 12 scenarioFile).records.map (fun r => (r X, r AREA)) =
      [(16, 15), (5, 2)] ∧
    (avemlist ratView ratSqrt 1 16 12 scenarioFile).trailer = [0, 0, 0, 0] ∧
    readWord32 (avemlist ratView ratSqrt 1 16 12 scenarioFile).header 12 = 2 := by
  refine ⟨by decide, by decide, ?_, by decide, by decide⟩
  have h : (avemlist ratView ratSqrt 1 16 12 scenarioFile).records =
      [divideFields (accumulateFields (normalizeFields (mkRecord 10 4 7 0 0 1) (ratSqrt 4))
          (mkRecord 20 9 8 0 0 4294967295) (ratSqrt 9)) (ratSqrt 4 + ratSqrt 9),
        divideFields (normalizeFields (mkRecord 5 1 2 0 4294967295 4294967295) (ratSqrt 1))
          (ratSqrt 1)] := by
    rfl
  rw [h]
  have e : (TOTAL = AVERAGE) = False := by decide
  simp only [List.map, divideFields, accumulateFields, normalizeFields, mkRecord_X,
    mkRecord_AREA, flag_X, flag_AREA, ratSqrt_one, ratSqrt_four, ratSqrt_nine, if_true, e,
    if_false]
  norm_num

/-! ## Frame of the writes and account of the reads -/

theorem readRecord_none_iff {α : Type} (records : List (Record α)) (m : Int) :
    readRecord records m = none ↔ (m < 0 ∨ records.length ≤ m.toNat) := by
  unfold readRecord
  by_cases h : 0 ≤ m
  · rw [if_pos h, List.getElem?_eq_none_iff]
    omega
  · rw [if_neg h]
    simp only [true_iff]
    omega

theorem readRecord_none_congr {α : Type} (a b : List (Record α)) (m : Int)
    (h : a.length = b.length) : readRecord a m = none ↔ readRecord b m = none := by
  rw [readRecord_none_iff, readRecord_none_iff, h]

theorem readRecord_some {α : Type} (records : List (Record α)) (m : Int) (r : Record α)
    (h : readRecord records m = some r) :
    0 ≤ m ∧ m.toNat < records.length ∧ records[m.toNat]? = some r := by
  unfold readRecord at h
  split at h
  · rename_i h0
    exact ⟨h0, (List.getElem?_eq_some.1 h).1, h⟩
  · cases h

theorem frameVisited_refl {α : Type} (stamp : α) (s s2 : MListState α)
    (hr : s2.records = s.records) (hw : s2.writes = s.writes) : FrameVisited stamp s s2 := by
  refine ⟨by rw [hr], [], by rw [hw, List.append_nil], ?_, ?_, ?_⟩
  · intro m hm
    cases hm
  · intro k _
    rw [hr]
  · intro k hk
    cases hk

theorem frameVisited_write {α : Type} (stamp : α) (s : MListState α) (m : Int)
    (od : Record α) (h : readRecord s.records m = some od) :
    FrameVisited stamp s (fwriteRecord s m (Function.update od VISITED stamp)) := by
  obtain ⟨h0, hlt, hget⟩ := readRecord_some s.records m od h
  refine ⟨by simp only [fwriteRecord, List.length_set], [m], rfl, ?_, ?_, ?_⟩
  · intro m' hm'
    rw [List.mem_singleton] at hm'
    subst hm'
    exact ⟨h0, hlt⟩
  · intro k hk
    rw [List.mem_singleton] at hk
    simp only [fwriteRecord]
    rw [List.getElem?_set_ne]
    intro hcontra
    apply hk
    omega
  · intro k hk r r2 hr hr2
    rw [List.mem_singleton] at hk
    have hkm : m.toNat = k := by omega
    simp only [fwriteRecord] at hr2
    rw [hkm, List.getElem?_set_self (by rw [← hkm]; exact hlt)] at hr2
    cases hr2
    rw [hkm] at hget
    rw [hget] at hr
    cases hr
    refine ⟨?_, Function.update_same _ _ _⟩
    intro i hi
    exact Function.update_noteq hi _ _

theorem frameVisited_trans {α : Type} (stamp : α) (s s2 s3 : MListState α)
    (h12 : FrameVisited stamp s s2) (h23 : FrameVisited stamp s2 s3) :
    FrameVisited stamp s s3 := by
  obtain ⟨hl1, w1, hw1, hin1, hout1, hst1⟩ := h12
  obtain ⟨hl2, w2, hw2, hin2, hout2, hst2⟩ := h23
  refine ⟨by rw [hl2, hl1], w1 ++ w2, by rw [hw2, hw1, List.append_assoc], ?_, ?_, ?_⟩
  · intro m hm
    rcases List.mem_append.1 hm with h | h
    · exact hin1 m h
    · have := hin2 m h
      rw [hl1] at this
      exact this
  · intro k hk
    rw [List.mem_append, not_or] at hk
    rw [hout2 k hk.2, hout1 k hk.1]
  · intro k hk r r3 hr hr3
    have hklt : k < s.records.length := (List.getElem?_eq_some.1 hr).1
    have hr2 : s2.records[k]? = some s2.records[k] :=
      List.getElem?_eq_getElem (by rw [hl1]; exact hklt)
    by_cases hk2 : (k : Int) ∈ w2
    · obtain ⟨ha, hv⟩ := hst2 k hk2 _ r3 hr2 hr3
      refine ⟨?_, hv⟩
      by_cases hk1 : (k : Int) ∈ w1
      · obtain ⟨hb, _⟩ := hst1 k hk1 r _ hr hr2
        intro i hi
        rw [ha i hi, hb i hi]
      · have := hout1 k hk1
        rw [hr, hr2] at this
        cases this
        exact ha
    · have hk1 : (k : Int) ∈ w1 := by
        rcases List.mem_append.1 hk with h | h
        · exact h
        · exact absurd h hk2
      have := hout2 k hk2
      rw [hr3, hr2] at this
      cases this
      exact hst1 k hk1 r _ hr hr2

theorem readsExplain_nil {α : Type} (records : List (Record α)) (ret : Ret)
    (s s2 : MListState α) (hne : ret ≠ Ret.one) (hr : s2.reads = s.reads) :
    ReadsExplain records ret s s2 := by
  refine ⟨[], by rw [hr, List.append_nil], fun h => absurd h hne, ?_⟩
  intro _ m hm
  cases hm

theorem readsExplain_short {α : Type} (records : List (Record α)) (s s2 : MListState α)
    (m : Int) (hr : s2.reads = s.reads ++ [m]) (hm : readRecord records m = none) :
    ReadsExplain records Ret.one s s2 :=
  ⟨[m], hr, fun _ => ⟨m, List.mem_singleton.2 rfl, hm⟩, fun h => absurd rfl h⟩

theorem readsExplain_cons {α : Type} (records : List (Record α)) (ret : Ret)
    (s s2 s3 : MListState α) (m : Int) (hr : s2.reads = s.reads ++ [m])
    (hm : readRecord records m ≠ none) (h : ReadsExplain records ret s2 s3) :
    ReadsExplain records ret s s3 := by
  obtain ⟨rd, hrd, h1, h2⟩ := h
  refine ⟨m :: rd, by rw [hrd, hr, List.append_assoc]; rfl, ?_, ?_⟩
  · intro hone
    obtain ⟨m', hm', hs⟩ := h1 hone
    exact ⟨m', List.mem_cons_of_mem _ hm', hs⟩
  · intro hne m' hm'
    rcases List.mem_cons.1 hm' with h | h
    · rw [h]
      exact hm
    · exact h2 hne m' h

theorem readsExplain_trans {α : Type} (records : List (Record α)) (ret : Ret)
    (s s2 s3 : MListState α) (h12 : ReadsExplain records Ret.zero s s2)
    (h23 : ReadsExplain records ret s2 s3) : ReadsExplain records ret s s3 := by
  obtain ⟨rd1, hrd1, _, hok1⟩ := h12
  obtain ⟨rd2, hrd2, h1, h2⟩ := h23
  refine ⟨rd1 ++ rd2, by rw [hrd2, hrd1, List.append_assoc], ?_, ?_⟩
  · intro hone
    obtain ⟨m', hm', hs⟩ := h1 hone
    exact ⟨m', List.mem_append_right _ hm', hs⟩
  · intro hne m' hm'
    rcases List.mem_append.1 hm' with h | h
    · exact hok1 (by decide) m' h
    · exact h2 hne m' h

theorem whileLink_frame {α : Type} [Add α] [Mul α] (V : IntView α) (sqrt : α → α)
    (visited : Int) (recs : List (Record α)) :
    ∀ (fuel : Nat) (s : MListState α) (od avg : Record α) (tw : α),
      s.records.length = recs.length →
      FrameVisited (V.ofInt visited) s (whileLink V sqrt visited fuel s od avg tw).input ∧
      ReadsExplain recs (whileLink V sqrt visited fuel s od avg tw).ret s
        (whileLink V sqrt visited fuel s od avg tw).input := by
  intro fuel
  induction fuel with
  | zero =>
    intro s od avg tw _
    by_cases hpos : 0 < V.i32 (od LINK)
    · rw [whileLink_zero V sqrt visited s od avg tw hpos]
      exact ⟨frameVisited_refl _ s s rfl rfl, readsExplain_nil recs _ s s (by intro h; cases h) rfl⟩
    · rw [whileLink_done V sqrt visited 0 s od avg tw hpos]
      exact ⟨frameVisited_refl _ s s rfl rfl, readsExplain_nil recs _ s s (by intro h; cases h) rfl⟩
  | succ k ih =>
    intro s od avg tw hlen
    by_cases hpos : 0 < V.i32 (od LINK)
    · cases hr : readRecord s.records (V.i32 (od LINK)) with
      | none =>
        rw [whileLink_short V sqrt visited k s od avg tw hpos hr]
        refine ⟨frameVisited_refl _ s _ rfl rfl, readsExplain_short recs s _ _ rfl ?_⟩
        exact (readRecord_none_congr _ _ _ hlen).1 hr
      | some od2 =>
        rw [whileLink_step V sqrt visited k s od avg tw od2 hpos hr]
        have hw : FrameVisited (V.ofInt visited) s
            (fwriteRecord { s with reads := s.reads ++ [V.i32 (od LINK)] } (V.i32 (od LINK))
              (Function.update od2 VISITED (V.ofInt visited))) :=
          frameVisited_trans _ s { s with reads := s.reads ++ [V.i32 (od LINK)] } _
            (frameVisited_refl _ s _ rfl rfl)
            (frameVisited_write _ { s with reads := s.reads ++ [V.i32 (od LINK)] } _ od2 hr)
        have hlen2 : (fwriteRecord { s with reads := s.reads ++ [V.i32 (od LINK)] }
            (V.i32 (od LINK)) (Function.update od2 VISITED (V.ofInt visited))).records.length =
            recs.length := by
          rw [hw.1, hlen]
        obtain ⟨hf, hrd⟩ := ih _ (Function.update od2 VISITED (V.ofInt visited))
          (accumulateFields avg od2 (sqrt (od2 HEIGHT))) (tw + sqrt (od2 HEIGHT)) hlen2
        refine ⟨frameVisited_trans _ _ _ _ hw hf, ?_⟩
        refine readsExplain_cons recs _ s _ _ (V.i32 (od LINK)) rfl ?_ hrd
        intro hnone
        rw [(readRecord_none_congr _ _ _ hlen).2 hnone] at hr
        cases hr
    · rw [whileLink_done V sqrt visited (k + 1) s od avg tw hpos]
      exact ⟨frameVisited_refl _ s s rfl rfl, readsExplain_nil recs _ s s (by intro h; cases h) rfl⟩

theorem averageTrack_frame {α : Type} [Add α] [Mul α] [Div α] (V : IntView α) (sqrt : α → α)
    (fuel : Nat) (recs : List (Record α)) (s : MListState α) (output : List (Record α))
    (molecule visited : Int) (hlen : s.records.length = recs.length) :
    FrameVisited (V.ofInt visited) s (averageTrack V sqrt fuel s output molecule visited).input ∧
    ReadsExplain recs (averageTrack V sqrt fuel s output molecule visited).ret s
      (averageTrack V sqrt fuel s output molecule visited).input := by
  cases hr : readRecord s.records molecule with
  | none =>
    rw [averageTrack_short V sqrt fuel s output molecule visited hr]
    refine ⟨frameVisited_refl _ s _ rfl rfl, readsExplain_short recs s _ _ rfl ?_⟩
    exact (readRecord_none_congr _ _ _ hlen).1 hr
  | some od =>
    rw [averageTrack_read V sqrt fuel s output molecule visited od hr _ rfl]
    have hw : FrameVisited (V.ofInt visited) s
        (fwriteRecord { s with reads := s.reads ++ [molecule] } molecule
          (Function.update od VISITED (V.ofInt visited))) :=
      frameVisited_trans _ s { s with reads := s.reads ++ [molecule] } _
        (frameVisited_refl _ s _ rfl rfl)
        (frameVisited_write _ { s with reads := s.reads ++ [molecule] } _ od hr)
    have hlen2 : (fwriteRecord { s with reads := s.reads ++ [molecule] } molecule
        (Function.update od VISITED (V.ofInt visited))).records.length = recs.length := by
      rw [hw.1, hlen]
    obtain ⟨hf, hrd⟩ := whileLink_frame V sqrt visited recs fuel _
      (Function.update od VISITED (V.ofInt visited)) (normalizeFields od (sqrt (od HEIGHT)))
      (sqrt (od HEIGHT)) hlen2
    have hnn : readRecord recs molecule ≠ none := by
      intro hnone
      rw [(readRecord_none_congr _ _ _ hlen).2 hnone] at hr
      cases hr
    split
    · rename_i hz
      refine ⟨frameVisited_trans _ _ _ _ hw hf, ?_⟩
      rw [hz] at hrd
      exact readsExplain_cons recs _ s _ _ molecule rfl hnn hrd
    · exact ⟨frameVisited_trans _ _ _ _ hw hf,
        readsExplain_cons recs _ s _ _ molecule rfl hnn hrd⟩

theorem scanLoop_frame {α : Type} [Add α] [Mul α] [Div α] (V : IntView α) (sqrt : α → α)
    (fuel : Nat) (unvisited : Int) (recs : List (Record α)) :
    ∀ (n i : Nat) (s : MListState α) (output : List (Record α)) (tracks : Nat),
      s.records.length = recs.length →
      FrameVisited (V.ofInt (toInt32 (toU32 (unvisited + 1)))) s
        (scanLoop V sqrt fuel unvisited n i s output tracks).input ∧
      ReadsExplain recs (scanLoop V sqrt fuel unvisited n i s output tracks).ret s
        (scanLoop V sqrt fuel unvisited n i s output tracks).input := by
  intro n
  induction n with
  | zero =>
    intro i s output tracks _
    rw [scanLoop_zero]
    exact ⟨frameVisited_refl _ s s rfl rfl, readsExplain_nil recs _ s s (by intro h; cases h) rfl⟩
  | succ n ih =>
    intro i s output tracks hlen
    cases hr : readRecord s.records (i : Int) with
    | none =>
      rw [scanLoop_short V sqrt fuel unvisited n i s output tracks hr]
      refine ⟨frameVisited_refl _ s _ rfl rfl, readsExplain_short recs s _ _ rfl ?_⟩
      exact (readRecord_none_congr _ _ _ hlen).1 hr
    | some od =>
      have hnn : readRecord recs (i : Int) ≠ none := by
        intro hnone
        rw [(readRecord_none_congr _ _ _ hlen).2 hnone] at hr
        cases hr
      by_cases hv : V.u32 (od VISITED) = toU32 unvisited
      · rw [scanLoop_track V sqrt fuel unvisited n i s output tracks od hr hv _ rfl]
        obtain ⟨hf, hrd⟩ := averageTrack_frame V sqrt fuel recs
          { s with reads := s.reads ++ [(i : Int)] } output (toInt32 i)
          (toInt32 (toU32 (unvisited + 1))) hlen
        have hf0 : FrameVisited (V.ofInt (toInt32 (toU32 (unvisited + 1)))) s
            (averageTrack V sqrt fuel { s with reads := s.reads ++ [(i : Int)] } output
              (toInt32 i) (toInt32 (toU32 (unvisited + 1)))).input :=
          frameVisited_trans _ s { s with reads := s.reads ++ [(i : Int)] } _
            (frameVisited_refl _ s _ rfl rfl) hf
        split
        · rename_i hz
          rw [hz] at hrd
          obtain ⟨hf2, hrd2⟩ := ih (i + 1) _ (averageTrack V sqrt fuel
            { s with reads := s.reads ++ [(i : Int)] } output (toInt32 i)
            (toInt32 (toU32 (unvisited + 1)))).output ((tracks + 1) % 4294967296)
            (by rw [hf0.1, hlen])
          exact ⟨frameVisited_trans _ _ _ _ hf0 hf2,
            readsExplain_cons recs _ s _ _ (i : Int) rfl hnn
              (readsExplain_trans recs _ _ _ _ hrd hrd2)⟩
        · exact ⟨hf0, readsExplain_cons recs _ s _ _ (i : Int) rfl hnn hrd⟩
      · rw [scanLoop_skip V sqrt fuel unvisited n i s output tracks od hr hv]
        obtain ⟨hf2, hrd2⟩ := ih (i + 1) { s with reads := s.reads ++ [(i : Int)] } output
          tracks hlen
        exact ⟨frameVisited_trans _ s { s with reads := s.reads ++ [(i : Int)] } _
            (frameVisited_refl _ s _ rfl rfl) hf2,
          readsExplain_cons recs _ s _ _ (i : Int) rfl hnn hrd2⟩

theorem avemlist_input {α : Type} [Add α] [Mul α] [Div α] (V : IntView α) (sqrt : α → α)
    (fuel DATA MOLECULES : Nat) (f : MList α) :
    (avemlist V sqrt fuel DATA MOLECULES f).ret =
      (scanLoop V sqrt fuel (readUnvisited V f.records) (readWord32 f.header MOLECULES) 0
        ⟨f.records, [], []⟩ [] 0).ret ∧
    (avemlist V sqrt fuel DATA MOLECULES f).input =
      (scanLoop V sqrt fuel (readUnvisited V f.records) (readWord32 f.header MOLECULES) 0
        ⟨f.records, [], []⟩ [] 0).input ∧
    (avemlist V sqrt fuel DATA MOLECULES f).records =
      (scanLoop V sqrt fuel (readUnvisited V f.records) (readWord32 f.header MOLECULES) 0
        ⟨f.records, [], []⟩ [] 0).output ∧
    (avemlist V sqrt fuel DATA MOLECULES f).tracks =
      (scanLoop V sqrt fuel (readUnvisited V f.records) (readWord32 f.header MOLECULES) 0
        ⟨f.records, [], []⟩ [] 0).tracks := by
  rw [avemlist_eq V sqrt fuel DATA MOLECULES f _ rfl]
  split
  · rename_i hz
    exact ⟨hz.symm, rfl, rfl, rfl⟩
  · exact ⟨rfl, rfl, rfl, rfl⟩

/-! ## averageTrack does not consult a field other than HEIGHT and LINK -/

theorem agreeOff_update_both {α : Type} (f0 g : Idx) (a b : Record α) (v : α)
    (h : AgreeOff f0 a b) : AgreeOff f0 (Function.update a g v) (Function.update b g v) := by
  intro i hi
  by_cases hg : i = g
  · subst hg
    rw [Function.update_same, Function.update_same]
  · rw [Function.update_noteq hg, Function.update_noteq hg]
    exact h i hi

theorem storeAgreeOff_nil {α : Type} (f0 : Idx) :
    StoreAgreeOff f0 ([] : List (Record α)) [] := by
  refine ⟨rfl, ?_⟩
  intro k a b ha
  cases ha

theorem storeAgreeOff_cons {α : Type} (f0 : Idx) (a b : Record α) (s t : List (Record α))
    (hab : AgreeOff f0 a b) (h : StoreAgreeOff f0 s t) :
    StoreAgreeOff f0 (a :: s) (b :: t) := by
  refine ⟨by simp only [List.length_cons, h.1], ?_⟩
  intro k a1 b1 ha1 hb1
  cases k with
  | zero =>
    simp only [List.getElem?_cons_zero, Option.some.injEq] at ha1 hb1
    subst ha1 hb1
    exact hab
  | succ k =>
    simp only [List.getElem?_cons_succ] at ha1 hb1
    exact h.2 k a1 b1 ha1 hb1

theorem storeAgreeOff_snoc {α : Type} (f0 : Idx) (a b : Record α) (s : List (Record α))
    (hab : AgreeOff f0 a b) : StoreAgreeOff f0 (s ++ [a]) (s ++ [b]) := by
  induction s with
  | nil => exact storeAgreeOff_cons f0 a b [] [] hab (storeAgreeOff_nil f0)
  | cons c s ih => exact storeAgreeOff_cons f0 c c _ _ (agreeOff_refl f0 c) ih

theorem storeAgreeOff_set_both {α : Type} (f0 : Idx) (s t : List (Record α)) (k : Nat)
    (a b : Record α) (h : StoreAgreeOff f0 s t) (hab : AgreeOff f0 a b) :
    StoreAgreeOff f0 (s.set k a) (t.set k b) := by
  refine ⟨by rw [List.length_set, List.length_set]; exact h.1, ?_⟩
  intro j a1 b1 ha1 hb1
  rw [List.getElem?_set] at ha1 hb1
  by_cases hkj : k = j
  · rw [if_pos hkj] at ha1 hb1
    split at ha1
    · split at hb1
      · cases ha1
        cases hb1
        exact hab
      · cases hb1
    · cases ha1
  · rw [if_neg hkj] at ha1 hb1
    exact h.2 j a1 b1 ha1 hb1

theorem readRecord_agree_both {α : Type} (f0 : Idx) (s t : List (Record α)) (m : Int)
    (h : StoreAgreeOff f0 s t) :
    (readRecord s m = none ∧ readRecord t m = none) ∨
    ∃ a b, readRecord s m = some a ∧ readRecord t m = some b ∧ AgreeOff f0 a b := by
  cases hb : readRecord t m with
  | none => exact Or.inl ⟨(readRecord_none_congr s t m h.1).2 hb, rfl⟩
  | some b =>
    obtain ⟨a, ha, hab, _, _⟩ := readRecord_agree f0 s t m b h hb
    exact Or.inr ⟨a, b, ha, rfl, hab⟩

theorem accumulateFields_agreeOff {α : Type} [Add α] [Mul α] (f0 : Idx)
    (avg avg2 a b : Record α) (w : α) (havg : AgreeOff f0 avg avg2) (hab : AgreeOff f0 a b) :
    AgreeOff f0 (accumulateFields avg a w) (accumulateFields avg2 b w) := by
  intro i hi
  unfold accumulateFields
  rw [havg i hi, hab i hi]

theorem whileLink_agreeOff {α : Type} [Add α] [Mul α] (V : IntView α) (sqrt : α → α)
    (visited : Int) (f0 : Idx) (hH : HEIGHT ≠ f0) (hL : LINK ≠ f0) :
    ∀ (fuel : Nat) (s t : MListState α) (od od2 avg avg2 : Record α) (tw : α),
      StoreAgreeOff f0 s.records t.records → s.reads = t.reads → s.writes = t.writes →
      AgreeOff f0 od od2 → AgreeOff f0 avg avg2 →
      (whileLink V sqrt visited fuel s od avg tw).ret =
        (whileLink V sqrt visited fuel t od2 avg2 tw).ret ∧
      (whileLink V sqrt visited fuel s od avg tw).input.reads =
        (whileLink V sqrt visited fuel t od2 avg2 tw).input.reads ∧
      (whileLink V sqrt visited fuel s od avg tw).input.writes =
        (whileLink V sqrt visited fuel t od2 avg2 tw).input.writes ∧
      StoreAgreeOff f0 (whileLink V sqrt visited fuel s od avg tw).input.records
        (whileLink V sqrt visited fuel t od2 avg2 tw).input.records ∧
      AgreeOff f0 (whileLink V sqrt visited fuel s od avg tw).average_data
        (whileLink V sqrt visited fuel t od2 avg2 tw).average_data ∧
      (whileLink V sqrt visited fuel s od avg tw).total_weight =
        (whileLink V sqrt visited fuel t od2 avg2 tw).total_weight := by
  intro fuel
  induction fuel with
  | zero =>
    intro s t od od2 avg avg2 tw hs hrd hwr hod havg
    have hlink : od LINK = od2 LINK := hod LINK hL
    by_cases hpos : 0 < V.i32 (od LINK)
    · rw [whileLink_zero V sqrt visited s od avg tw hpos,
        whileLink_zero V sqrt visited t od2 avg2 tw (by rw [← hlink]; exact hpos)]
      exact ⟨rfl, hrd, hwr, hs, havg, rfl⟩
    · rw [whileLink_done V sqrt visited 0 s od avg tw hpos,
        whileLink_done V sqrt visited 0 t od2 avg2 tw (by rw [← hlink]; exact hpos)]
      exact ⟨rfl, hrd, hwr, hs, havg, rfl⟩
  | succ k ih =>
    intro s t od od2 avg avg2 tw hs hrd hwr hod havg
    have hlink : od LINK = od2 LINK := hod LINK hL
    by_cases hpos : 0 < V.i32 (od LINK)
    · have hpos2 : 0 < V.i32 (od2 LINK) := by rw [← hlink]; exact hpos
      rcases readRecord_agree_both f0 s.records t.records (V.i32 (od LINK)) hs with
        ⟨hn1, hn2⟩ | ⟨a, b, ha, hb, hab⟩
      · rw [hlink] at hn2
        rw [whileLink_short V sqrt visited k s od avg tw hpos hn1,
          whileLink_short V sqrt visited k t od2 avg2 tw hpos2 hn2]
        exact ⟨rfl, by simp only [hrd, hlink], hwr, hs, havg, rfl⟩
      · rw [hlink] at hb
        rw [whileLink_step V sqrt visited k s od avg tw a hpos ha,
          whileLink_step V sqrt visited k t od2 avg2 tw b hpos2 hb]
        have hh : a HEIGHT = b HEIGHT := hab HEIGHT hH
        rw [hh]
        apply ih
        · simp only [fwriteRecord, hlink]
          exact storeAgreeOff_set_both f0 _ _ _ _ _ hs
            (agreeOff_update_both f0 VISITED a b _ hab)
        · simp only [fwriteRecord, hrd, hlink]
        · simp only [fwriteRecord, hwr, hlink]
        · exact agreeOff_update_both f0 VISITED a b _ hab
        · exact accumulateFields_agreeOff f0 avg avg2 a b _ havg hab
    · rw [whileLink_done V sqrt visited (k + 1) s od avg tw hpos,
        whileLink_done V sqrt visited (k + 1) t od2 avg2 tw (by rw [← hlink]; exact hpos)]
      exact ⟨rfl, hrd, hwr, hs, havg, rfl⟩

theorem averageTrack_agreeOff {α : Type} [Add α] [Mul α] [Div α] (V : IntView α)
    (sqrt : α → α) (fuel : Nat) (f0 : Idx) (hH : HEIGHT ≠ f0) (hL : LINK ≠ f0)
    (s t : MListState α) (output : List (Record α)) (molecule visited : Int)
    (hs : StoreAgreeOff f0 s.records t.records) (hrd : s.reads = t.reads)
    (hwr : s.writes = t.writes) :
    (averageTrack V sqrt fuel s output molecule visited).ret =
      (averageTrack V sqrt fuel t output molecule visited).ret ∧
    (averageTrack V sqrt fuel s output molecule visited).input.reads =
      (averageTrack V sqrt fuel t output molecule visited).input.reads ∧
    (averageTrack V sqrt fuel s output molecule visited).input.writes =
      (averageTrack V sqrt fuel t output molecule visited).input.writes ∧
    StoreAgreeOff f0 (averageTrack V sqrt fuel s output molecule visited).input.records
      (averageTrack V sqrt fuel t output molecule visited).input.records ∧
    StoreAgreeOff f0 (averageTrack V sqrt fuel s output molecule visited).output
      (averageTrack V sqrt fuel t output molecule visited).output := by
  rcases readRecord_agree_both f0 s.records t.records molecule hs with
    ⟨hn1, hn2⟩ | ⟨a, b, ha, hb, hab⟩
  · rw [averageTrack_short V sqrt fuel s output molecule visited hn1,
      averageTrack_short V sqrt fuel t output molecule visited hn2]
    exact ⟨rfl, by simp only [hrd], hwr, hs, storeAgreeOff_refl f0 output⟩
  · rw [averageTrack_read V sqrt fuel s output molecule visited a ha _ rfl,
      averageTrack_read V sqrt fuel t output molecule visited b hb _ rfl]
    have hh : a HEIGHT = b HEIGHT := hab HEIGHT hH
    have havg : AgreeOff f0 (normalizeFields a (sqrt (a HEIGHT)))
        (normalizeFields b (sqrt (b HEIGHT))) := by
      intro i hi
      unfold normalizeFields
      rw [hab i hi, hh]
    obtain ⟨h1, h2, h3, h4, h5, h6⟩ := whileLink_agreeOff V sqrt visited f0 hH hL fuel
      (fwriteRecord { s with reads := s.reads ++ [molecule] } molecule
        (Function.update a VISITED (V.ofInt visited)))
      (fwriteRecord { t with reads := t.reads ++ [molecule] } molecule
        (Function.update b VISITED (V.ofInt visited)))
      (Function.update a VISITED (V.ofInt visited))
      (Function.update b VISITED (V.ofInt visited))
      (normalizeFields a (sqrt (a HEIGHT))) (normalizeFields b (sqrt (b HEIGHT)))
      (sqrt (a HEIGHT))
      (by
        simp only [fwriteRecord]
        exact storeAgreeOff_set_both f0 _ _ _ _ _ hs
          (agreeOff_update_both f0 VISITED a b _ hab))
      (by simp only [fwriteRecord, hrd]) (by simp only [fwriteRecord, hwr])
      (agreeOff_update_both f0 VISITED a b _ hab) havg
    rw [hh] at h1 h2 h3 h4 h5 h6
    rw [hh, h1]
    split
    · refine ⟨rfl, h2, h3, h4, ?_⟩
      apply storeAgreeOff_snoc
      intro i hi
      unfold divideFields
      rw [h5 i hi, h6]
    · exact ⟨rfl, h2, h3, h4, storeAgreeOff_refl f0 output⟩

/-! ## Claims on noise records -/

/-- C4 (counterexample): on `linkedNoiseFile` the run returns 0 and record 1, whose CAT is -1,
is folded into the only output record (it is read and written back by averageTrack and the
emitted AREA is 7 + 8), so noise exclusion fails for a linked member. -/
theorem noise_linked_member_is_folded :
    ¬ NoiseExcluded ratView linkedNoiseFile (avemlist ratView ratSqrt 1 16 12 linkedNoiseFile) ∧
    (avemlist ratView ratSqrt 1 16 12 linkedNoiseFile).ret = Ret.zero ∧
    (avemlist ratView ratSqrt 1 16 12 linkedNoiseFile).input.writes = [0, 1] ∧
    (avemlist ratView ratSqrt 1 16 12 linkedNoiseFile).records.map (fun r => r AREA) =
      [15] := by
  refine ⟨?_, by decide, by decide, ?_⟩
  · intro h
    have hw : (1 : Int) ∈ (avemlist ratView ratSqrt 1 16 12 linkedNoiseFile).input.writes := by
      decide
    have := h 1 hw (mkRecord 20 9 8 0 4294967295 4294967295) (by decide)
    revert this
    decide
  · have h : (avemlist ratView ratSqrt 1 16 12 linkedNoiseFile).records =
        [divideFields (accumulateFields (normalizeFields (mkRecord 10 4 7 0 0 1) (ratSqrt 4))
          (mkRecord 20 9 8 0 4294967295 4294967295) (ratSqrt 9)) (ratSqrt 4 + ratSqrt 9)] := by
      rfl
    rw [h]
    have e : (TOTAL = AVERAGE) = False := by decide
    simp only [List.map, divideFields, accumulateFields, normalizeFields, mkRecord_AREA,
      flag_AREA, if_true, e, if_false]
    norm_num

/-- C4 (amended): averageTrack does not consult CAT.  On two input files that agree in every
field of every record except CAT, averageTrack from the same head returns the same value,
reads and writes back the same record indices, and emits a record that agrees in every field
except CAT: a record reached through a LINK is folded whatever its CAT. -/
theorem averageTrack_ignores_cat {α : Type} [Add α] [Mul α] [Div α] (V : IntView α)
    (sqrt : α → α) (fuel : Nat) (s t : MListState α) (output : List (Record α))
    (molecule visited : Int)
    (hrecords : StoreAgreeOff CAT s.records t.records) (hreads : s.reads = t.reads)
    (hwrites : s.writes = t.writes) :
    (averageTrack V sqrt fuel s output molecule visited).ret =
      (averageTrack V sqrt fuel t output molecule visited).ret ∧
    (averageTrack V sqrt fuel s output molecule visited).input.reads =
      (averageTrack V sqrt fuel t output molecule visited).input.reads ∧
    (averageTrack V sqrt fuel s output molecule visited).input.writes =
      (averageTrack V sqrt fuel t output molecule visited).input.writes ∧
    StoreAgreeOff CAT (averageTrack V sqrt fuel s output molecule visited).input.records
      (averageTrack V sqrt fuel t output molecule visited).input.records ∧
    StoreAgreeOff CAT (averageTrack V sqrt fuel s output molecule visited).output
      (averageTrack V sqrt fuel t output molecule visited).output :=
  averageTrack_agreeOff V sqrt fuel CAT (by decide) (by decide) s t output molecule visited
    hrecords hreads hwrites

theorem averageTrack_ignores_cat_witness :
    StoreAgreeOff CAT linkedNoiseFile.records pairStore ∧
    (averageTrack ratView ratSqrt 1 ⟨linkedNoiseFile.records, [], []⟩ [] 0 1).ret =
      (averageTrack ratView ratSqrt 1 ⟨pairStore, [], []⟩ [] 0 1).ret ∧
    (averageTrack ratView ratSqrt 1 ⟨linkedNoiseFile.records, [], []⟩ [] 0 1).input.reads =
      (averageTrack ratView ratSqrt 1 ⟨pairStore, [], []⟩ [] 0 1).input.reads ∧
    (averageTrack ratView ratSqrt 1 ⟨linkedNoiseFile.records, [], []⟩ [] 0 1).input.writes =
      (averageTrack ratView ratSqrt 1 ⟨pairStore, [], []⟩ [] 0 1).input.writes ∧
    StoreAgreeOff CAT
      (averageTrack ratView ratSqrt 1 ⟨linkedNoiseFile.records, [], []⟩ [] 0 1).input.records
      (averageTrack ratView ratSqrt 1 ⟨pairStore, [], []⟩ [] 0 1).input.records ∧
    StoreAgreeOff CAT
      (averageTrack ratView ratSqrt 1 ⟨linkedNoiseFile.records, [], []⟩ [] 0 1).output
      (averageTrack ratView ratSqrt 1 ⟨pairStore, [], []⟩ [] 0 1).output :=
  have h : StoreAgreeOff CAT linkedNoiseFile.records pairStore :=
    storeAgreeOff_cons CAT _ _ _ _ (by unfold AgreeOff; decide)
      (storeAgreeOff_cons CAT _ _ _ _ (by unfold AgreeOff; decide) (storeAgreeOff_nil CAT))
  ⟨h, averageTrack_ignores_cat ratView ratSqrt 1 ⟨linkedNoiseFile.records, [], []⟩
    ⟨pairStore, [], []⟩ [] 0 1 h rfl rfl⟩

/-! ## Machine integers -/

theorem toU32_lt (x : Int) : toU32 x < 4294967296 := by
  unfold toU32
  omega

theorem toU32_toInt32 (n : Nat) : toU32 (toInt32 n) = n % 4294967296 := by
  unfold toU32 toInt32
  split <;> omega

theorem toInt32_of_lt (n : Nat) (h : n < 2147483648) : toInt32 n = (n : Int) := by
  unfold toInt32
  rw [if_pos (by omega)]
  omega

theorem toU32_succ_ne (x : Int) : toU32 (x + 1) ≠ toU32 x := by
  unfold toU32
  omega

theorem u32_stamp {α : Type} (V : IntView α) (hV : V.RoundTrip) (x : Int) :
    V.u32 (V.ofInt (toInt32 (toU32 (x + 1)))) = toU32 (x + 1) := by
  unfold IntView.u32 IntView.ofInt
  rw [hV, toU32_toInt32]
  have := toU32_lt (x + 1)
  omega

theorem readRecord_of_lt {α : Type} (records : List (Record α)) (m : Int) (h0 : 0 ≤ m)
    (hlt : m.toNat < records.length) : ∃ r, readRecord records m = some r :=
  ⟨records[m.toNat], by unfold readRecord; rw [if_pos h0]; exact List.getElem?_eq_getElem hlt⟩

theorem readRecord_set_self {α : Type} (records : List (Record α)) (m : Int) (v r : Record α)
    (h : readRecord records m = some r) :
    readRecord (records.set m.toNat v) m = some v := by
  obtain ⟨h0, hlt, _⟩ := readRecord_some records m r h
  unfold readRecord
  rw [if_pos h0, List.getElem?_set_self hlt]

theorem readRecord_set_other {α : Type} (records : List (Record α)) (m k : Int)
    (v : Record α) (h0 : 0 ≤ m) (hk : k ≠ m) :
    readRecord (records.set m.toNat v) k = readRecord records k := by
  unfold readRecord
  by_cases hk0 : 0 ≤ k
  · rw [if_pos hk0, if_pos hk0, List.getElem?_set_ne]
    omega
  · rw [if_neg hk0, if_neg hk0]

/-! ## Disjoint chains: every record is written back once -/

theorem stamp_step {α : Type} (V : IntView α) (recs0 : List (Record α)) (n u u2 : Nat)
    (s : MListState α) (rd : List Int) (t : Int) (od : Record α) (stamp : α)
    (hstamp : V.u32 stamp = u2)
    (hagree : StoreAgreeOff VISITED s.records recs0)
    (hmarks : ∀ (m : Int) (r : Record α), m < n → readRecord s.records m = some r →
      (m ∈ s.writes → V.u32 (r VISITED) = u2) ∧ (m ∉ s.writes → V.u32 (r VISITED) = u))
    (hnodup : s.writes.Nodup) (hrange : ∀ m ∈ s.writes, 0 ≤ m ∧ m < n)
    (hread : readRecord s.records t = some od) (htn : t < n) (hnew : t ∉ s.writes) :
    StoreAgreeOff VISITED
      (fwriteRecord { s with reads := rd } t (Function.update od VISITED stamp)).records recs0 ∧
    (∀ (m : Int) (r : Record α), m < n →
      readRecord (fwriteRecord { s with reads := rd } t
        (Function.update od VISITED stamp)).records m = some r →
      (m ∈ (fwriteRecord { s with reads := rd } t (Function.update od VISITED stamp)).writes →
        V.u32 (r VISITED) = u2) ∧
      (m ∉ (fwriteRecord { s with reads := rd } t (Function.update od VISITED stamp)).writes →
        V.u32 (r VISITED) = u)) ∧
    (fwriteRecord { s with reads := rd } t (Function.update od VISITED stamp)).writes.Nodup ∧
    (∀ m ∈ (fwriteRecord { s with reads := rd } t (Function.update od VISITED stamp)).writes,
      0 ≤ m ∧ m < n) ∧
    (fwriteRecord { s with reads := rd } t (Function.update od VISITED stamp)).writes =
      s.writes ++ [t] ∧
    ∃ r0, readRecord recs0 t = some r0 ∧ AgreeOff VISITED (Function.update od VISITED stamp) r0
    := by
  obtain ⟨h0, hlt, hget⟩ := readRecord_some s.records t od hread
  have hlt0 : t.toNat < recs0.length := by rw [← hagree.1]; exact hlt
  obtain ⟨r0, hr0⟩ := readRecord_of_lt recs0 t h0 hlt0
  obtain ⟨_, _, hget0⟩ := readRecord_some recs0 t r0 hr0
  have hod : AgreeOff VISITED od r0 := hagree.2 t.toNat od r0 hget hget0
  have hupd : AgreeOff VISITED (Function.update od VISITED stamp) r0 :=
    agreeOff_update VISITED od r0 stamp hod
  simp only [fwriteRecord]
  refine ⟨storeAgreeOff_set VISITED _ _ _ _ r0 hagree hget0 hupd, ?_, ?_, ?_, trivial, r0,
    hr0, hupd⟩
  · intro m r hmn hr
    by_cases hmt : m = t
    · subst hmt
      rw [readRecord_set_self s.records m _ od hread] at hr
      cases hr
      constructor
      · intro _
        rw [Function.update_same]
        exact hstamp
      · intro hnot
        exact absurd (List.mem_append_right _ (List.mem_singleton.2 rfl)) hnot
    · rw [readRecord_set_other s.records t m _ h0 hmt] at hr
      obtain ⟨h1, h2⟩ := hmarks m r hmn hr
      constructor
      · intro hin
        rcases List.mem_append.1 hin with h | h
        · exact h1 h
        · exact absurd (List.mem_singleton.1 h) hmt
      · intro hnot
        exact h2 (fun h => hnot (List.mem_append_left _ h))
  · rw [List.nodup_append]
    refine ⟨hnodup, List.nodup_singleton t, ?_⟩
    intro a ha hb
    rw [List.mem_singleton] at hb
    subst hb
    exact hnew ha
  · intro m hm
    rcases List.mem_append.1 hm with h | h
    · exact hrange m h
    · rw [List.mem_singleton] at h
      subst h
      exact ⟨h0, htn⟩

theorem whileLink_disjoint {α : Type} [Add α] [Mul α] (V : IntView α) (sqrt : α → α)
    (visited : Int) (recs0 : List (Record α)) (n u u2 : Nat) (hW : WellLinked V recs0 n u)
    (hstamp : V.u32 (V.ofInt visited) = u2) (i : Int) :
    ∀ (fuel : Nat) (s : MListState α) (od avg : Record α) (tw : α) (cur : Int),
      LoopInv V recs0 n u u2 i cur s →
      (∃ r0, readRecord recs0 cur = some r0 ∧ AgreeOff VISITED od r0) →
      (n : Int) ≤ fuel + cur + 1 →
      (whileLink V sqrt visited fuel s od avg tw).ret = Ret.zero ∧
      ScanInv V recs0 n u u2 (i + 1) (whileLink V sqrt visited fuel s od avg tw).input := by
  intro fuel
  induction fuel with
  | zero =>
    intro s od avg tw cur hI hcur hfuel
    obtain ⟨r0, hr0, hod⟩ := hcur
    have hlink : od LINK = r0 LINK := hod LINK (by decide)
    have hcur_lt : cur < n := (hI.range cur hI.current.1).2
    by_cases hpos : 0 < V.i32 (od LINK)
    · have := hW.forward cur r0 hcur_lt hr0 (by rw [← hlink]; exact hpos)
      omega
    · rw [whileLink_done V sqrt visited 0 s od avg tw hpos]
      refine ⟨rfl, hI.agree, hI.marks, hI.nodup, hI.range, ?_, ?_⟩
      · intro m hm
        rcases hI.origin m hm with hle | ⟨j, rj, hj, _, hrj, hjl⟩
        · exact Or.inl (by omega)
        · exact Or.inr ⟨j, rj, hj, hrj, hjl⟩
      · intro m h0 hlt
        exact hI.done m h0 (by omega)
  | succ k ih =>
    intro s od avg tw cur hI hcur hfuel
    obtain ⟨r0, hr0, hod⟩ := hcur
    have hlink : od LINK = r0 LINK := hod LINK (by decide)
    have hcur_lt : cur < n := (hI.range cur hI.current.1).2
    by_cases hpos : 0 < V.i32 (od LINK)
    · obtain ⟨hfw1, hfw2⟩ := hW.forward cur r0 hcur_lt hr0 (by rw [← hlink]; exact hpos)
      rw [← hlink] at hfw1 hfw2
      have hlen : s.records.length = recs0.length := hI.agree.1
      obtain ⟨od2, hread⟩ := readRecord_of_lt s.records (V.i32 (od LINK)) (by omega)
        (by have := hW.complete; omega)
      have hnew : V.i32 (od LINK) ∉ s.writes := by
        intro hin
        rcases hI.origin _ hin with hle | ⟨j, rj, hj, hjne, hrj, hjl⟩
        · have := hI.current.2
          omega
        · apply hjne
          exact hW.injective j cur rj r0 (hI.range j hj).2 hcur_lt hrj hr0
            (by rw [hjl]; exact hpos) (by rw [hjl, hlink])
      rw [whileLink_step V sqrt visited k s od avg tw od2 hpos hread]
      obtain ⟨g1, g2, g3, g4, g5, g6⟩ := stamp_step V recs0 n u u2 s
        (s.reads ++ [V.i32 (od LINK)]) (V.i32 (od LINK)) od2 (V.ofInt visited) hstamp
        hI.agree hI.marks hI.nodup hI.range hread hfw2 hnew
      apply ih _ _ _ _ (V.i32 (od LINK)) _ g6 (by omega)
      refine ⟨g1, g2, g3, g4, ?_, ?_, ?_⟩
      · intro m hm
        rw [g5] at hm
        rw [g5]
        rcases List.mem_append.1 hm with h | h
        · rcases hI.origin m h with hle | ⟨j, rj, hj, hjne, hrj, hjl⟩
          · exact Or.inl hle
          · refine Or.inr ⟨j, rj, List.mem_append_left _ hj, ?_, hrj, hjl⟩
            intro e
            rw [e] at hj
            exact hnew hj
        · rw [List.mem_singleton] at h
          refine Or.inr ⟨cur, r0, List.mem_append_left _ hI.current.1, by omega, hr0, ?_⟩
          rw [h, hlink]
      · intro m h0 hle
        rw [g5]
        exact List.mem_append_left _ (hI.done m h0 hle)
      · rw [g5]
        refine ⟨List.mem_append_right _ (List.mem_singleton.2 rfl), ?_⟩
        have := hI.current.2
        omega
    · rw [whileLink_done V sqrt visited (k + 1) s od avg tw hpos]
      refine ⟨rfl, hI.agree, hI.marks, hI.nodup, hI.range, ?_, ?_⟩
      · intro m hm
        rcases hI.origin m hm with hle | ⟨j, rj, hj, _, hrj, hjl⟩
        · exact Or.inl (by omega)
        · exact Or.inr ⟨j, rj, hj, hrj, hjl⟩
      · intro m h0 hlt
        exact hI.done m h0 (by omega)

theorem averageTrack_disjoint {α : Type} [Add α] [Mul α] [Div α] (V : IntView α)
    (sqrt : α → α) (fuel : Nat) (unvisited : Int) (recs0 : List (Record α)) (n : Nat)
    (hV : V.RoundTrip) (hW : WellLinked V recs0 n (toU32 unvisited)) (hfuel : n ≤ fuel)
    (i : Nat) (s : MListState α) (rd : List Int) (output : List (Record α)) (od : Record α)
    (hI : ScanInv V recs0 n (toU32 unvisited) (toU32 (unvisited + 1)) (i : Int) s)
    (hi : i < n) (hread : readRecord s.records (i : Int) = some od)
    (hnew : (i : Int) ∉ s.writes) :
    (averageTrack V sqrt fuel { s with reads := rd } output (toInt32 i)
      (toInt32 (toU32 (unvisited + 1)))).ret = Ret.zero ∧
    ScanInv V recs0 n (toU32 unvisited) (toU32 (unvisited + 1)) ((i : Int) + 1)
      (averageTrack V sqrt fuel { s with reads := rd } output (toInt32 i)
        (toInt32 (toU32 (unvisited + 1)))).input := by
  have hti : toInt32 i = (i : Int) := toInt32_of_lt i (by have := hW.small; omega)
  have hstamp := u32_stamp V hV unvisited
  rw [hti, averageTrack_read V sqrt fuel { s with reads := rd } output (i : Int)
    (toInt32 (toU32 (unvisited + 1))) od hread _ rfl]
  obtain ⟨g1, g2, g3, g4, g5, g6⟩ := stamp_step V recs0 n (toU32 unvisited)
    (toU32 (unvisited + 1)) { s with reads := rd } (rd ++ [(i : Int)]) (i : Int) od
    (V.ofInt (toInt32 (toU32 (unvisited + 1)))) hstamp hI.agree hI.marks hI.nodup hI.range
    hread (by omega) hnew
  have hL : LoopInv V recs0 n (toU32 unvisited) (toU32 (unvisited + 1)) (i : Int) (i : Int)
      (fwriteRecord { s with reads := rd ++ [(i : Int)] } (i : Int)
        (Function.update od VISITED (V.ofInt (toInt32 (toU32 (unvisited + 1)))))) := by
    refine ⟨g1, g2, g3, g4, ?_, ?_, ?_⟩
    · intro m hm
      rw [g5] at hm
      rw [g5]
      rcases List.mem_append.1 hm with h | h
      · rcases hI.origin m h with hlt | ⟨j, rj, hj, hrj, hjl⟩
        · exact Or.inl (by omega)
        · refine Or.inr ⟨j, rj, List.mem_append_left _ hj, ?_, hrj, hjl⟩
          intro e
          rw [e] at hj
          exact hnew hj
      · rw [List.mem_singleton] at h
        exact Or.inl (by omega)
    · intro m h0 hle
      rw [g5]
      by_cases hm : m < (i : Int)
      · exact List.mem_append_left _ (hI.done m h0 hm)
      · have : m = (i : Int) := by omega
        rw [this]
        exact List.mem_append_right _ (List.mem_singleton.2 rfl)
    · rw [g5]
      exact ⟨List.mem_append_right _ (List.mem_singleton.2 rfl), Int.le_refl _⟩
  obtain ⟨hz, hinv⟩ := whileLink_disjoint V sqrt (toInt32 (toU32 (unvisited + 1))) recs0 n
    (toU32 unvisited) (toU32 (unvisited + 1)) hW hstamp (i : Int) fuel _
    (Function.update od VISITED (V.ofInt (toInt32 (toU32 (unvisited + 1)))))
    (normalizeFields od (sqrt (od HEIGHT))) (sqrt (od HEIGHT)) (i : Int) hL g6 (by omega)
  rw [if_pos hz]
  exact ⟨rfl, hinv⟩

theorem scanLoop_disjoint {α : Type} [Add α] [Mul α] [Div α] (V : IntView α)
    (sqrt : α → α) (fuel : Nat) (unvisited : Int) (recs0 : List (Record α)) (n : Nat)
    (hV : V.RoundTrip) (hW : WellLinked V recs0 n (toU32 unvisited)) (hfuel : n ≤ fuel) :
    ∀ (cnt i : Nat) (s : MListState α) (output : List (Record α)) (tracks : Nat),
      i + cnt = n →
      ScanInv V recs0 n (toU32 unvisited) (toU32 (unvisited + 1)) (i : Int) s →
      (scanLoop V sqrt fuel unvisited cnt i s output tracks).ret = Ret.zero ∧
      ScanInv V recs0 n (toU32 unvisited) (toU32 (unvisited + 1)) (n : Int)
        (scanLoop V sqrt fuel unvisited cnt i s output tracks).input := by
  intro cnt
  induction cnt with
  | zero =>
    intro i s output tracks hin hI
    rw [scanLoop_zero]
    have : i = n := by omega
    subst this
    exact ⟨rfl, hI⟩
  | succ c ih =>
    intro i s output tracks hin hI
    have hlen : s.records.length = recs0.length := hI.agree.1
    obtain ⟨od, hread⟩ := readRecord_of_lt s.records (i : Int) (by omega)
      (by have := hW.complete; omega)
    by_cases hv : V.u32 (od VISITED) = toU32 unvisited
    · have hnew : (i : Int) ∉ s.writes := by
        intro hin2
        have := (hI.marks (i : Int) od (by omega) hread).1 hin2
        rw [hv] at this
        exact toU32_succ_ne unvisited this.symm
      rw [scanLoop_track V sqrt fuel unvisited c i s output tracks od hread hv _ rfl]
      obtain ⟨hz, hinv⟩ := averageTrack_disjoint V sqrt fuel unvisited recs0 n hV hW hfuel i s
        (s.reads ++ [(i : Int)]) output od hI (by omega) hread hnew
      rw [if_pos hz]
      apply ih (i + 1) _ _ _ (by omega)
      rw [Nat.cast_succ]
      exact hinv
    · have hold : (i : Int) ∈ s.writes := by
        by_contra hnot
        exact hv ((hI.marks (i : Int) od (by omega) hread).2 hnot)
      rw [scanLoop_skip V sqrt fuel unvisited c i s output tracks od hread hv]
      apply ih (i + 1) _ _ _ (by omega)
      refine ⟨hI.agree, hI.marks, hI.nodup, hI.range, ?_, ?_⟩
      · intro m hm
        rcases hI.origin m hm with hlt | h
        · exact Or.inl (by rw [Nat.cast_succ]; omega)
        · exact Or.inr h
      · intro m h0 hlt
        rw [Nat.cast_succ] at hlt
        by_cases hm : m < (i : Int)
        · exact hI.done m h0 hm
        · have : m = (i : Int) := by omega
          rw [this]
          exact hold

theorem stampedOnce_of_scanInv {α : Type} (V : IntView α) (recs0 : List (Record α))
    (n u u2 : Nat) (s : MListState α) (hI : ScanInv V recs0 n u u2 (n : Int) s) :
    StampedOnce n s.writes := by
  have hperm : s.writes.Perm ((List.range n).map (fun k : Nat => (k : Int))) := by
    rw [List.perm_ext_iff_of_nodup hI.nodup
      ((List.nodup_range n).map (fun a b h => by simpa using h))]
    intro m
    rw [List.mem_map]
    constructor
    · intro hm
      obtain ⟨h0, hlt⟩ := hI.range m hm
      exact ⟨m.toNat, List.mem_range.2 (by omega), by omega⟩
    · intro ⟨k, hk, hkm⟩
      rw [List.mem_range] at hk
      exact hI.done m (by omega) (by omega)
  constructor
  · rw [hperm.length_eq, List.length_map, List.length_range]
  · intro k hk
    exact List.count_eq_one_of_mem hI.nodup (hI.done (k : Int) (by omega) (by omega))

theorem wellLinked_of_fin {α : Type} (V : IntView α) (records : List (Record α)) (n u : Nat)
    (hc : n ≤ records.length) (hs : n ≤ 2147483648)
    (h1 : ∀ k : Fin records.length, k.1 < n → V.u32 (records.get k VISITED) = u)
    (h2 : ∀ k : Fin records.length, k.1 < n → 0 < V.i32 (records.get k LINK) →
      (k.1 : Int) < V.i32 (records.get k LINK) ∧ V.i32 (records.get k LINK) < n)
    (h3 : ∀ j k : Fin records.length, j.1 < n → k.1 < n →
      0 < V.i32 (records.get j LINK) →
      V.i32 (records.get j LINK) = V.i32 (records.get k LINK) → j = k) :
    WellLinked V records n u := by
  have key : ∀ (m : Int) (r : Record α), readRecord records m = some r →
      ∃ k : Fin records.length, (k.1 : Int) = m ∧ records.get k = r := by
    intro m r hr
    obtain ⟨h0, hlt, hget⟩ := readRecord_some records m r hr
    refine ⟨⟨m.toNat, hlt⟩, by simp only; omega, ?_⟩
    obtain ⟨_, hg⟩ := List.getElem?_eq_some.1 hget
    exact hg
  refine ⟨hc, hs, ?_, ?_, ?_⟩
  · intro m r hm hr
    obtain ⟨k, hk, hkr⟩ := key m r hr
    rw [← hkr]
    exact h1 k (by omega)
  · intro m r hm hr hpos
    obtain ⟨k, hk, hkr⟩ := key m r hr
    rw [← hkr] at hpos ⊢
    rw [← hk]
    exact h2 k (by omega) hpos
  · intro j k rj rk hj hk hrj hrk hpos heq
    obtain ⟨a, ha, har⟩ := key j rj hrj
    obtain ⟨b, hb, hbr⟩ := key k rk hrk
    rw [← har] at hpos heq
    rw [← hbr] at heq
    have := h3 a b (by omega) (by omega) hpos heq
    rw [← ha, ← hb, this]

/-! ## Claims on the visited stamps -/

/-- C8 (counterexample): on `sharedTargetFile` the run returns 0, yet record 2, the LINK
target of both record 0 and record 1, is folded and written back twice: the trace of writes
is 0, 2, 1, 2, four writes for three molecules. -/
theorem shared_target_stamped_twice :
    (avemlist ratView ratSqrt 3 16 12 sharedTargetFile).ret = Ret.zero ∧
    (avemlist ratView ratSqrt 3 16 12 sharedTargetFile).input.writes = [0, 2, 1, 2] ∧
    ¬ StampedOnce (readWord32 sharedTargetFile.header 12)
      (avemlist ratView ratSqrt 3 16 12 sharedTargetFile).input.writes := by
  unfold StampedOnce
  decide

/-- C8 (amended): when the records below the molecule count satisfy the data-model invariants
(all carry the unvisited value read from the first record, every positive LINK points to a
later record below the molecule count, no two records share a positive LINK), the run returns
0 and every record below the molecule count is written back with the stamp exactly once: the
number of stamping writes equals the molecule count and no record is stamped or folded twice. -/
theorem avemlist_stamps_once {α : Type} [Add α] [Mul α] [Div α] (V : IntView α)
    (sqrt : α → α) (fuel DATA MOLECULES : Nat) (f : MList α) (hV : V.RoundTrip)
    (hW : WellLinked V f.records (readWord32 f.header MOLECULES)
      (toU32 (readUnvisited V f.records)))
    (hfuel : readWord32 f.header MOLECULES ≤ fuel) :
    (avemlist V sqrt fuel DATA MOLECULES f).ret = Ret.zero ∧
    StampedOnce (readWord32 f.header MOLECULES)
      (avemlist V sqrt fuel DATA MOLECULES f).input.writes := by
  obtain ⟨hret, hinp, _, _⟩ := avemlist_input V sqrt fuel DATA MOLECULES f
  have h0 : ScanInv V f.records (readWord32 f.header MOLECULES)
      (toU32 (readUnvisited V f.records)) (toU32 (readUnvisited V f.records + 1))
      ((0 : Nat) : Int) ⟨f.records, [], []⟩ := by
    refine ⟨storeAgreeOff_refl VISITED f.records, ?_, List.nodup_nil, ?_, ?_, ?_⟩
    · intro m r hm hr
      exact ⟨fun h => absurd h (List.not_mem_nil m), fun _ => hW.unvisited m r hm hr⟩
    · intro m hm
      cases hm
    · intro m hm
      cases hm
    · intro m h0 hlt
      omega
  obtain ⟨hz, hinv⟩ := scanLoop_disjoint V sqrt fuel (readUnvisited V f.records) f.records
    (readWord32 f.header MOLECULES) hV hW hfuel (readWord32 f.header MOLECULES) 0
    ⟨f.records, [], []⟩ [] 0 (by omega) h0
  rw [hret, hinp]
  exact ⟨hz, stampedOnce_of_scanInv V f.records _ _ _ _ hinv⟩

theorem ratView_roundTrip : ratView.RoundTrip := by
  intro n
  simp [ratView]

theorem avemlist_stamps_once_witness :
    ratView.RoundTrip ∧
    WellLinked ratView scenarioFile.records (readWord32 scenarioFile.header 12)
      (toU32 (readUnvisited ratView scenarioFile.records)) ∧
    readWord32 scenarioFile.header 12 ≤ 3 ∧
    (avemlist ratView ratSqrt 3 16 12 scenarioFile).ret = Ret.zero ∧
    StampedOnce (readWord32 scenarioFile.header 12)
      (avemlist ratView ratSqrt 3 16 12 scenarioFile).input.writes :=
  have hW : WellLinked ratView scenarioFile.records (readWord32 scenarioFile.header 12)
      (toU32 (readUnvisited ratView scenarioFile.records)) :=
    wellLinked_of_fin ratView _ _ _ (by decide) (by decide) (by decide) (by decide)
      (by decide)
  ⟨ratView_roundTrip, hW, by decide,
    avemlist_stamps_once ratView ratSqrt 3 16 12 scenarioFile ratView_roundTrip hW
      (by decide)⟩

/-! ## Which records a run reads -/

theorem mem_snoc_forall {P : Int → Prop} (l : List Int) (m : Int) (hl : ∀ x ∈ l, P x)
    (hm : P m) : ∀ x ∈ l ++ [m], P x := by
  intro x hx
  rcases List.mem_append.1 hx with h | h
  · exact hl x h
  · rw [List.mem_singleton] at h
    rw [h]
    exact hm

/-! ## Fields carried from the head -/

/-- C11: when the LINK chain of the head is in range and ends, averageTrack returns 0 and each
NOAVERAGE-flagged field of the emitted record (exactly VISITED, SUM, CAT, FITI, FRAME, TLEN,
LINK) holds the value read from the head record, whatever the linked records hold and
whatever stamp is written back. -/
theorem averageTrack_noaverage_from_head {α : Type} [Field α] (V : IntView α)
    (sqrt : α → α) (fuel fuel' : Nat) (s : MListState α) (output : List (Record α))
    (head visited : Int) (chain : List (Int × Record α))
    (hchain : chainFrom V s.records fuel head = some chain) (hfuel : fuel ≤ fuel') :
    (averageTrack V sqrt fuel' s output head visited).ret = Ret.zero ∧
    (∀ f, average_flag f = NOAVERAGE ↔ f ∈ [VISITED, SUM, CAT, FITI, FRAME, TLEN, LINK]) ∧
    ∃ hd rec, readRecord s.records head = some hd ∧
      (averageTrack V sqrt fuel' s output head visited).output = output ++ [rec] ∧
      ∀ f, average_flag f = NOAVERAGE → rec f = hd f := by
  obtain ⟨hd, s', rec, hhd, hrun, hrec, _, _, _⟩ :=
    averageTrack_chain V sqrt fuel fuel' s output head visited chain hchain hfuel
  refine ⟨by rw [hrun], by decide, hd, rec, hhd, by rw [hrun], ?_⟩
  intro f hf
  have h := hrec f
  have hna : ¬ average_flag f = AVERAGE := by
    rw [hf]
    decide
  have hnt : ¬ average_flag f = TOTAL := by
    rw [hf]
    decide
  rw [if_neg hna, if_neg hnt] at h
  exact h

theorem averageTrack_noaverage_from_head_witness :
    chainFrom ratView pairStore 1 0 = some pairChain ∧
    (averageTrack ratView ratSqrt 1 ⟨pairStore, [], []⟩ [] 0 1).ret = Ret.zero ∧
    (∀ f, average_flag f = NOAVERAGE ↔ f ∈ [VISITED, SUM, CAT, FITI, FRAME, TLEN, LINK]) ∧
    ∃ hd rec, readRecord pairStore 0 = some hd ∧
      (averageTrack ratView ratSqrt 1 ⟨pairStore, [], []⟩ [] 0 1).output = [] ++ [rec] ∧
      ∀ f, average_flag f = NOAVERAGE → rec f = hd f :=
  ⟨by decide,
    averageTrack_noaverage_from_head ratView ratSqrt 1 1 ⟨pairStore, [], []⟩ [] 0 1 pairChain
      (by decide) (Nat.le_refl 1)⟩

/-- C13: averageTrack appends exactly one record to the output when it returns 0, and leaves
the output as it was when it returns 1 (or when it is still looping at the iteration bound);
in every case the output grows by at most one record. -/
theorem averageTrack_appends_one {α : Type} [Add α] [Mul α] [Div α] (V : IntView α)
    (sqrt : α → α) (fuel : Nat) (s : MListState α) (output : List (Record α))
    (molecule visited : Int) :
    ((averageTrack V sqrt fuel s output molecule visited).ret = Ret.zero →
      ∃ rec, (averageTrack V sqrt fuel s output molecule visited).output = output ++ [rec]) ∧
    ((averageTrack V sqrt fuel s output molecule visited).ret = Ret.one →
      (averageTrack V sqrt fuel s output molecule visited).output = output) ∧
    ((averageTrack V sqrt fuel s output molecule visited).ret = Ret.running →
      (averageTrack V sqrt fuel s output molecule visited).output = output) ∧
    (averageTrack V sqrt fuel s output molecule visited).output.length ≤ output.length + 1 := by
  obtain ⟨h0, h1⟩ := averageTrack_output V sqrt fuel s output molecule visited
  refine ⟨h0, ?_, ?_, ?_⟩
  · intro h
    exact h1 (by rw [h]; intro e; cases e)
  · intro h
    exact h1 (by rw [h]; intro e; cases e)
  · by_cases hz : (averageTrack V sqrt fuel s output molecule visited).ret = Ret.zero
    · obtain ⟨rec, hrec⟩ := h0 hz
      rw [hrec, List.length_append]
      exact Nat.le_refl _
    · rw [h1 hz]
      exact Nat.le_succ _

/-! ## A run on zero molecules -/

/-- C20: when the molecule count of the header is 0, avemlist returns 0, the scan reads and
writes no record and leaves the record array as it is (whatever it holds, also when it is
empty), whatever value the initial read left in `unvisited`; the output is the input header
with the count field set to 0, no record, and one zero word of 4 bytes. -/
theorem avemlist_zero_molecules {α : Type} [Add α] [Mul α] [Div α] (V : IntView α)
    (sqrt : α → α) (fuel DATA MOLECULES : Nat) (f : MList α)
    (hzero : readWord32 f.header MOLECULES = 0) :
    (avemlist V sqrt fuel DATA MOLECULES f).ret = Ret.zero ∧
    (avemlist V sqrt fuel DATA MOLECULES f).input = ⟨f.records, [], []⟩ ∧
    (avemlist V sqrt fuel DATA MOLECULES f).header =
      writeWord32 (f.header.take DATA) MOLECULES 0 ∧
    (avemlist V sqrt fuel DATA MOLECULES f).records = [] ∧
    (avemlist V sqrt fuel DATA MOLECULES f).trailer = [0, 0, 0, 0] ∧
    (∀ unvisited : Int,
      scanLoop V sqrt fuel unvisited (readWord32 f.header MOLECULES) 0 ⟨f.records, [], []⟩ []
        0 = ⟨Ret.zero, ⟨f.records, [], []⟩, [], 0⟩) := by
  have hscan : ∀ unvisited : Int,
      scanLoop V sqrt fuel unvisited (readWord32 f.header MOLECULES) 0 ⟨f.records, [], []⟩ []
        0 = ⟨Ret.zero, ⟨f.records, [], []⟩, [], 0⟩ := by
    intro unvisited
    rw [hzero, scanLoop_zero]
  rw [avemlist_eq V sqrt fuel DATA MOLECULES f _ (hscan (readUnvisited V f.records))]
  exact ⟨rfl, rfl, rfl, rfl, rfl, hscan⟩

theorem avemlist_zero_molecules_witness :
    readWord32 emptyFile.header 12 = 0 ∧
    (avemlist ratView ratSqrt 1 16 12 emptyFile).ret = Ret.zero ∧
    (avemlist ratView ratSqrt 1 16 12 emptyFile).input = ⟨emptyFile.records, [], []⟩ ∧
    (avemlist ratView ratSqrt 1 16 12 emptyFile).header =
      writeWord32 (emptyFile.header.take 16) 12 0 ∧
    (avemlist ratView ratSqrt 1 16 12 emptyFile).records = [] ∧
    (avemlist ratView ratSqrt 1 16 12 emptyFile).trailer = [0, 0, 0, 0] ∧
    (∀ unvisited : Int,
      scanLoop ratView ratSqrt 1 unvisited (readWord32 emptyFile.header 12) 0
        ⟨emptyFile.records, [], []⟩ [] 0 = ⟨Ret.zero, ⟨emptyFile.records, [], []⟩, [], 0⟩) :=
  ⟨by decide, avemlist_zero_molecules ratView ratSqrt 1 16 12 emptyFile (by decide)⟩

/-! ## Positivity of the concrete square root -/

theorem natSqrt_fold_pos (n : Nat) (h : 1 ≤ n) :
    ∀ m : Nat, 1 ≤ (List.range (m + 2)).foldl (fun r k => if k * k ≤ n then k else r) 0 := by
  intro m
  induction m with
  | zero =>
    have : (List.range 2) = [0, 1] := rfl
    rw [this]
    simp only [List.foldl_cons, List.foldl_nil]
    rw [if_pos (by omega)]
  | succ m ih =>
    rw [List.range_succ, List.foldl_append]
    simp only [List.foldl_cons, List.foldl_nil]
    split
    · omega
    · exact ih

theorem natSqrt_pos (n : Nat) (h : 1 ≤ n) : 1 ≤ natSqrt n := by
  unfold natSqrt
  obtain ⟨m, rfl⟩ : ∃ m, n = m + 1 := ⟨n - 1, by omega⟩
  exact natSqrt_fold_pos (m + 1) h m

theorem ratSqrt_pos (q : ℚ) (h : 0 < q) : 0 < ratSqrt q := by
  unfold ratSqrt
  have hnum : 0 < q.num := Rat.num_pos.2 h
  have h1 : 1 ≤ natSqrt q.num.toNat := natSqrt_pos _ (by omega)
  have h2 : 1 ≤ natSqrt q.den := natSqrt_pos _ q.den_pos
  apply div_pos
  · exact_mod_cast h1
  · exact_mod_cast h2

theorem natSqrt_zero : natSqrt 0 = 0 := by decide

theorem ratSqrt_zero : ratSqrt 0 = 0 := by
  simp [ratSqrt, natSqrt_zero]

/-! ## The division by the total weight -/

theorem averageTrack_trackLoop {α : Type} [Add α] [Mul α] [Div α] (V : IntView α)
    (sqrt : α → α) (fuel : Nat) (s : MListState α) (output : List (Record α))
    (molecule visited : Int) :
    averageTrack V sqrt fuel s output molecule visited =
      match trackLoop V sqrt fuel s molecule visited with
      | none => ⟨Ret.one, { s with reads := s.reads ++ [molecule] }, output⟩
      | some L =>
        if L.ret = Ret.zero then
          ⟨Ret.zero, L.input, output ++ [divideFields L.average_data L.total_weight]⟩
        else ⟨L.ret, L.input, output⟩ := by
  cases hr : readRecord s.records molecule with
  | none =>
    rw [averageTrack_short V sqrt fuel s output molecule visited hr]
    unfold trackLoop
    simp only [freadRecord, hr]
  | some od =>
    rw [averageTrack_read V sqrt fuel s output molecule visited od hr _ rfl]
    unfold trackLoop
    simp only [freadRecord, hr]

theorem trackLoop_chain {α : Type} [Field α] (V : IntView α) (sqrt : α → α)
    (fuel fuel' : Nat) (s : MListState α) (head visited : Int)
    (chain : List (Int × Record α))
    (hc : chainFrom V s.records fuel head = some chain) (hle : fuel ≤ fuel') :
    ∃ L, trackLoop V sqrt fuel' s head visited = some L ∧ L.ret = Ret.zero ∧
      L.total_weight = chainWeight sqrt chain ∧ chain ≠ [] := by
  obtain ⟨hd, rest, hhd, hchain⟩ := chainFrom_head V s.records fuel head chain hc
  obtain ⟨_, _, hget⟩ := readRecord_some s.records head hd hhd
  have hstore : StoreAgreeOff VISITED
      (fwriteRecord { s with reads := s.reads ++ [head] } head
        (Function.update hd VISITED (V.ofInt visited))).records s.records := by
    simp only [fwriteRecord]
    exact storeAgreeOff_set VISITED _ _ _ _ hd (storeAgreeOff_refl VISITED s.records) hget
      (agreeOff_update VISITED hd hd _ (agreeOff_refl VISITED hd))
  have hod : ∀ r, readRecord s.records head = some r →
      AgreeOff VISITED (Function.update hd VISITED (V.ofInt visited)) r := by
    intro r hr
    rw [hhd] at hr
    cases hr
    exact agreeOff_update VISITED hd hd _ (agreeOff_refl VISITED hd)
  obtain ⟨h1, _, h3, _, _, _⟩ := whileLink_chain V sqrt visited s.records fuel head chain
    fuel' (fwriteRecord { s with reads := s.reads ++ [head] } head
        (Function.update hd VISITED (V.ofInt visited)))
    (Function.update hd VISITED (V.ofInt visited))
    (normalizeFields hd (sqrt (hd HEIGHT))) (sqrt (hd HEIGHT)) hc hle hstore hod
  refine ⟨_, ?_, h1, ?_, ?_⟩
  · unfold trackLoop
    simp only [freadRecord, hhd]
  · rw [h3, foldl_weight, hchain]
    unfold chainWeight
    simp only [List.tail_cons, List.map_cons, List.sum_cons]
  · rw [hchain]
    exact List.cons_ne_nil _ _

theorem mkRecord_HEIGHT (x h a v c l : ℚ) : mkRecord x h a v c l HEIGHT = h := rfl

theorem pairChain_heights : ∀ p ∈ pairChain, 0 < p.2 HEIGHT := by
  intro p hp
  simp only [pairChain, List.mem_cons, List.mem_singleton, List.not_mem_nil, or_false] at hp
  rcases hp with rfl | rfl
  · show 0 < mkRecord 10 4 7 0 0 1 HEIGHT
    rw [mkRecord_HEIGHT]
    norm_num
  · show 0 < mkRecord 20 9 8 0 0 4294967295 HEIGHT
    rw [mkRecord_HEIGHT]
    norm_num

theorem chainWeight_pos {α : Type} [LinearOrderedField α] (sqrt : α → α)
    (hsqrt : ∀ x : α, 0 < x → 0 < sqrt x) (chain : List (Int × Record α))
    (hne : chain ≠ []) (hheight : ∀ p ∈ chain, 0 < p.2 HEIGHT) :
    0 < chainWeight sqrt chain := by
  unfold chainWeight
  apply List.sum_pos
  · intro x hx
    rw [List.mem_map] at hx
    obtain ⟨p, hp, rfl⟩ := hx
    exact hsqrt _ (hheight p hp)
  · intro h
    exact hne (List.map_eq_nil_iff.1 h)

/-- C15 (counterexample): for the single record of `zeroHeightStore`, whose HEIGHT is 0, the
chain is that one record and the divisor of the weighted averages is 0. -/
theorem zero_height_divisor_is_zero :
    chainFrom ratView zeroHeightStore 0 0 = some [(0, mkRecord 5 0 2 0 0 4294967295)] ∧
    ∃ L, trackLoop ratView ratSqrt 0 ⟨zeroHeightStore, [], []⟩ 0 1 = some L ∧
      L.ret = Ret.zero ∧ L.total_weight = 0 := by
  refine ⟨by decide, _, rfl, by decide, ?_⟩
  show ratSqrt (mkRecord 5 0 2 0 0 4294967295 HEIGHT) = 0
  rw [mkRecord_HEIGHT]
  exact ratSqrt_zero

/-- C15 (amended): when its chain is in range and ends, averageTrack reaches the division
with a divisor total_weight equal to the sum of sqrt(HEIGHT) over the records of the chain,
of which there is at least one; the divisor is strictly positive, hence not zero, whenever
every record of the chain has HEIGHT > 0 (the square root being positive on positive
numbers). -/
theorem total_weight_is_chain_weight {α : Type} [LinearOrderedField α] (V : IntView α)
    (sqrt : α → α) (fuel fuel' : Nat) (s : MListState α) (output : List (Record α))
    (head visited : Int) (chain : List (Int × Record α))
    (hsqrt : ∀ x : α, 0 < x → 0 < sqrt x)
    (hchain : chainFrom V s.records fuel head = some chain) (hfuel : fuel ≤ fuel') :
    ∃ L, trackLoop V sqrt fuel' s head visited = some L ∧ L.ret = Ret.zero ∧
      (averageTrack V sqrt fuel' s output head visited).output =
        output ++ [divideFields L.average_data L.total_weight] ∧
      chain ≠ [] ∧
      L.total_weight = (chain.map (fun p => sqrt (p.2 HEIGHT))).sum ∧
      ((∀ p ∈ chain, 0 < p.2 HEIGHT) → 0 < L.total_weight) := by
  obtain ⟨L, hL, hz, hw, hne⟩ := trackLoop_chain V sqrt fuel fuel' s head visited chain hchain
    hfuel
  refine ⟨L, hL, hz, ?_, hne, hw, ?_⟩
  · rw [averageTrack_trackLoop, hL]
    simp only [hz, if_true]
  · intro hh
    rw [hw]
    exact chainWeight_pos sqrt hsqrt chain hne hh

theorem total_weight_is_chain_weight_witness :
    (∀ x : ℚ, 0 < x → 0 < ratSqrt x) ∧
    chainFrom ratView pairStore 1 0 = some pairChain ∧
    ∃ L, trackLoop ratView ratSqrt 1 ⟨pairStore, [], []⟩ 0 1 = some L ∧ L.ret = Ret.zero ∧
      (averageTrack ratView ratSqrt 1 ⟨pairStore, [], []⟩ [] 0 1).output =
        [] ++ [divideFields L.average_data L.total_weight] ∧
      pairChain ≠ [] ∧
      L.total_weight = (pairChain.map (fun p => ratSqrt (p.2 HEIGHT))).sum ∧
      ((∀ p ∈ pairChain, 0 < p.2 HEIGHT) → 0 < L.total_weight) :=
  ⟨ratSqrt_pos, by decide,
    total_weight_is_chain_weight ratView ratSqrt 1 1 ⟨pairStore, [], []⟩ [] 0 1 pairChain
      ratSqrt_pos (by decide) (Nat.le_refl 1)⟩

/-! ## A chain of one record -/

/-- C18: when the head record has a non-positive LINK and HEIGHT > 0 (the square root being
positive on positive numbers), averageTrack returns 0 and the record it emits equals the head
record as read from the input in every field. -/
theorem averageTrack_single_record {α : Type} [LinearOrderedField α] (V : IntView α)
    (sqrt : α → α) (fuel : Nat) (s : MListState α) (output : List (Record α))
    (head visited : Int) (hd : Record α)
    (hsqrt : ∀ x : α, 0 < x → 0 < sqrt x)
    (hread : readRecord s.records head = some hd) (hlink : V.i32 (hd LINK) ≤ 0)
    (hheight : 0 < hd HEIGHT) :
    (averageTrack V sqrt fuel s output head visited).ret = Ret.zero ∧
    (averageTrack V sqrt fuel s output head visited).output = output ++ [hd] := by
  have hw : sqrt (hd HEIGHT) ≠ 0 := ne_of_gt (hsqrt _ hheight)
  have hneg : ¬ 0 < V.i32 (Function.update hd VISITED (V.ofInt visited) LINK) := by
    rw [Function.update_noteq (by decide)]
    omega
  rw [averageTrack_read V sqrt fuel s output head visited hd hread _ rfl,
    whileLink_done V sqrt visited fuel _ _ _ _ hneg]
  simp only [if_true]
  refine ⟨trivial, ?_⟩
  congr 2
  funext i
  unfold divideFields normalizeFields
  split
  · exact mul_div_cancel_right₀ _ hw
  · rfl

theorem averageTrack_single_record_witness :
    (∀ x : ℚ, 0 < x → 0 < ratSqrt x) ∧
    readRecord singleStore 0 = some (mkRecord 5 4 2 0 0 4294967295) ∧
    ratView.i32 (mkRecord 5 4 2 0 0 4294967295 LINK) ≤ 0 ∧
    0 < mkRecord 5 4 2 0 0 4294967295 HEIGHT ∧
    (averageTrack ratView ratSqrt 0 ⟨singleStore, [], []⟩ [] 0 1).ret = Ret.zero ∧
    (averageTrack ratView ratSqrt 0 ⟨singleStore, [], []⟩ [] 0 1).output =
      [] ++ [mkRecord 5 4 2 0 0 4294967295] :=
  have hh : 0 < mkRecord 5 4 2 0 0 4294967295 HEIGHT := by
    rw [mkRecord_HEIGHT]
    norm_num
  ⟨ratSqrt_pos, by decide, by decide, hh,
    averageTrack_single_record ratView ratSqrt 0 ⟨singleStore, [], []⟩ [] 0 1
      (mkRecord 5 4 2 0 0 4294967295) ratSqrt_pos (by decide) (by decide) hh⟩

/-! ## The weighted average is a convex combination -/

theorem chainWeighted_lower {α : Type} [LinearOrderedField α] (sqrt : α → α) (f : Idx)
    (lo : α) (chain : List (Int × Record α))
    (hw : ∀ p ∈ chain, 0 ≤ sqrt (p.2 HEIGHT)) (hlo : ∀ p ∈ chain, lo ≤ p.2 f) :
    lo * chainWeight sqrt chain ≤ chainWeighted sqrt chain f := by
  unfold chainWeight chainWeighted
  induction chain with
  | nil => simp
  | cons p rest ih =>
    simp only [List.map_cons, List.sum_cons]
    have h1 := ih (fun q hq => hw q (List.mem_cons_of_mem _ hq))
      (fun q hq => hlo q (List.mem_cons_of_mem _ hq))
    have h2 : lo * sqrt (p.2 HEIGHT) ≤ p.2 f * sqrt (p.2 HEIGHT) :=
      mul_le_mul_of_nonneg_right (hlo p (List.mem_cons_self _ _))
        (hw p (List.mem_cons_self _ _))
    rw [mul_add]
    exact add_le_add h2 h1

theorem chainWeighted_upper {α : Type} [LinearOrderedField α] (sqrt : α → α) (f : Idx)
    (hi : α) (chain : List (Int × Record α))
    (hw : ∀ p ∈ chain, 0 ≤ sqrt (p.2 HEIGHT)) (hhi : ∀ p ∈ chain, p.2 f ≤ hi) :
    chainWeighted sqrt chain f ≤ hi * chainWeight sqrt chain := by
  unfold chainWeight chainWeighted
  induction chain with
  | nil => simp
  | cons p rest ih =>
    simp only [List.map_cons, List.sum_cons]
    have h1 := ih (fun q hq => hw q (List.mem_cons_of_mem _ hq))
      (fun q hq => hhi q (List.mem_cons_of_mem _ hq))
    have h2 : p.2 f * sqrt (p.2 HEIGHT) ≤ hi * sqrt (p.2 HEIGHT) :=
      mul_le_mul_of_nonneg_right (hhi p (List.mem_cons_self _ _))
        (hw p (List.mem_cons_self _ _))
    rw [mul_add]
    exact add_le_add h2 h1

/-- C19: when the chain of the head is in range and ends and every record of the chain has
HEIGHT > 0 (the square root being positive on positive numbers), each AVERAGE-flagged field
of the emitted record lies between every lower bound and every upper bound of that field over
the records of the chain, in particular between its minimum and its maximum. -/
theorem averageTrack_average_within_range {α : Type} [LinearOrderedField α]
    (V : IntView α) (sqrt : α → α) (fuel fuel' : Nat) (s : MListState α)
    (output : List (Record α)) (head visited : Int) (chain : List (Int × Record α))
    (hsqrt : ∀ x : α, 0 < x → 0 < sqrt x)
    (hchain : chainFrom V s.records fuel head = some chain) (hfuel : fuel ≤ fuel')
    (hheight : ∀ p ∈ chain, 0 < p.2 HEIGHT) :
    (averageTrack V sqrt fuel' s output head visited).ret = Ret.zero ∧
    ∃ rec, (averageTrack V sqrt fuel' s output head visited).output = output ++ [rec] ∧
      ∀ f, average_flag f = AVERAGE →
        (∀ lo : α, (∀ p ∈ chain, lo ≤ p.2 f) → lo ≤ rec f) ∧
        (∀ hi : α, (∀ p ∈ chain, p.2 f ≤ hi) → rec f ≤ hi) ∧
        (∀ lo hi : α, (chain.map (fun p => p.2 f)).minimum = (lo : WithTop α) →
          (chain.map (fun p => p.2 f)).maximum = (hi : WithBot α) →
          lo ≤ rec f ∧ rec f ≤ hi) := by
  obtain ⟨hd, s', rec, _, hrun, hrec, _, _, _⟩ :=
    averageTrack_chain V sqrt fuel fuel' s output head visited chain hchain hfuel
  obtain ⟨r0, rest, _, hcons⟩ := chainFrom_head V s.records fuel head chain hchain
  have hne : chain ≠ [] := by
    rw [hcons]
    exact List.cons_ne_nil _ _
  have hpos : 0 < chainWeight sqrt chain := chainWeight_pos sqrt hsqrt chain hne hheight
  have hw : ∀ p ∈ chain, 0 ≤ sqrt (p.2 HEIGHT) :=
    fun p hp => le_of_lt (hsqrt _ (hheight p hp))
  refine ⟨by rw [hrun], rec, by rw [hrun], ?_⟩
  intro f hf
  have h := hrec f
  rw [if_pos hf] at h
  have hlower : ∀ lo : α, (∀ p ∈ chain, lo ≤ p.2 f) → lo ≤ rec f := by
    intro lo hlo
    rw [h, le_div_iff₀ hpos]
    exact chainWeighted_lower sqrt f lo chain hw hlo
  have hupper : ∀ hi : α, (∀ p ∈ chain, p.2 f ≤ hi) → rec f ≤ hi := by
    intro hi hhi
    rw [h, div_le_iff₀ hpos]
    exact chainWeighted_upper sqrt f hi chain hw hhi
  refine ⟨hlower, hupper, ?_⟩
  intro lo hi hmin hmax
  constructor
  · apply hlower
    intro p hp
    exact List.minimum_le_of_mem (List.mem_map_of_mem (fun p => p.2 f) hp) hmin
  · apply hupper
    intro p hp
    exact List.le_maximum_of_mem (List.mem_map_of_mem (fun p => p.2 f) hp) hmax

theorem averageTrack_average_within_range_witness :
    (∀ x : ℚ, 0 < x → 0 < ratSqrt x) ∧
    chainFrom ratView pairStore 1 0 = some pairChain ∧
    (∀ p ∈ pairChain, 0 < p.2 HEIGHT) ∧
    (averageTrack ratView ratSqrt 1 ⟨pairStore, [], []⟩ [] 0 1).ret = Ret.zero ∧
    ∃ rec, (averageTrack ratView ratSqrt 1 ⟨pairStore, [], []⟩ [] 0 1).output = [] ++ [rec] ∧
      ∀ f, average_flag f = AVERAGE →
        (∀ lo : ℚ, (∀ p ∈ pairChain, lo ≤ p.2 f) → lo ≤ rec f) ∧
        (∀ hi : ℚ, (∀ p ∈ pairChain, p.2 f ≤ hi) → rec f ≤ hi) ∧
        (∀ lo hi : ℚ, (pairChain.map (fun p => p.2 f)).minimum = (lo : WithTop ℚ) →
          (pairChain.map (fun p => p.2 f)).maximum = (hi : WithBot ℚ) →
          lo ≤ rec f ∧ rec f ≤ hi) :=
  ⟨ratSqrt_pos, by decide, pairChain_heights,
    averageTrack_average_within_range ratView ratSqrt 1 1 ⟨pairStore, [], []⟩ [] 0 1
      pairChain ratSqrt_pos (by decide) (Nat.le_refl 1) pairChain_heights⟩

/-! ## Chains under forward links -/

theorem chainFrom_isLinkChain {α : Type} (V : IntView α) (recs : List (Record α)) :
    ∀ (fuel : Nat) (m : Int) (chain : List (Int × Record α)),
      chainFrom V recs fuel m = some chain → IsLinkChain V recs m chain := by
  intro fuel
  induction fuel with
  | zero =>
    intro m chain hc
    unfold chainFrom at hc
    cases hr : readRecord recs m with
    | none => rw [hr] at hc; cases hc
    | some r =>
      rw [hr] at hc
      simp only at hc
      split at hc
      · cases hc
      · rename_i hneg
        cases hc
        exact ⟨rfl, hr, Int.not_lt.1 hneg⟩
  | succ k ih =>
    intro m chain hc
    unfold chainFrom at hc
    cases hr : readRecord recs m with
    | none => rw [hr] at hc; cases hc
    | some r =>
      rw [hr] at hc
      simp only at hc
      split at hc
      · rename_i hpos
        simp only [Option.map_eq_some'] at hc
        obtain ⟨rest, hrest, hchain⟩ := hc
        subst hchain
        obtain ⟨r2, rest2, _, hrest2⟩ := chainFrom_head V recs k _ rest hrest
        have := ih _ rest hrest
        rw [hrest2] at this ⊢
        exact ⟨rfl, hr, hpos, this⟩
      · rename_i hneg
        cases hc
        exact ⟨rfl, hr, Int.not_lt.1 hneg⟩

theorem chainFrom_exists {α : Type} (V : IntView α) (recs : List (Record α)) (n : Nat)
    (hn : n ≤ recs.length)
    (hfw : ∀ (m : Int) (r : Record α), m < n → readRecord recs m = some r →
      0 < V.i32 (r LINK) → m < V.i32 (r LINK) ∧ V.i32 (r LINK) < n) :
    ∀ (fuel : Nat) (m : Int), 0 ≤ m → m < n → (n : Int) ≤ fuel + m + 1 →
      ∃ chain, chainFrom V recs fuel m = some chain := by
  intro fuel
  induction fuel with
  | zero =>
    intro m h0 hmn hfuel
    obtain ⟨r, hr⟩ := readRecord_of_lt recs m h0 (by omega)
    unfold chainFrom
    rw [hr]
    simp only
    split
    · rename_i hpos
      have := hfw m r hmn hr hpos
      omega
    · exact ⟨_, rfl⟩
  | succ k ih =>
    intro m h0 hmn hfuel
    obtain ⟨r, hr⟩ := readRecord_of_lt recs m h0 (by omega)
    unfold chainFrom
    rw [hr]
    simp only
    split
    · rename_i hpos
      obtain ⟨h1, h2⟩ := hfw m r hmn hr hpos
      obtain ⟨rest, hrest⟩ := ih (V.i32 (r LINK)) (by omega) h2 (by omega)
      rw [hrest]
      exact ⟨_, rfl⟩
    · exact ⟨_, rfl⟩

theorem chainFrom_facts {α : Type} (V : IntView α) (recs : List (Record α)) (n : Nat)
    (hfw : ∀ (m : Int) (r : Record α), m < n → readRecord recs m = some r →
      0 < V.i32 (r LINK) → m < V.i32 (r LINK) ∧ V.i32 (r LINK) < n) :
    ∀ (fuel : Nat) (m : Int) (chain : List (Int × Record α)), m < n →
      chainFrom V recs fuel m = some chain →
      (∀ p ∈ chain, readRecord recs p.1 = some p.2 ∧ m ≤ p.1 ∧ p.1 < n) ∧
      (chain.map Prod.fst).Pairwise (fun a b => a < b) ∧
      (∀ p ∈ chain, 0 < V.i32 (p.2 LINK) → V.i32 (p.2 LINK) ∈ chain.map Prod.fst) ∧
      (∀ x ∈ (chain.map Prod.fst).tail,
        ∃ p ∈ chain, 0 < V.i32 (p.2 LINK) ∧ V.i32 (p.2 LINK) = x) := by
  have base : ∀ (m : Int) (r : Record α), m < n → readRecord recs m = some r →
      ¬ 0 < V.i32 (r LINK) →
      (∀ p ∈ [(m, r)], readRecord recs p.1 = some p.2 ∧ m ≤ p.1 ∧ p.1 < n) ∧
      (([(m, r)] : List (Int × Record α)).map Prod.fst).Pairwise (fun a b => a < b) ∧
      (∀ p ∈ [(m, r)], 0 < V.i32 (p.2 LINK) →
        V.i32 (p.2 LINK) ∈ ([(m, r)] : List (Int × Record α)).map Prod.fst) ∧
      (∀ x ∈ (([(m, r)] : List (Int × Record α)).map Prod.fst).tail,
        ∃ p ∈ [(m, r)], 0 < V.i32 (p.2 LINK) ∧ V.i32 (p.2 LINK) = x) := by
    intro m r hmn hr hneg
    refine ⟨?_, ?_, ?_, ?_⟩
    · intro p hp
      rw [List.mem_singleton] at hp
      subst hp
      exact ⟨hr, Int.le_refl _, hmn⟩
    · simp
    · intro p hp hpos
      rw [List.mem_singleton] at hp
      subst hp
      exact absurd hpos hneg
    · intro x hx
      simp at hx
  intro fuel
  induction fuel with
  | zero =>
    intro m chain hmn hc
    unfold chainFrom at hc
    cases hr : readRecord recs m with
    | none => rw [hr] at hc; cases hc
    | some r =>
      rw [hr] at hc
      simp only at hc
      split at hc
      · cases hc
      · rename_i hneg
        cases hc
        exact base m r hmn hr hneg
  | succ k ih =>
    intro m chain hmn hc
    unfold chainFrom at hc
    cases hr : readRecord recs m with
    | none => rw [hr] at hc; cases hc
    | some r =>
      rw [hr] at hc
      simp only at hc
      split at hc
      · rename_i hpos
        simp only [Option.map_eq_some'] at hc
        obtain ⟨rest, hrest, hchain⟩ := hc
        subst hchain
        obtain ⟨h1, h2⟩ := hfw m r hmn hr hpos
        obtain ⟨r2, rest2, _, hrest2⟩ := chainFrom_head V recs k _ rest hrest
        obtain ⟨g1, g2, g3, g4⟩ := ih _ rest h2 hrest
        have hhead : V.i32 (r LINK) ∈ rest.map Prod.fst := by
          rw [hrest2]
          exact List.mem_cons_self _ _
        refine ⟨?_, ?_, ?_, ?_⟩
        · intro p hp
          rcases List.mem_cons.1 hp with h | h
          · subst h
            exact ⟨hr, Int.le_refl _, hmn⟩
          · obtain ⟨a, b, c⟩ := g1 p h
            exact ⟨a, by omega, c⟩
        · rw [List.map_cons, List.pairwise_cons]
          refine ⟨?_, g2⟩
          intro x hx
          rw [List.mem_map] at hx
          obtain ⟨p, hp, rfl⟩ := hx
          have := (g1 p hp).2.1
          show m < p.1
          omega
        · intro p hp hlp
          rw [List.map_cons]
          rcases List.mem_cons.1 hp with h | h
          · subst h
            exact List.mem_cons_of_mem _ hhead
          · exact List.mem_cons_of_mem _ (g3 p h hlp)
        · intro x hx
          rw [List.map_cons, List.tail_cons] at hx
          rw [hrest2, List.map_cons] at hx
          rcases List.mem_cons.1 hx with h | h
          · exact ⟨(m, r), List.mem_cons_self _ _, hpos, h.symm⟩
          · obtain ⟨p, hp, hlp, hpx⟩ := g4 x (by rw [hrest2]; exact h)
            exact ⟨p, List.mem_cons_of_mem _ hp, hlp, hpx⟩
      · rename_i hneg
        cases hc
        exact base m r hmn hr hneg

theorem forwardLinks_of_fin {α : Type} (V : IntView α) (records : List (Record α))
    (h : ∀ k : Fin records.length, 0 < V.i32 (records.get k LINK) →
      (k.1 : Int) < V.i32 (records.get k LINK) ∧
        V.i32 (records.get k LINK) < records.length) :
    ForwardLinks V records := by
  intro m r hr hpos
  obtain ⟨h0, hlt, hget⟩ := readRecord_some records m r hr
  obtain ⟨_, hg⟩ := List.getElem?_eq_some.1 hget
  have := h ⟨m.toNat, hlt⟩ (by
    show 0 < V.i32 (records[m.toNat] LINK)
    rw [hg]
    exact hpos)
  have e : V.i32 (records.get ⟨m.toNat, hlt⟩ LINK) = V.i32 (r LINK) := by
    show V.i32 (records[m.toNat] LINK) = V.i32 (r LINK)
    rw [hg]
  rw [e] at this
  simp only at this
  omega

theorem flag_total_of_not :
    ∀ i : Idx, average_flag i ≠ NOAVERAGE → ¬ average_flag i = AVERAGE →
      average_flag i = TOTAL := by
  decide

/-- C14: when every positive LINK of the store is the index of a later complete record,
averageTrack returns 0 from every in-range head (for every iteration bound at least the
number of records), and the records it reads, folds and writes back are exactly head,
LINK(head), LINK(LINK(head)), ... up to and including the first record whose LINK is not
positive, each once: the indices are pairwise distinct (increasing), every linked member has
a positive index, and the emitted record is the fold over that list. -/
theorem averageTrack_forward_chain {α : Type} [Field α] (V : IntView α) (sqrt : α → α)
    (fuel : Nat) (s : MListState α) (output : List (Record α)) (head visited : Int)
    (hforward : ForwardLinks V s.records) (hhead : 0 ≤ head ∧ head < s.records.length)
    (hfuel : s.records.length ≤ fuel) :
    ∃ chain : List (Int × Record α),
      IsLinkChain V s.records head chain ∧
      (averageTrack V sqrt fuel s output head visited).ret = Ret.zero ∧
      (averageTrack V sqrt fuel s output head visited).input.reads =
        s.reads ++ chain.map Prod.fst ∧
      (averageTrack V sqrt fuel s output head visited).input.writes =
        s.writes ++ chain.map Prod.fst ∧
      (chain.map Prod.fst).Pairwise (fun a b => a < b) ∧
      (chain.map Prod.fst).Nodup ∧
      (∀ x ∈ (chain.map Prod.fst).tail, 0 < x) ∧
      ∃ rec, (averageTrack V sqrt fuel s output head visited).output = output ++ [rec] ∧
        ∀ i, average_flag i ≠ NOAVERAGE → rec i =
          if average_flag i = AVERAGE then
            (chain.map (fun p => p.2 i * sqrt (p.2 HEIGHT))).sum /
              (chain.map (fun p => sqrt (p.2 HEIGHT))).sum
          else (chain.map (fun p => p.2 i)).sum := by
  have hfw : ∀ (m : Int) (r : Record α), m < (s.records.length : Nat) →
      readRecord s.records m = some r → 0 < V.i32 (r LINK) →
      m < V.i32 (r LINK) ∧ V.i32 (r LINK) < (s.records.length : Nat) :=
    fun m r _ hr hpos => hforward m r hr hpos
  obtain ⟨chain, hchain⟩ := chainFrom_exists V s.records s.records.length (Nat.le_refl _) hfw
    fuel head hhead.1 hhead.2 (by omega)
  obtain ⟨g1, g2, _, g4⟩ := chainFrom_facts V s.records s.records.length hfw fuel head chain
    hhead.2 hchain
  obtain ⟨hd, s', rec, _, hrun, hrec, hreads, hwrites, _⟩ :=
    averageTrack_chain V sqrt fuel fuel s output head visited chain hchain (Nat.le_refl _)
  refine ⟨chain, chainFrom_isLinkChain V s.records fuel head chain hchain, by rw [hrun],
    by rw [hrun]; exact hreads, by rw [hrun]; exact hwrites, g2, ?_, ?_, rec, by rw [hrun], ?_⟩
  · exact g2.imp (fun h => ne_of_lt h)
  · intro x hx
    obtain ⟨p, hp, _, hpx⟩ := g4 x hx
    obtain ⟨hrp, _, _⟩ := g1 p hp
    have := hforward p.1 p.2 hrp (by assumption)
    obtain ⟨hp0, _, _⟩ := readRecord_some s.records p.1 p.2 hrp
    omega
  · intro i hi
    have h := hrec i
    by_cases ha : average_flag i = AVERAGE
    · rw [if_pos ha] at h ⊢
      exact h
    · rw [if_neg ha] at h ⊢
      have ht : average_flag i = TOTAL := flag_total_of_not i hi ha
      rw [if_pos ht] at h
      exact h

theorem averageTrack_forward_chain_witness :
    ForwardLinks ratView pairStore ∧ ((0 : Int) ≤ 0 ∧ (0 : Int) < pairStore.length) ∧
    pairStore.length ≤ 2 ∧
    ∃ chain : List (Int × Record ℚ),
      IsLinkChain ratView pairStore 0 chain ∧
      (averageTrack ratView ratSqrt 2 ⟨pairStore, [], []⟩ [] 0 1).ret = Ret.zero ∧
      (averageTrack ratView ratSqrt 2 ⟨pairStore, [], []⟩ [] 0 1).input.reads =
        [] ++ chain.map Prod.fst ∧
      (averageTrack ratView ratSqrt 2 ⟨pairStore, [], []⟩ [] 0 1).input.writes =
        [] ++ chain.map Prod.fst ∧
      (chain.map Prod.fst).Pairwise (fun a b => a < b) ∧
      (chain.map Prod.fst).Nodup ∧
      (∀ x ∈ (chain.map Prod.fst).tail, 0 < x) ∧
      ∃ rec, (averageTrack ratView ratSqrt 2 ⟨pairStore, [], []⟩ [] 0 1).output =
          [] ++ [rec] ∧
        ∀ i, average_flag i ≠ NOAVERAGE → rec i =
          if average_flag i = AVERAGE then
            (chain.map (fun p => p.2 i * ratSqrt (p.2 HEIGHT))).sum /
              (chain.map (fun p => ratSqrt (p.2 HEIGHT))).sum
          else (chain.map (fun p => p.2 i)).sum :=
  have hf : ForwardLinks ratView pairStore := forwardLinks_of_fin ratView pairStore (by decide)
  ⟨hf, by decide, by decide,
    averageTrack_forward_chain ratView ratSqrt 2 ⟨pairStore, [], []⟩ [] 0 1 hf (by decide)
      (by decide)⟩

/-! ## Every scanned record ends up stamped -/

theorem toInt32_of_nonneg (i : Nat) (hi : i < 4294967296) (h : 0 ≤ toInt32 i) :
    toInt32 i = (i : Int) := by
  unfold toInt32 at h ⊢
  split
  · omega
  · rename_i hge
    rw [if_neg hge] at h
    omega

theorem frameVisited_writes_mono {α : Type} (stamp : α) (s s2 : MListState α)
    (h : FrameVisited stamp s s2) (m : Int) (hm : m ∈ s.writes) : m ∈ s2.writes := by
  obtain ⟨_, w, hw, _⟩ := h
  rw [hw]
  exact List.mem_append_left _ hm

theorem frameVisited_unwritten {α : Type} (stamp : α) (s0 s : MListState α)
    (h : FrameVisited stamp s0 s) (h0 : s0.writes = []) (k : Nat)
    (hk : (k : Int) ∉ s.writes) : s.records[k]? = s0.records[k]? := by
  obtain ⟨_, w, hw, _, hout, _⟩ := h
  rw [h0, List.nil_append] at hw
  rw [hw] at hk
  exact hout k hk

theorem frameVisited_written {α : Type} (stamp : α) (s0 s : MListState α)
    (h : FrameVisited stamp s0 s) (h0 : s0.writes = []) (k : Nat)
    (hk : (k : Int) ∈ s.writes) :
    ∃ r r2, s0.records[k]? = some r ∧ s.records[k]? = some r2 ∧ AgreeOff VISITED r2 r ∧
      r2 VISITED = stamp := by
  obtain ⟨hlen, w, hw, hin, _, hst⟩ := h
  rw [h0, List.nil_append] at hw
  rw [hw] at hk
  have hlt : k < s0.records.length := by
    have := (hin (k : Int) hk).2
    omega
  have h1 : s0.records[k]? = some s0.records[k] := List.getElem?_eq_getElem hlt
  have h2 : s.records[k]? = some s.records[k] := List.getElem?_eq_getElem (by omega)
  obtain ⟨ha, hv⟩ := hst k hk _ _ h1 h2
  exact ⟨_, _, h1, h2, ha, hv⟩

theorem averageTrack_writes_head {α : Type} [Add α] [Mul α] [Div α] (V : IntView α)
    (sqrt : α → α) (fuel : Nat) (s : MListState α) (output : List (Record α))
    (molecule visited : Int)
    (hz : (averageTrack V sqrt fuel s output molecule visited).ret = Ret.zero) :
    molecule ∈ (averageTrack V sqrt fuel s output molecule visited).input.writes ∧
    ∃ od, readRecord s.records molecule = some od := by
  cases hr : readRecord s.records molecule with
  | none =>
    rw [averageTrack_short V sqrt fuel s output molecule visited hr] at hz
    cases hz
  | some od =>
    refine ⟨?_, od, rfl⟩
    rw [averageTrack_read V sqrt fuel s output molecule visited od hr _ rfl]
    have hf := (whileLink_frame V sqrt visited s.records fuel
      (fwriteRecord { s with reads := s.reads ++ [molecule] } molecule
        (Function.update od VISITED (V.ofInt visited)))
      (Function.update od VISITED (V.ofInt visited))
      (normalizeFields od (sqrt (od HEIGHT))) (sqrt (od HEIGHT))
      (by simp only [fwriteRecord, List.length_set])).1
    have hm := frameVisited_writes_mono _ _ _ hf molecule (by
      simp only [fwriteRecord]
      exact List.mem_append_right _ (List.mem_singleton.2 rfl))
    split
    · exact hm
    · exact hm

theorem scanLoop_all_written {α : Type} [Add α] [Mul α] [Div α] (V : IntView α)
    (sqrt : α → α) (fuel : Nat) (unvisited : Int) (recs : List (Record α)) (n : Nat)
    (hn : n < 4294967296)
    (huniform : ∀ (k : Nat) (r : Record α), k < n → recs[k]? = some r →
      V.u32 (r VISITED) = toU32 unvisited) :
    ∀ (cnt i : Nat) (s : MListState α) (output : List (Record α)) (tracks : Nat),
      i + cnt = n →
      FrameVisited (V.ofInt (toInt32 (toU32 (unvisited + 1)))) ⟨recs, [], []⟩ s →
      (∀ k : Nat, k < i → (k : Int) ∈ s.writes) →
      (scanLoop V sqrt fuel unvisited cnt i s output tracks).ret = Ret.zero →
      ∀ k : Nat, k < n →
        (k : Int) ∈ (scanLoop V sqrt fuel unvisited cnt i s output tracks).input.writes := by
  intro cnt
  induction cnt with
  | zero =>
    intro i s output tracks hic _ hdone _ k hk
    rw [scanLoop_zero]
    exact hdone k (by omega)
  | succ c ih =>
    intro i s output tracks hic hF hdone hret
    cases hr : readRecord s.records (i : Int) with
    | none =>
      rw [scanLoop_short V sqrt fuel unvisited c i s output tracks hr] at hret
      cases hret
    | some od =>
      by_cases hv : V.u32 (od VISITED) = toU32 unvisited
      · rw [scanLoop_track V sqrt fuel unvisited c i s output tracks od hr hv _ rfl] at hret ⊢
        split at hret
        · rename_i hz
          rw [if_pos hz]
          obtain ⟨hmem, od2, hod2⟩ := averageTrack_writes_head V sqrt fuel _ _ _ _ hz
          have hti : toInt32 i = (i : Int) :=
            toInt32_of_nonneg i (by omega) (readRecord_some _ _ _ hod2).1
          have hmem2 : (i : Int) ∈ (averageTrack V sqrt fuel
              { s with reads := s.reads ++ [(i : Int)] } output (toInt32 i)
              (toInt32 (toU32 (unvisited + 1)))).input.writes := by
            generalize (averageTrack V sqrt fuel
              { s with reads := s.reads ++ [(i : Int)] } output (toInt32 i)
              (toInt32 (toU32 (unvisited + 1)))).input.writes = X at hmem
            rw [hti] at hmem
            exact hmem
          have hf := (averageTrack_frame V sqrt fuel s.records
            { s with reads := s.reads ++ [(i : Int)] } output (toInt32 i)
            (toInt32 (toU32 (unvisited + 1))) rfl).1
          have hf1 : FrameVisited (V.ofInt (toInt32 (toU32 (unvisited + 1)))) s
              (averageTrack V sqrt fuel { s with reads := s.reads ++ [(i : Int)] } output
                (toInt32 i) (toInt32 (toU32 (unvisited + 1)))).input :=
            frameVisited_trans _ s { s with reads := s.reads ++ [(i : Int)] } _
              (frameVisited_refl _ s _ rfl rfl) hf
          apply ih (i + 1) _ _ _ (by omega) (frameVisited_trans _ _ _ _ hF hf1) _ hret
          intro k hk
          by_cases hki : k < i
          · exact frameVisited_writes_mono _ _ _ hf1 _ (hdone k hki)
          · have : k = i := by omega
            rw [this]
            exact hmem2
        · rename_i hz
          exact absurd hret hz
      · rw [scanLoop_skip V sqrt fuel unvisited c i s output tracks od hr hv] at hret ⊢
        have hold : (i : Int) ∈ s.writes := by
          by_contra hnot
          have hsame := frameVisited_unwritten _ _ _ hF rfl i hnot
          obtain ⟨_, _, hget⟩ := readRecord_some s.records (i : Int) od hr
          simp only [Int.toNat_ofNat] at hget
          rw [hget] at hsame
          exact hv (huniform i od (by omega) hsame.symm)
        apply ih (i + 1) { s with reads := s.reads ++ [(i : Int)] } _ _ (by omega)
          (frameVisited_trans _ _ s _ hF (frameVisited_refl _ s _ rfl rfl)) _ hret
        intro k hk
        by_cases hki : k < i
        · exact hdone k hki
        · have : k = i := by omega
          rw [this]
          exact hold

/-- C12: when all records below the molecule count initially carry the VISITED value read from
the first record and the run returns 0, every record with index below the molecule count
holds, after the run, VISITED = unvisited + 1 as a 32-bit value, which differs from the
unvisited value (the integer view reading back what it stored). -/
theorem avemlist_all_stamped {α : Type} [Add α] [Mul α] [Div α] (V : IntView α)
    (sqrt : α → α) (fuel DATA MOLECULES : Nat) (f : MList α) (hV : V.RoundTrip)
    (huniform : ∀ (k : Nat) (r : Record α), k < readWord32 f.header MOLECULES →
      f.records[k]? = some r → V.u32 (r VISITED) = toU32 (readUnvisited V f.records))
    (hret : (avemlist V sqrt fuel DATA MOLECULES f).ret = Ret.zero) :
    ∀ k : Nat, k < readWord32 f.header MOLECULES →
      ∃ r, (avemlist V sqrt fuel DATA MOLECULES f).input.records[k]? = some r ∧
        V.u32 (r VISITED) = toU32 (readUnvisited V f.records + 1) ∧
        V.u32 (r VISITED) ≠ toU32 (readUnvisited V f.records) := by
  obtain ⟨hr, hinp, _, _⟩ := avemlist_input V sqrt fuel DATA MOLECULES f
  rw [hr] at hret
  rw [hinp]
  have hF := (scanLoop_frame V sqrt fuel (readUnvisited V f.records) f.records
    (readWord32 f.header MOLECULES) 0 ⟨f.records, [], []⟩ [] 0 rfl).1
  have hall := scanLoop_all_written V sqrt fuel (readUnvisited V f.records) f.records
    (readWord32 f.header MOLECULES) (readWord32_lt _ _) huniform
    (readWord32 f.header MOLECULES) 0 ⟨f.records, [], []⟩ [] 0 (by omega)
    (frameVisited_refl _ _ _ rfl rfl) (fun k hk => absurd hk (Nat.not_lt_zero k)) hret
  intro k hk
  obtain ⟨r, r2, _, h2, _, hv⟩ := frameVisited_written _ _ _ hF rfl k (hall k hk)
  refine ⟨r2, h2, ?_, ?_⟩
  · rw [hv]
    exact u32_stamp V hV _
  · rw [hv, u32_stamp V hV _]
    exact toU32_succ_ne _

theorem uniform_of_fin {α : Type} (V : IntView α) (records : List (Record α)) (n u : Nat)
    (h : ∀ k : Fin records.length, k.1 < n → V.u32 (records.get k VISITED) = u) :
    ∀ (k : Nat) (r : Record α), k < n → records[k]? = some r → V.u32 (r VISITED) = u := by
  intro k r hk hr
  obtain ⟨hlt, hg⟩ := List.getElem?_eq_some.1 hr
  have := h ⟨k, hlt⟩ hk
  rw [← hg]
  exact this

theorem avemlist_all_stamped_witness :
    ratView.RoundTrip ∧
    (∀ (k : Nat) (r : Record ℚ), k < readWord32 scenarioFile.header 12 →
      scenarioFile.records[k]? = some r →
      ratView.u32 (r VISITED) = toU32 (readUnvisited ratView scenarioFile.records)) ∧
    (avemlist ratView ratSqrt 1 16 12 scenarioFile).ret = Ret.zero ∧
    ∀ k : Nat, k < readWord32 scenarioFile.header 12 →
      ∃ r, (avemlist ratView ratSqrt 1 16 12 scenarioFile).input.records[k]? = some r ∧
        ratView.u32 (r VISITED) = toU32 (readUnvisited ratView scenarioFile.records + 1) ∧
        ratView.u32 (r VISITED) ≠ toU32 (readUnvisited ratView scenarioFile.records) :=
  have hu : ∀ (k : Nat) (r : Record ℚ), k < readWord32 scenarioFile.header 12 →
      scenarioFile.records[k]? = some r →
      ratView.u32 (r VISITED) = toU32 (readUnvisited ratView scenarioFile.records) :=
    uniform_of_fin ratView _ _ _ (by decide)
  ⟨ratView_roundTrip, hu, by decide,
    avemlist_all_stamped ratView ratSqrt 1 16 12 scenarioFile ratView_roundTrip hu
      (by decide)⟩

/-! ## Tracks as chains of the file -/

theorem mem_linkTargets {α : Type} (V : IntView α) (recs : List (Record α)) (n : Nat)
    (m : Int) :
    m ∈ linkTargets V recs n ↔
      ∃ (j : Int) (r : Record α), j < n ∧ readRecord recs j = some r ∧
        0 < V.i32 (r LINK) ∧ V.i32 (r LINK) = m := by
  unfold linkTargets
  rw [List.mem_filterMap]
  constructor
  · intro ⟨r, hr, hm⟩
    rw [List.mem_iff_getElem?] at hr
    obtain ⟨k, hk⟩ := hr
    rw [List.getElem?_take] at hk
    split at hk
    · rename_i hkn
      split at hm
      · rename_i hpos
        cases hm
        refine ⟨(k : Int), r, by omega, ?_, hpos, rfl⟩
        unfold readRecord
        rw [if_pos (by omega)]
        simpa using hk
      · cases hm
    · cases hk
  · intro ⟨j, r, hjn, hr, hpos, hm⟩
    obtain ⟨h0, _, hget⟩ := readRecord_some recs j r hr
    refine ⟨r, ?_, by rw [if_pos hpos, hm]⟩
    rw [List.mem_iff_getElem?]
    refine ⟨j.toNat, ?_⟩
    rw [List.getElem?_take, if_pos (by omega)]
    exact hget

theorem flag_ne_visited (i : Idx) (h : average_flag i ≠ NOAVERAGE) : i ≠ VISITED := by
  intro e
  subst e
  exact h (by decide)

theorem averageTrack_chain_off {α : Type} [Field α] (V : IntView α) (sqrt : α → α)
    (fuel fuel' : Nat) (recs0 : List (Record α)) (s : MListState α)
    (output : List (Record α)) (head visited : Int) (chain : List (Int × Record α))
    (hs : StoreAgreeOff VISITED s.records recs0)
    (hc : chainFrom V recs0 fuel head = some chain) (hle : fuel ≤ fuel') :
    ∃ (hd : Record α) (s' : MListState α) (rec : Record α),
      readRecord s.records head = some hd ∧
      averageTrack V sqrt fuel' s output head visited = ⟨Ret.zero, s', output ++ [rec]⟩ ∧
      IsTrackOf sqrt chain rec ∧
      (∀ i, average_flag i = NOAVERAGE → rec i = hd i) ∧
      s'.writes = s.writes ++ chain.map Prod.fst := by
  obtain ⟨r0, rest, hr0, hchain⟩ := chainFrom_head V recs0 fuel head chain hc
  obtain ⟨hd, hhd, hag, _, hget0⟩ := readRecord_agree VISITED s.records recs0 head r0 hs hr0
  have hstore : StoreAgreeOff VISITED
      (fwriteRecord { s with reads := s.reads ++ [head] } head
        (Function.update hd VISITED (V.ofInt visited))).records recs0 := by
    simp only [fwriteRecord]
    exact storeAgreeOff_set VISITED _ _ _ _ r0 hs hget0 (agreeOff_update VISITED hd r0 _ hag)
  have hod : ∀ r, readRecord recs0 head = some r →
      AgreeOff VISITED (Function.update hd VISITED (V.ofInt visited)) r := by
    intro r hr
    rw [hr0] at hr
    cases hr
    exact agreeOff_update VISITED hd r0 _ hag
  obtain ⟨h1, h2, h3, h4, _, _⟩ := whileLink_chain V sqrt visited recs0 fuel head chain
    fuel' (fwriteRecord { s with reads := s.reads ++ [head] } head
        (Function.update hd VISITED (V.ofInt visited)))
    (Function.update hd VISITED (V.ofInt visited))
    (normalizeFields hd (sqrt (hd HEIGHT))) (sqrt (hd HEIGHT)) hc hle hstore hod
  generalize hL : whileLink V sqrt visited fuel'
    (fwriteRecord { s with reads := s.reads ++ [head] } head
        (Function.update hd VISITED (V.ofInt visited)))
    (Function.update hd VISITED (V.ofInt visited))
    (normalizeFields hd (sqrt (hd HEIGHT))) (sqrt (hd HEIGHT)) = L at h1 h2 h3 h4
  have hH : hd HEIGHT = r0 HEIGHT := hag HEIGHT (by decide)
  refine ⟨hd, L.input, divideFields L.average_data L.total_weight, hhd, ?_, ?_, ?_, ?_⟩
  · rw [averageTrack_read V sqrt fuel' s output head visited hd hhd L hL, if_pos h1]
  · intro i
    unfold divideFields
    rw [h2, h3, foldl_accumulate, foldl_weight, hchain]
    unfold normalizeFields chainWeighted chainTotal chainWeight
    constructor
    · intro ha
      have hi : hd i = r0 i := hag i (flag_ne_visited i (by rw [ha]; decide))
      simp only [if_pos ha, List.tail_cons, List.map_cons, List.sum_cons, hi, hH]
    · intro ht
      have ha : ¬ average_flag i = AVERAGE := by
        rw [ht]
        decide
      have hi : hd i = r0 i := hag i (flag_ne_visited i (by rw [ht]; decide))
      simp only [if_neg ha, if_pos ht, List.tail_cons, List.map_cons, List.sum_cons, hi]
  · intro i hn
    have ha : ¬ average_flag i = AVERAGE := by
      rw [hn]
      decide
    have ht : ¬ average_flag i = TOTAL := by
      rw [hn]
      decide
    unfold divideFields
    rw [h2, foldl_accumulate]
    unfold normalizeFields
    simp only [if_neg ha, if_neg ht]
  · rw [h4, hchain]
    simp [fwriteRecord]

theorem scanLoop_partition {α : Type} [Field α] (V : IntView α) (sqrt : α → α)
    (fuel : Nat) (unvisited : Int) (recs0 : List (Record α)) (n : Nat)
    (hV : V.RoundTrip) (hW : WellLinked V recs0 n (toU32 unvisited)) (hfuel : n ≤ fuel) :
    ∀ (cnt i : Nat) (s : MListState α) (output : List (Record α)) (tracks : Nat),
      i + cnt = n →
      ScanInv V recs0 n (toU32 unvisited) (toU32 (unvisited + 1)) (i : Int) s →
      PartInv V sqrt recs0 n i s output tracks →
      (scanLoop V sqrt fuel unvisited cnt i s output tracks).ret = Ret.zero ∧
      PartInv V sqrt recs0 n n (scanLoop V sqrt fuel unvisited cnt i s output tracks).input
        (scanLoop V sqrt fuel unvisited cnt i s output tracks).output
        (scanLoop V sqrt fuel unvisited cnt i s output tracks).tracks := by
  intro cnt
  induction cnt with
  | zero =>
    intro i s output tracks hin _ hP
    rw [scanLoop_zero]
    have : i = n := by omega
    subst this
    exact ⟨rfl, hP⟩
  | succ c ih =>
    intro i s output tracks hin hI hP
    have hlen : s.records.length = recs0.length := hI.agree.1
    obtain ⟨od, hread⟩ := readRecord_of_lt s.records (i : Int) (by omega)
      (by have := hW.complete; omega)
    have hcount_le : tracks ≤ i := by
      rw [hP.count]
      have := List.length_filter_le
        (fun k : Nat => decide ((k : Int) ∉ linkTargets V recs0 n)) (List.range i)
      rw [List.length_range] at this
      exact this
    by_cases hv : V.u32 (od VISITED) = toU32 unvisited
    · have hnew : (i : Int) ∉ s.writes := by
        intro hin2
        have := (hI.marks (i : Int) od (by omega) hread).1 hin2
        rw [hv] at this
        exact toU32_succ_ne unvisited this.symm
      have hnt : (i : Int) ∉ linkTargets V recs0 n := by
        intro hin2
        obtain ⟨j, r, hjn, hr, hpos, hl⟩ := (mem_linkTargets V recs0 n _).1 hin2
        obtain ⟨hfw, _⟩ := hW.forward j r hjn hr hpos
        obtain ⟨hj0, _, _⟩ := readRecord_some recs0 j r hr
        have hjw : j ∈ s.writes := hI.done j hj0 (by omega)
        have := hP.closed j hjw r hr hpos
        rw [hl] at this
        exact hnew this
      have hti : toInt32 i = (i : Int) := toInt32_of_lt i (by have := hW.small; omega)
      obtain ⟨chain, hchain⟩ := chainFrom_exists V recs0 n hW.complete hW.forward fuel
        (i : Int) (by omega) (by omega) (by omega)
      obtain ⟨g1, _, g3, g4⟩ := chainFrom_facts V recs0 n hW.forward fuel (i : Int) chain
        (by omega) hchain
      obtain ⟨r0, rest, _, hcons⟩ := chainFrom_head V recs0 fuel (i : Int) chain hchain
      obtain ⟨hd, s', rec, _, hrun, htrack, _, hwrites⟩ := averageTrack_chain_off V sqrt fuel
        fuel recs0 { s with reads := s.reads ++ [(i : Int)] } output (i : Int)
        (toInt32 (toU32 (unvisited + 1))) chain hI.agree hchain (Nat.le_refl _)
      obtain ⟨hz, hinv⟩ := averageTrack_disjoint V sqrt fuel unvisited recs0 n hV hW hfuel i s
        (s.reads ++ [(i : Int)]) output od hI (by omega) hread hnew
      rw [scanLoop_track V sqrt fuel unvisited c i s output tracks od hread hv _ rfl]
      rw [if_pos hz]
      rw [hti] at hinv ⊢
      rw [hrun] at hinv ⊢
      have hmod : (tracks + 1) % 4294967296 = tracks + 1 :=
        Nat.mod_eq_of_lt (by have := hW.small; omega)
      rw [hmod]
      simp only at hwrites hinv ⊢
      apply ih (i + 1) s' (output ++ [rec]) (tracks + 1) (by omega)
      · rw [Nat.cast_succ]
        exact hinv
      · refine ⟨?_, ?_, ?_, ?_⟩
        · intro j hj r hr hpos
          rw [hwrites] at hj ⊢
          rcases List.mem_append.1 hj with h | h
          · exact List.mem_append_left _ (hP.closed j h r hr hpos)
          · rw [List.mem_map] at h
            obtain ⟨p, hp, hpj⟩ := h
            have hrp := (g1 p hp).1
            rw [hpj, hr] at hrp
            cases hrp
            exact List.mem_append_right _ (g3 p hp hpos)
        · intro m hm
          rw [hwrites] at hm
          rcases List.mem_append.1 hm with h | h
          · rcases hP.targets m h with hlt | ht
            · exact Or.inl (by rw [Nat.cast_succ]; omega)
            · exact Or.inr ht
          · rw [hcons, List.map_cons] at h
            rcases List.mem_cons.1 h with h1 | h1
            · exact Or.inl (by rw [Nat.cast_succ, h1]; simp)
            · obtain ⟨p, hp, hlp, hpm⟩ := g4 m (by rw [hcons, List.map_cons]; exact h1)
              exact Or.inr ((mem_linkTargets V recs0 n m).2
                ⟨p.1, p.2, (g1 p hp).2.2, (g1 p hp).1, hlp, hpm⟩)
        · obtain ⟨chains, hT, hjoin⟩ := hP.chains
          refine ⟨chains ++ [chain], ?_, ?_⟩
          · exact List.rel_append hT (List.Forall₂.cons
              ⟨⟨(i : Int), chainFrom_isLinkChain V recs0 fuel _ chain hchain⟩, htrack⟩
              List.Forall₂.nil)
          · rw [List.map_append, List.flatten_append, hjoin, hwrites]
            simp
        · rw [List.range_succ, List.filter_append, List.length_append, ← hP.count]
          simp [hnt]
    · have hold : (i : Int) ∈ s.writes := by
        by_contra hnot
        exact hv ((hI.marks (i : Int) od (by omega) hread).2 hnot)
      have hit : (i : Int) ∈ linkTargets V recs0 n := by
        rcases hP.targets (i : Int) hold with h | h
        · omega
        · exact h
      rw [scanLoop_skip V sqrt fuel unvisited c i s output tracks od hread hv]
      apply ih (i + 1) _ _ _ (by omega)
      · refine ⟨hI.agree, hI.marks, hI.nodup, hI.range, ?_, ?_⟩
        · intro m hm
          rcases hI.origin m hm with hlt | h
          · exact Or.inl (by rw [Nat.cast_succ]; omega)
          · exact Or.inr h
        · intro m h0 hlt
          rw [Nat.cast_succ] at hlt
          by_cases hm : m < (i : Int)
          · exact hI.done m h0 hm
          · have : m = (i : Int) := by omega
            rw [this]
            exact hold
      · refine ⟨hP.closed, ?_, hP.chains, ?_⟩
        · intro m hm
          rcases hP.targets m hm with hlt | h
          · exact Or.inl (by rw [Nat.cast_succ]; omega)
          · exact Or.inr h
        · rw [List.range_succ, List.filter_append, List.length_append, ← hP.count]
          simp [hit]

/-- C16: under the data-model invariants on the records below the molecule count (all carry
the unvisited value, every positive LINK is the index of a later record below the molecule
count, no two records have the same positive LINK), a run of avemlist returns 0, the output
records are in order the averages of LINK chains of the file in which every index below the
molecule count occurs exactly once, and the track count is the number of records that are not
the LINK target of any record. -/
theorem avemlist_disjoint_tracks {α : Type} [Field α] (V : IntView α) (sqrt : α → α)
    (fuel DATA MOLECULES : Nat) (f : MList α) (hV : V.RoundTrip)
    (hW : WellLinked V f.records (readWord32 f.header MOLECULES)
      (toU32 (readUnvisited V f.records)))
    (hfuel : readWord32 f.header MOLECULES ≤ fuel) :
    (avemlist V sqrt fuel DATA MOLECULES f).ret = Ret.zero ∧
    (avemlist V sqrt fuel DATA MOLECULES f).tracks =
      headCount V f.records (readWord32 f.header MOLECULES) ∧
    (avemlist V sqrt fuel DATA MOLECULES f).records.length =
      headCount V f.records (readWord32 f.header MOLECULES) ∧
    ∃ chains : List (List (Int × Record α)),
      TracksOf V sqrt f.records chains (avemlist V sqrt fuel DATA MOLECULES f).records ∧
      (chains.map (fun c => c.map Prod.fst)).flatten =
        (avemlist V sqrt fuel DATA MOLECULES f).input.writes ∧
      StampedOnce (readWord32 f.header MOLECULES)
        (chains.map (fun c => c.map Prod.fst)).flatten := by
  obtain ⟨hret, hinp, hrec, htr⟩ := avemlist_input V sqrt fuel DATA MOLECULES f
  have h0 : ScanInv V f.records (readWord32 f.header MOLECULES)
      (toU32 (readUnvisited V f.records)) (toU32 (readUnvisited V f.records + 1))
      ((0 : Nat) : Int) ⟨f.records, [], []⟩ := by
    refine ⟨storeAgreeOff_refl VISITED f.records, ?_, List.nodup_nil, ?_, ?_, ?_⟩
    · intro m r hm hr
      exact ⟨fun h => absurd h (List.not_mem_nil m), fun _ => hW.unvisited m r hm hr⟩
    · intro m hm
      cases hm
    · intro m hm
      cases hm
    · intro m h0 hlt
      omega
  have hP0 : PartInv V sqrt f.records (readWord32 f.header MOLECULES) 0
      ⟨f.records, [], []⟩ [] 0 := by
    refine ⟨?_, ?_, ⟨[], List.Forall₂.nil, rfl⟩, rfl⟩
    · intro j hj
      cases hj
    · intro m hm
      cases hm
  obtain ⟨hz, hinv⟩ := scanLoop_disjoint V sqrt fuel (readUnvisited V f.records) f.records
    (readWord32 f.header MOLECULES) hV hW hfuel (readWord32 f.header MOLECULES) 0
    ⟨f.records, [], []⟩ [] 0 (by omega) h0
  obtain ⟨_, hP⟩ := scanLoop_partition V sqrt fuel (readUnvisited V f.records) f.records
    (readWord32 f.header MOLECULES) hV hW hfuel (readWord32 f.header MOLECULES) 0
    ⟨f.records, [], []⟩ [] 0 (by omega) h0 hP0
  obtain ⟨hlen, _⟩ := scanLoop_tracks V sqrt fuel (readUnvisited V f.records)
    (readWord32 f.header MOLECULES) 0 ⟨f.records, [], []⟩ [] 0
    (by have := readWord32_lt f.header MOLECULES; omega) rfl hz
  obtain ⟨chains, hT, hjoin⟩ := hP.chains
  have hcount := hP.count
  rw [hret, hinp, hrec, htr]
  refine ⟨hz, hcount, ?_, chains, hT, hjoin, ?_⟩
  · rw [hlen]
    exact hcount
  · rw [hjoin]
    exact stampedOnce_of_scanInv V f.records _ _ _ _ hinv

theorem avemlist_disjoint_tracks_witness :
    ratView.RoundTrip ∧
    WellLinked ratView scenarioFile.records (readWord32 scenarioFile.header 12)
      (toU32 (readUnvisited ratView scenarioFile.records)) ∧
    readWord32 scenarioFile.header 12 ≤ 3 ∧
    (avemlist ratView ratSqrt 3 16 12 scenarioFile).ret = Ret.zero ∧
    (avemlist ratView ratSqrt 3 16 12 scenarioFile).tracks =
      headCount ratView scenarioFile.records (readWord32 scenarioFile.header 12) ∧
    (avemlist ratView ratSqrt 3 16 12 scenarioFile).records.length =
      headCount ratView scenarioFile.records (readWord32 scenarioFile.header 12) ∧
    ∃ chains : List (List (Int × Record ℚ)),
      TracksOf ratView ratSqrt scenarioFile.records chains
        (avemlist ratView ratSqrt 3 16 12 scenarioFile).records ∧
      (chains.map (fun c => c.map Prod.fst)).flatten =
        (avemlist ratView ratSqrt 3 16 12 scenarioFile).input.writes ∧
      StampedOnce (readWord32 scenarioFile.header 12)
        (chains.map (fun c => c.map Prod.fst)).flatten :=
  have hW : WellLinked ratView scenarioFile.records (readWord32 scenarioFile.header 12)
      (toU32 (readUnvisited ratView scenarioFile.records)) :=
    wellLinked_of_fin ratView _ _ _ (by decide) (by decide) (by decide) (by decide)
      (by decide)
  ⟨ratView_roundTrip, hW, by decide,
    avemlist_disjoint_tracks ratView ratSqrt 3 16 12 scenarioFile ratView_roundTrip hW
      (by decide)⟩

/-! ## Two runs on stores that differ in VISITED only -/

theorem storeAgreeOff_symm {α : Type} (f0 : Idx) (s t : List (Record α))
    (h : StoreAgreeOff f0 s t) : StoreAgreeOff f0 t s := by
  refine ⟨h.1.symm, ?_⟩
  intro k a b ha hb i hi
  exact (h.2 k b a hb ha i hi).symm

theorem frameVisited_agree {α : Type} (stamp : α) (s s2 : MListState α)
    (h : FrameVisited stamp s s2) : StoreAgreeOff VISITED s2.records s.records := by
  obtain ⟨hlen, w, _, _, hout, hst⟩ := h
  refine ⟨hlen, ?_⟩
  intro k a b ha hb
  by_cases hk : (k : Int) ∈ w
  · exact (hst k hk b a hb ha).1
  · have := hout k hk
    rw [ha, hb] at this
    cases this
    exact agreeOff_refl VISITED a

theorem agreeOff_update_two {α : Type} (f0 : Idx) (a b : Record α) (v w : α)
    (h : AgreeOff f0 a b) :
    AgreeOff f0 (Function.update a f0 v) (Function.update b f0 w) := by
  intro i hi
  rw [Function.update_noteq hi, Function.update_noteq hi]
  exact h i hi

theorem whileLink_noaverage {α : Type} [Add α] [Mul α] (V : IntView α) (sqrt : α → α)
    (visited : Int) (i : Idx) (hi : average_flag i = NOAVERAGE) :
    ∀ (fuel : Nat) (s : MListState α) (od avg : Record α) (tw : α),
      (whileLink V sqrt visited fuel s od avg tw).average_data i = avg i := by
  have ha : ¬ average_flag i = AVERAGE := by
    rw [hi]
    decide
  have ht : ¬ average_flag i = TOTAL := by
    rw [hi]
    decide
  intro fuel
  induction fuel with
  | zero =>
    intro s od avg tw
    by_cases hpos : 0 < V.i32 (od LINK)
    · rw [whileLink_zero V sqrt visited s od avg tw hpos]
    · rw [whileLink_done V sqrt visited 0 s od avg tw hpos]
  | succ k ih =>
    intro s od avg tw
    by_cases hpos : 0 < V.i32 (od LINK)
    · cases hr : readRecord s.records (V.i32 (od LINK)) with
      | none => rw [whileLink_short V sqrt visited k s od avg tw hpos hr]
      | some od2 =>
        rw [whileLink_step V sqrt visited k s od avg tw od2 hpos hr, ih]
        unfold accumulateFields
        rw [if_neg ha, if_neg ht]
    · rw [whileLink_done V sqrt visited (k + 1) s od avg tw hpos]

theorem whileLink_rerun {α : Type} [Add α] [Mul α] (V : IntView α) (sqrt : α → α)
    (v1 v2 : Int) :
    ∀ (fuel : Nat) (s t : MListState α) (od od2 avg avg2 : Record α) (tw : α),
      StoreAgreeOff VISITED s.records t.records → s.reads = t.reads → s.writes = t.writes →
      AgreeOff VISITED od od2 → AgreeOff VISITED avg avg2 →
      (whileLink V sqrt v1 fuel s od avg tw).ret =
        (whileLink V sqrt v2 fuel t od2 avg2 tw).ret ∧
      (whileLink V sqrt v1 fuel s od avg tw).input.reads =
        (whileLink V sqrt v2 fuel t od2 avg2 tw).input.reads ∧
      (whileLink V sqrt v1 fuel s od avg tw).input.writes =
        (whileLink V sqrt v2 fuel t od2 avg2 tw).input.writes ∧
      StoreAgreeOff VISITED (whileLink V sqrt v1 fuel s od avg tw).input.records
        (whileLink V sqrt v2 fuel t od2 avg2 tw).input.records ∧
      AgreeOff VISITED (whileLink V sqrt v1 fuel s od avg tw).average_data
        (whileLink V sqrt v2 fuel t od2 avg2 tw).average_data ∧
      (whileLink V sqrt v1 fuel s od avg tw).total_weight =
        (whileLink V sqrt v2 fuel t od2 avg2 tw).total_weight := by
  intro fuel
  induction fuel with
  | zero =>
    intro s t od od2 avg avg2 tw hs hrd hwr hod havg
    have hlink : od LINK = od2 LINK := hod LINK (by decide)
    by_cases hpos : 0 < V.i32 (od LINK)
    · rw [whileLink_zero V sqrt v1 s od avg tw hpos,
        whileLink_zero V sqrt v2 t od2 avg2 tw (by rw [← hlink]; exact hpos)]
      exact ⟨rfl, hrd, hwr, hs, havg, rfl⟩
    · rw [whileLink_done V sqrt v1 0 s od avg tw hpos,
        whileLink_done V sqrt v2 0 t od2 avg2 tw (by rw [← hlink]; exact hpos)]
      exact ⟨rfl, hrd, hwr, hs, havg, rfl⟩
  | succ k ih =>
    intro s t od od2 avg avg2 tw hs hrd hwr hod havg
    have hlink : od LINK = od2 LINK := hod LINK (by decide)
    by_cases hpos : 0 < V.i32 (od LINK)
    · have hpos2 : 0 < V.i32 (od2 LINK) := by rw [← hlink]; exact hpos
      rcases readRecord_agree_both VISITED s.records t.records (V.i32 (od LINK)) hs with
        ⟨hn1, hn2⟩ | ⟨a, b, ha, hb, hab⟩
      · rw [hlink] at hn2
        rw [whileLink_short V sqrt v1 k s od avg tw hpos hn1,
          whileLink_short V sqrt v2 k t od2 avg2 tw hpos2 hn2]
        exact ⟨rfl, by simp only [hrd, hlink], hwr, hs, havg, rfl⟩
      · rw [hlink] at hb
        rw [whileLink_step V sqrt v1 k s od avg tw a hpos ha,
          whileLink_step V sqrt v2 k t od2 avg2 tw b hpos2 hb]
        have hh : a HEIGHT = b HEIGHT := hab HEIGHT (by decide)
        rw [hh]
        apply ih
        · simp only [fwriteRecord, hlink]
          exact storeAgreeOff_set_both VISITED _ _ _ _ _ hs
            (agreeOff_update_two VISITED a b _ _ hab)
        · simp only [fwriteRecord, hrd, hlink]
        · simp only [fwriteRecord, hwr, hlink]
        · exact agreeOff_update_two VISITED a b _ _ hab
        · exact accumulateFields_agreeOff VISITED avg avg2 a b _ havg hab
    · rw [whileLink_done V sqrt v1 (k + 1) s od avg tw hpos,
        whileLink_done V sqrt v2 (k + 1) t od2 avg2 tw (by rw [← hlink]; exact hpos)]
      exact ⟨rfl, hrd, hwr, hs, havg, rfl⟩

theorem averageTrack_rerun {α : Type} [Add α] [Mul α] [Div α] (V : IntView α)
    (sqrt : α → α) (fuel : Nat) (s t : MListState α) (out1 out2 : List (Record α))
    (molecule v1 v2 : Int)
    (hs : StoreAgreeOff VISITED s.records t.records) (hrd : s.reads = t.reads)
    (hwr : s.writes = t.writes) :
    (averageTrack V sqrt fuel s out1 molecule v1).ret =
      (averageTrack V sqrt fuel t out2 molecule v2).ret ∧
    (averageTrack V sqrt fuel s out1 molecule v1).input.reads =
      (averageTrack V sqrt fuel t out2 molecule v2).input.reads ∧
    (averageTrack V sqrt fuel s out1 molecule v1).input.writes =
      (averageTrack V sqrt fuel t out2 molecule v2).input.writes ∧
    StoreAgreeOff VISITED (averageTrack V sqrt fuel s out1 molecule v1).input.records
      (averageTrack V sqrt fuel t out2 molecule v2).input.records ∧
    ((averageTrack V sqrt fuel s out1 molecule v1).ret = Ret.zero →
      ∃ hd1 hd2 rec1 rec2, readRecord s.records molecule = some hd1 ∧
        readRecord t.records molecule = some hd2 ∧
        (averageTrack V sqrt fuel s out1 molecule v1).output = out1 ++ [rec1] ∧
        (averageTrack V sqrt fuel t out2 molecule v2).output = out2 ++ [rec2] ∧
        AgreeOff VISITED rec1 rec2 ∧ rec1 VISITED = hd1 VISITED ∧
        rec2 VISITED = hd2 VISITED) ∧
    ((averageTrack V sqrt fuel s out1 molecule v1).ret ≠ Ret.zero →
      (averageTrack V sqrt fuel s out1 molecule v1).output = out1 ∧
      (averageTrack V sqrt fuel t out2 molecule v2).output = out2) := by
  rcases readRecord_agree_both VISITED s.records t.records molecule hs with
    ⟨hn1, hn2⟩ | ⟨a, b, ha, hb, hab⟩
  · rw [averageTrack_short V sqrt fuel s out1 molecule v1 hn1,
      averageTrack_short V sqrt fuel t out2 molecule v2 hn2]
    refine ⟨rfl, by simp only [hrd], hwr, hs, ?_, ?_⟩
    · intro h
      cases h
    · intro _
      exact ⟨rfl, rfl⟩
  · rw [averageTrack_read V sqrt fuel s out1 molecule v1 a ha _ rfl,
      averageTrack_read V sqrt fuel t out2 molecule v2 b hb _ rfl]
    have hh : a HEIGHT = b HEIGHT := hab HEIGHT (by decide)
    have havg : AgreeOff VISITED (normalizeFields a (sqrt (a HEIGHT)))
        (normalizeFields b (sqrt (b HEIGHT))) := by
      intro i hi
      unfold normalizeFields
      rw [hab i hi, hh]
    have hnv : ¬ average_flag VISITED = AVERAGE := by decide
    obtain ⟨h1, h2, h3, h4, h5, h6⟩ := whileLink_rerun V sqrt v1 v2 fuel
      (fwriteRecord { s with reads := s.reads ++ [molecule] } molecule
        (Function.update a VISITED (V.ofInt v1)))
      (fwriteRecord { t with reads := t.reads ++ [molecule] } molecule
        (Function.update b VISITED (V.ofInt v2)))
      (Function.update a VISITED (V.ofInt v1))
      (Function.update b VISITED (V.ofInt v2))
      (normalizeFields a (sqrt (a HEIGHT))) (normalizeFields b (sqrt (b HEIGHT)))
      (sqrt (a HEIGHT))
      (by
        simp only [fwriteRecord]
        exact storeAgreeOff_set_both VISITED _ _ _ _ _ hs
          (agreeOff_update_two VISITED a b _ _ hab))
      (by simp only [fwriteRecord, hrd]) (by simp only [fwriteRecord, hwr])
      (agreeOff_update_two VISITED a b _ _ hab) havg
    have n1 := whileLink_noaverage V sqrt v1 VISITED (by decide) fuel
      (fwriteRecord { s with reads := s.reads ++ [molecule] } molecule
        (Function.update a VISITED (V.ofInt v1)))
      (Function.update a VISITED (V.ofInt v1)) (normalizeFields a (sqrt (a HEIGHT)))
      (sqrt (a HEIGHT))
    have n2 := whileLink_noaverage V sqrt v2 VISITED (by decide) fuel
      (fwriteRecord { t with reads := t.reads ++ [molecule] } molecule
        (Function.update b VISITED (V.ofInt v2)))
      (Function.update b VISITED (V.ofInt v2)) (normalizeFields b (sqrt (b HEIGHT)))
      (sqrt (b HEIGHT))
    rw [hh] at h1 h2 h3 h4 h5 h6
    rw [hh, h1]
    split
    · refine ⟨rfl, h2, h3, h4, ?_, ?_⟩
      · intro _
        refine ⟨a, b, _, _, ha, hb, rfl, rfl, ?_, ?_, ?_⟩
        · intro i hi
          unfold divideFields
          rw [h5 i hi, h6]
        · unfold divideFields
          rw [if_neg hnv, ← hh, n1]
          unfold normalizeFields
          rw [if_neg hnv]
        · unfold divideFields
          rw [if_neg hnv, n2]
          unfold normalizeFields
          rw [if_neg hnv]
      · intro h
        exact absurd rfl h
    · rename_i hz
      refine ⟨rfl, h2, h3, h4, ?_, ?_⟩
      · intro h
        exact absurd h hz
      · intro _
        exact ⟨rfl, rfl⟩

theorem head_decision {α : Type} (V : IntView α) (recs : List (Record α)) (n u : Nat)
    (stamp : α) (s : MListState α) (i : Nat) (a : Record α)
    (hF : FrameVisited stamp ⟨recs, [], []⟩ s)
    (huni : ∀ (k : Nat) (r : Record α), k < n → recs[k]? = some r → V.u32 (r VISITED) = u)
    (hst : V.u32 stamp ≠ u) (hi : i < n) (hr : readRecord s.records (i : Int) = some a) :
    V.u32 (a VISITED) = u ↔ (i : Int) ∉ s.writes := by
  obtain ⟨_, _, hget⟩ := readRecord_some s.records (i : Int) a hr
  simp only [Int.toNat_ofNat] at hget
  constructor
  · intro hv hin
    obtain ⟨r, r2, _, h2, _, hvis⟩ := frameVisited_written stamp _ _ hF rfl i hin
    rw [hget] at h2
    cases h2
    rw [hvis] at hv
    exact hst hv
  · intro hnot
    have hsame := frameVisited_unwritten stamp _ _ hF rfl i hnot
    rw [hget] at hsame
    exact huni i a hi hsame.symm

theorem scanLoop_rerun {α : Type} [Add α] [Mul α] [Div α] (V : IntView α) (sqrt : α → α)
    (fuel : Nat) (U U2 : Int) (recs0 recs1 : List (Record α)) (n : Nat)
    (hn : n < 4294967296) (hV : V.RoundTrip)
    (huni1 : ∀ (k : Nat) (r : Record α), k < n → recs0[k]? = some r →
      V.u32 (r VISITED) = toU32 U)
    (huni2 : ∀ (k : Nat) (r : Record α), k < n → recs1[k]? = some r →
      V.u32 (r VISITED) = toU32 U2) :
    ∀ (cnt i : Nat) (s1 s2 : MListState α) (out1 out2 : List (Record α)) (tracks : Nat),
      i + cnt = n →
      FrameVisited (V.ofInt (toInt32 (toU32 (U + 1)))) ⟨recs0, [], []⟩ s1 →
      FrameVisited (V.ofInt (toInt32 (toU32 (U2 + 1)))) ⟨recs1, [], []⟩ s2 →
      StoreAgreeOff VISITED s1.records s2.records → s1.reads = s2.reads →
      s1.writes = s2.writes →
      List.Forall₂ (RerunRecord V (toU32 U) (toU32 U2)) out1 out2 →
      (scanLoop V sqrt fuel U cnt i s1 out1 tracks).ret =
        (scanLoop V sqrt fuel U2 cnt i s2 out2 tracks).ret ∧
      (scanLoop V sqrt fuel U cnt i s1 out1 tracks).tracks =
        (scanLoop V sqrt fuel U2 cnt i s2 out2 tracks).tracks ∧
      List.Forall₂ (RerunRecord V (toU32 U) (toU32 U2))
        (scanLoop V sqrt fuel U cnt i s1 out1 tracks).output
        (scanLoop V sqrt fuel U2 cnt i s2 out2 tracks).output ∧
      (scanLoop V sqrt fuel U cnt i s1 out1 tracks).input.reads =
        (scanLoop V sqrt fuel U2 cnt i s2 out2 tracks).input.reads ∧
      (scanLoop V sqrt fuel U cnt i s1 out1 tracks).input.writes =
        (scanLoop V sqrt fuel U2 cnt i s2 out2 tracks).input.writes := by
  have hst1 : V.u32 (V.ofInt (toInt32 (toU32 (U + 1)))) ≠ toU32 U := by
    rw [u32_stamp V hV]
    exact toU32_succ_ne U
  have hst2 : V.u32 (V.ofInt (toInt32 (toU32 (U2 + 1)))) ≠ toU32 U2 := by
    rw [u32_stamp V hV]
    exact toU32_succ_ne U2
  intro cnt
  induction cnt with
  | zero =>
    intro i s1 s2 out1 out2 tracks _ _ _ _ hrd hwr hout
    rw [scanLoop_zero, scanLoop_zero]
    exact ⟨rfl, rfl, hout, hrd, hwr⟩
  | succ c ih =>
    intro i s1 s2 out1 out2 tracks hic hF1 hF2 hs hrd hwr hout
    rcases readRecord_agree_both VISITED s1.records s2.records (i : Int) hs with
      ⟨hn1, hn2⟩ | ⟨a, b, ha, hb, hab⟩
    · rw [scanLoop_short V sqrt fuel U c i s1 out1 tracks hn1,
        scanLoop_short V sqrt fuel U2 c i s2 out2 tracks hn2]
      exact ⟨rfl, rfl, hout, by simp only [hrd], hwr⟩
    · have d1 := head_decision V recs0 n (toU32 U) _ s1 i a hF1 huni1 hst1 (by omega) ha
      have d2 := head_decision V recs1 n (toU32 U2) _ s2 i b hF2 huni2 hst2 (by omega) hb
      have hF1' : FrameVisited (V.ofInt (toInt32 (toU32 (U + 1)))) ⟨recs0, [], []⟩
          { s1 with reads := s1.reads ++ [(i : Int)] } :=
        frameVisited_trans _ _ s1 _ hF1 (frameVisited_refl _ s1 _ rfl rfl)
      have hF2' : FrameVisited (V.ofInt (toInt32 (toU32 (U2 + 1)))) ⟨recs1, [], []⟩
          { s2 with reads := s2.reads ++ [(i : Int)] } :=
        frameVisited_trans _ _ s2 _ hF2 (frameVisited_refl _ s2 _ rfl rfl)
      have hrd' : s1.reads ++ [(i : Int)] = s2.reads ++ [(i : Int)] := by rw [hrd]
      by_cases hv1 : V.u32 (a VISITED) = toU32 U
      · have hv2 : V.u32 (b VISITED) = toU32 U2 := by
          apply d2.2
          rw [← hwr]
          exact d1.1 hv1
        rw [scanLoop_track V sqrt fuel U c i s1 out1 tracks a ha hv1 _ rfl,
          scanLoop_track V sqrt fuel U2 c i s2 out2 tracks b hb hv2 _ rfl]
        obtain ⟨e1, e2, e3, e4, e5, e6⟩ := averageTrack_rerun V sqrt fuel
          { s1 with reads := s1.reads ++ [(i : Int)] }
          { s2 with reads := s2.reads ++ [(i : Int)] } out1 out2 (toInt32 i)
          (toInt32 (toU32 (U + 1))) (toInt32 (toU32 (U2 + 1))) hs hrd' hwr
        have f1 := (averageTrack_frame V sqrt fuel s1.records
          { s1 with reads := s1.reads ++ [(i : Int)] } out1 (toInt32 i)
          (toInt32 (toU32 (U + 1))) rfl).1
        have f2 := (averageTrack_frame V sqrt fuel s2.records
          { s2 with reads := s2.reads ++ [(i : Int)] } out2 (toInt32 i)
          (toInt32 (toU32 (U2 + 1))) rfl).1
        by_cases hz : (averageTrack V sqrt fuel { s1 with reads := s1.reads ++ [(i : Int)] }
            out1 (toInt32 i) (toInt32 (toU32 (U + 1)))).ret = Ret.zero
        · have hz2 := hz
          rw [e1] at hz2
          rw [if_pos hz, if_pos hz2]
          obtain ⟨hd1, hd2, rec1, rec2, hr1, hr2, ho1, ho2, hag, hvis1, hvis2⟩ := e5 hz
          have hti : toInt32 i = (i : Int) :=
            toInt32_of_nonneg i (by omega) (readRecord_some _ _ _ hr1).1
          rw [hti] at hr1 hr2
          have ea : hd1 = a := by
            have : readRecord s1.records (i : Int) = some hd1 := hr1
            rw [ha] at this
            cases this
            rfl
          have eb : hd2 = b := by
            have : readRecord s2.records (i : Int) = some hd2 := hr2
            rw [hb] at this
            cases this
            rfl
          apply ih (i + 1) _ _ _ _ _ (by omega) (frameVisited_trans _ _ _ _ hF1' f1)
            (frameVisited_trans _ _ _ _ hF2' f2) e4 e2 e3
          rw [ho1, ho2]
          refine List.rel_append hout (List.Forall₂.cons ⟨hag, ?_, ?_⟩ List.Forall₂.nil)
          · rw [hvis1, ea]
            exact hv1
          · rw [hvis2, eb]
            exact hv2
        · have hz2 := hz
          rw [e1] at hz2
          rw [if_neg hz, if_neg hz2]
          refine ⟨e1, rfl, ?_, e2, e3⟩
          show List.Forall₂ _ (averageTrack V sqrt fuel _ out1 _ _).output
            (averageTrack V sqrt fuel _ out2 _ _).output
          rw [(e6 hz).1, (e6 hz).2]
          exact hout
      · have hv2 : ¬ V.u32 (b VISITED) = toU32 U2 := by
          intro h
          apply hv1
          apply d1.2
          rw [hwr]
          exact d2.1 h
        rw [scanLoop_skip V sqrt fuel U c i s1 out1 tracks a ha hv1,
          scanLoop_skip V sqrt fuel U2 c i s2 out2 tracks b hb hv2]
        exact ih (i + 1) _ _ _ _ _ (by omega) hF1' hF2' hs hrd' hwr hout

/-! ## Claim on a second run -/

/-- C17 (counterexample): `staleRecordFile` announces 0 molecules and holds one record with
VISITED = 0.  The first run returns 0 and stamps nothing, so the second run reads the same
unvisited value 0, not 0 + 1. -/
theorem second_run_reads_same_unvisited :
    (avemlist ratView ratSqrt 1 16 12 staleRecordFile).ret = Ret.zero ∧
    (∀ r ∈ staleRecordFile.records,
      ratView.u32 (r VISITED) = toU32 (readUnvisited ratView staleRecordFile.records)) ∧
    (avemlist ratView ratSqrt 1 16 12
      (rerunInput staleRecordFile (avemlist ratView ratSqrt 1 16 12 staleRecordFile))).ret =
      Ret.zero ∧
    toU32 (readUnvisited ratView
      (rerunInput staleRecordFile
        (avemlist ratView ratSqrt 1 16 12 staleRecordFile)).records) =
      toU32 (readUnvisited ratView staleRecordFile.records) ∧
    toU32 (readUnvisited ratView
      (rerunInput staleRecordFile
        (avemlist ratView ratSqrt 1 16 12 staleRecordFile)).records) ≠
      toU32 (readUnvisited ratView staleRecordFile.records + 1) := by
  decide

/-- C17 (amended): for an input with at least one molecule whose records below the molecule
count all carry the unvisited value read from the first record, and on which a first run
returns 0, a second run on the input as the first run left it also returns 0, reads
unvisited + 1 as its unvisited value, and gives the same output header, track count and
trailer and the same records in the same order, except that the VISITED field of each emitted
record holds unvisited + 1 instead of unvisited. -/
theorem avemlist_second_run {α : Type} [Add α] [Mul α] [Div α] (V : IntView α)
    (sqrt : α → α) (fuel DATA MOLECULES : Nat) (f : MList α) (hV : V.RoundTrip)
    (hcount : 0 < readWord32 f.header MOLECULES)
    (huniform : ∀ (k : Nat) (r : Record α), k < readWord32 f.header MOLECULES →
      f.records[k]? = some r → V.u32 (r VISITED) = toU32 (readUnvisited V f.records))
    (hret : (avemlist V sqrt fuel DATA MOLECULES f).ret = Ret.zero) :
    (avemlist V sqrt fuel DATA MOLECULES
      (rerunInput f (avemlist V sqrt fuel DATA MOLECULES f))).ret = Ret.zero ∧
    toU32 (readUnvisited V (rerunInput f (avemlist V sqrt fuel DATA MOLECULES f)).records) =
      toU32 (readUnvisited V f.records + 1) ∧
    (avemlist V sqrt fuel DATA MOLECULES
      (rerunInput f (avemlist V sqrt fuel DATA MOLECULES f))).header =
      (avemlist V sqrt fuel DATA MOLECULES f).header ∧
    (avemlist V sqrt fuel DATA MOLECULES
      (rerunInput f (avemlist V sqrt fuel DATA MOLECULES f))).tracks =
      (avemlist V sqrt fuel DATA MOLECULES f).tracks ∧
    (avemlist V sqrt fuel DATA MOLECULES
      (rerunInput f (avemlist V sqrt fuel DATA MOLECULES f))).trailer =
      (avemlist V sqrt fuel DATA MOLECULES f).trailer ∧
    List.Forall₂
      (RerunRecord V (toU32 (readUnvisited V f.records))
        (toU32 (readUnvisited V f.records + 1)))
      (avemlist V sqrt fuel DATA MOLECULES f).records
      (avemlist V sqrt fuel DATA MOLECULES
        (rerunInput f (avemlist V sqrt fuel DATA MOLECULES f))).records := by
  obtain ⟨hr, hinp, _, _⟩ := avemlist_input V sqrt fuel DATA MOLECULES f
  rw [hr] at hret
  have hn := readWord32_lt f.header MOLECULES
  have hF := (scanLoop_frame V sqrt fuel (readUnvisited V f.records) f.records
    (readWord32 f.header MOLECULES) 0 ⟨f.records, [], []⟩ [] 0 rfl).1
  have hall := scanLoop_all_written V sqrt fuel (readUnvisited V f.records) f.records
    (readWord32 f.header MOLECULES) hn huniform
    (readWord32 f.header MOLECULES) 0 ⟨f.records, [], []⟩ [] 0 (by omega)
    (frameVisited_refl _ _ _ rfl rfl) (fun k hk => absurd hk (Nat.not_lt_zero k)) hret
  have hcell : ∀ (k : Nat) (r : Record α), k < readWord32 f.header MOLECULES →
      (rerunInput f (avemlist V sqrt fuel DATA MOLECULES f)).records[k]? = some r →
      r VISITED = V.ofInt (toInt32 (toU32 (readUnvisited V f.records + 1))) := by
    intro k r hk hkr
    simp only [rerunInput, hinp] at hkr
    obtain ⟨_, r2, _, h2, _, hv⟩ := frameVisited_written _ _ _ hF rfl k (hall k hk)
    rw [hkr] at h2
    cases h2
    exact hv
  have hU2 : toU32 (readUnvisited V
      (rerunInput f (avemlist V sqrt fuel DATA MOLECULES f)).records) =
      toU32 (readUnvisited V f.records + 1) := by
    obtain ⟨_, r2, _, h2, _, _⟩ := frameVisited_written _ _ _ hF rfl 0 (hall 0 hcount)
    have h0 : (rerunInput f (avemlist V sqrt fuel DATA MOLECULES f)).records[0]? = some r2 := by
      simp only [rerunInput, hinp]
      exact h2
    unfold readUnvisited
    rw [h0]
    simp only
    rw [hcell 0 r2 hcount h0, u32_stamp V hV, toU32_toInt32]
    exact Nat.mod_eq_of_lt (toU32_lt _)
  have huni2 : ∀ (k : Nat) (r : Record α), k < readWord32 f.header MOLECULES →
      (rerunInput f (avemlist V sqrt fuel DATA MOLECULES f)).records[k]? = some r →
      V.u32 (r VISITED) = toU32 (readUnvisited V
        (rerunInput f (avemlist V sqrt fuel DATA MOLECULES f)).records) := by
    intro k r hk hkr
    rw [hU2, hcell k r hk hkr, u32_stamp V hV]
  have hagree : StoreAgreeOff VISITED f.records
      (rerunInput f (avemlist V sqrt fuel DATA MOLECULES f)).records := by
    simp only [rerunInput, hinp]
    exact storeAgreeOff_symm VISITED _ _ (frameVisited_agree _ _ _ hF)
  obtain ⟨e1, e2, e3, _, _⟩ := scanLoop_rerun V sqrt fuel (readUnvisited V f.records)
    (readUnvisited V (rerunInput f (avemlist V sqrt fuel DATA MOLECULES f)).records)
    f.records (rerunInput f (avemlist V sqrt fuel DATA MOLECULES f)).records
    (readWord32 f.header MOLECULES) hn hV huniform huni2
    (readWord32 f.header MOLECULES) 0 ⟨f.records, [], []⟩
    ⟨(rerunInput f (avemlist V sqrt fuel DATA MOLECULES f)).records, [], []⟩ [] [] 0
    (by omega) (frameVisited_refl _ _ _ rfl rfl) (frameVisited_refl _ _ _ rfl rfl) hagree
    rfl rfl List.Forall₂.nil
  rw [hU2] at e3
  have hz2 := hret
  rw [e1] at hz2
  have h1 := (avemlist_eq V sqrt fuel DATA MOLECULES f _ rfl).trans (if_pos hret)
  have h2 := (avemlist_eq V sqrt fuel DATA MOLECULES
    (rerunInput f (avemlist V sqrt fuel DATA MOLECULES f)) _ rfl).trans (if_pos hz2)
  refine ⟨?_, hU2, ?_, ?_, ?_, ?_⟩
  · exact (congrArg RunResult.ret h2)
  · exact (congrArg RunResult.header h2).trans
      ((congrArg (fun t => writeWord32 (f.header.take DATA) MOLECULES t) e2.symm).trans
        (congrArg RunResult.header h1).symm)
  · exact (congrArg RunResult.tracks h2).trans
      (e2.symm.trans (congrArg RunResult.tracks h1).symm)
  · exact (congrArg RunResult.trailer h2).trans (congrArg RunResult.trailer h1).symm
  · have e4 := congrArg RunResult.records h1
    have e5 := congrArg RunResult.records h2
    simp only at e4 e5
    rw [e5, e4]
    exact e3

theorem avemlist_second_run_witness :
    ratView.RoundTrip ∧
    0 < readWord32 scenarioFile.header 12 ∧
    (∀ (k : Nat) (r : Record ℚ), k < readWord32 scenarioFile.header 12 →
      scenarioFile.records[k]? = some r →
      ratView.u32 (r VISITED) = toU32 (readUnvisited ratView scenarioFile.records)) ∧
    (avemlist ratView ratSqrt 1 16 12 scenarioFile).ret = Ret.zero ∧
    ((avemlist ratView ratSqrt 1 16 12
      (rerunInput scenarioFile (avemlist ratView ratSqrt 1 16 12 scenarioFile))).ret =
      Ret.zero ∧
    toU32 (readUnvisited ratView
      (rerunInput scenarioFile (avemlist ratView ratSqrt 1 16 12 scenarioFile)).records) =
      toU32 (readUnvisited ratView scenarioFile.records + 1) ∧
    (avemlist ratView ratSqrt 1 16 12
      (rerunInput scenarioFile (avemlist ratView ratSqrt 1 16 12 scenarioFile))).header =
      (avemlist ratView ratSqrt 1 16 12 scenarioFile).header ∧
    (avemlist ratView ratSqrt 1 16 12
      (rerunInput scenarioFile (avemlist ratView ratSqrt 1 16 12 scenarioFile))).tracks =
      (avemlist ratView ratSqrt 1 16 12 scenarioFile).tracks ∧
    (avemlist ratView ratSqrt 1 16 12
      (rerunInput scenarioFile (avemlist ratView ratSqrt 1 16 12 scenarioFile))).trailer =
      (avemlist ratView ratSqrt 1 16 12 scenarioFile).trailer ∧
    List.Forall₂
      (RerunRecord ratView (toU32 (readUnvisited ratView scenarioFile.records))
        (toU32 (readUnvisited ratView scenarioFile.records + 1)))
      (avemlist ratView ratSqrt 1 16 12 scenarioFile).records
      (avemlist ratView ratSqrt 1 16 12
        (rerunInput scenarioFile (avemlist ratView ratSqrt 1 16 12 scenarioFile))).records) :=
  have hu : ∀ (k : Nat) (r : Record ℚ), k < readWord32 scenarioFile.header 12 →
      scenarioFile.records[k]? = some r →
      ratView.u32 (r VISITED) = toU32 (readUnvisited ratView scenarioFile.records) :=
    uniform_of_fin ratView _ _ _ (by decide)
  ⟨ratView_roundTrip, by decide, hu, by decide,
    avemlist_second_run ratView ratSqrt 1 16 12 scenarioFile ratView_roundTrip (by decide) hu
      (by decide)⟩

/-! ## Records reached by a traversal -/

theorem reached_congr {α : Type} (a b : List (Record α)) (trav : List Int)
    (h : a.length = b.length) : reached a trav = reached b trav := by
  unfold reached
  apply List.filter_congr
  intro m _
  cases ha : readRecord a m with
  | none =>
    rw [(readRecord_none_congr a b m h).1 ha]
  | some r =>
    cases hb : readRecord b m with
    | none =>
      rw [(readRecord_none_congr a b m h).2 hb] at ha
      cases ha
    | some r2 => rfl

theorem reached_nil {α : Type} (records : List (Record α)) : reached records [] = [] := rfl

theorem reached_cons_none {α : Type} (records : List (Record α)) (m : Int) (trav : List Int)
    (h : readRecord records m = none) : reached records (m :: trav) = reached records trav := by
  unfold reached
  rw [List.filter_cons_of_neg]
  rw [h]
  simp

theorem reached_cons_some {α : Type} (records : List (Record α)) (m : Int) (trav : List Int)
    (r : Record α) (h : readRecord records m = some r) :
    reached records (m :: trav) = m :: reached records trav := by
  unfold reached
  rw [List.filter_cons_of_pos]
  rw [h]
  rfl

theorem reached_append {α : Type} (records : List (Record α)) (a b : List Int) :
    reached records (a ++ b) = reached records a ++ reached records b := by
  unfold reached
  exact List.filter_append a b

theorem mem_reached {α : Type} (records : List (Record α)) (trav : List Int) (m : Int) :
    m ∈ reached records trav ↔ m ∈ trav ∧ ∃ r, readRecord records m = some r := by
  unfold reached
  rw [List.mem_filter]
  constructor
  · intro ⟨h1, h2⟩
    exact ⟨h1, Option.isSome_iff_exists.1 h2⟩
  · intro ⟨h1, h2⟩
    exact ⟨h1, Option.isSome_iff_exists.2 h2⟩

theorem readRecord_natCast {α : Type} (records : List (Record α)) (k : Nat) :
    readRecord records (k : Int) = records[k]? := by
  unfold readRecord
  rw [if_pos (Int.ofNat_nonneg k)]
  rfl

theorem reachedFrame_of_frame {α : Type} (stamp : α) (trav : List Int) (s s2 : MListState α)
    (hF : FrameVisited stamp s s2) (hw : s2.writes = s.writes ++ reached s.records trav) :
    ReachedFrame stamp trav s s2 := by
  obtain ⟨hlen, w, hw2, _, hun, hst⟩ := hF
  have hwe : w = reached s.records trav := by
    rw [hw] at hw2
    exact (List.append_cancel_left hw2).symm
  subst hwe
  refine ⟨hlen, hw, ?_, ?_⟩
  · intro k hk
    apply hun k
    intro hmem
    exact hk ((mem_reached s.records trav k).1 hmem).1
  · intro k r hk hr
    have hkw : (k : Int) ∈ reached s.records trav :=
      (mem_reached s.records trav k).2 ⟨hk, r, by rw [readRecord_natCast]; exact hr⟩
    have hlt : k < s.records.length := (List.getElem?_eq_some.1 hr).1
    have hlt2 : k < s2.records.length := by rw [hlen]; exact hlt
    refine ⟨s2.records[k], List.getElem?_eq_getElem hlt2, ?_⟩
    exact hst k hkw r _ hr (List.getElem?_eq_getElem hlt2)

theorem whileLink_trace {α : Type} [Add α] [Mul α] (V : IntView α) (sqrt : α → α)
    (visited : Int) (recs : List (Record α)) :
    ∀ (fuel : Nat) (s : MListState α) (od avg : Record α) (tw : α),
      s.records.length = recs.length →
      ∃ trav : List Int,
        (whileLink V sqrt visited fuel s od avg tw).input.reads = s.reads ++ trav ∧
        (whileLink V sqrt visited fuel s od avg tw).input.writes =
          s.writes ++ reached recs trav ∧
        ∀ m ∈ trav, 0 < m := by
  intro fuel
  induction fuel with
  | zero =>
    intro s od avg tw _
    refine ⟨[], ?_, ?_, fun m hm => absurd hm (List.not_mem_nil m)⟩
    · by_cases hpos : 0 < V.i32 (od LINK)
      · rw [whileLink_zero V sqrt visited s od avg tw hpos, List.append_nil]
      · rw [whileLink_done V sqrt visited 0 s od avg tw hpos, List.append_nil]
    · by_cases hpos : 0 < V.i32 (od LINK)
      · rw [whileLink_zero V sqrt visited s od avg tw hpos, reached_nil, List.append_nil]
      · rw [whileLink_done V sqrt visited 0 s od avg tw hpos, reached_nil, List.append_nil]
  | succ k ih =>
    intro s od avg tw hlen
    by_cases hpos : 0 < V.i32 (od LINK)
    · cases hr : readRecord s.records (V.i32 (od LINK)) with
      | none =>
        rw [whileLink_short V sqrt visited k s od avg tw hpos hr]
        have hn : readRecord recs (V.i32 (od LINK)) = none :=
          (readRecord_none_congr s.records recs _ hlen).1 hr
        refine ⟨[V.i32 (od LINK)], rfl, ?_, ?_⟩
        · rw [reached_cons_none recs _ _ hn, reached_nil, List.append_nil]
        · intro m hm
          rw [List.mem_singleton] at hm
          rw [hm]
          exact hpos
      | some a =>
        rw [whileLink_step V sqrt visited k s od avg tw a hpos hr]
        have hsome : ∃ b, readRecord recs (V.i32 (od LINK)) = some b := by
          cases hb : readRecord recs (V.i32 (od LINK)) with
          | none =>
            rw [(readRecord_none_congr s.records recs _ hlen).2 hb] at hr
            cases hr
          | some b => exact ⟨b, rfl⟩
        obtain ⟨b, hb⟩ := hsome
        obtain ⟨trav, h1, h2, h3⟩ := ih
          (fwriteRecord { s with reads := s.reads ++ [V.i32 (od LINK)] } (V.i32 (od LINK))
            (Function.update a VISITED (V.ofInt visited)))
          (Function.update a VISITED (V.ofInt visited))
          (accumulateFields avg a (sqrt (a HEIGHT))) (tw + sqrt (a HEIGHT))
          (by simp only [fwriteRecord, List.length_set]; exact hlen)
        refine ⟨V.i32 (od LINK) :: trav, ?_, ?_, ?_⟩
        · rw [h1]
          simp only [fwriteRecord, List.append_assoc, List.singleton_append]
        · rw [h2, reached_cons_some recs _ _ b hb]
          simp only [fwriteRecord, List.append_assoc, List.singleton_append]
        · intro m hm
          rcases List.mem_cons.1 hm with h | h
          · rw [h]
            exact hpos
          · exact h3 m h
    · rw [whileLink_done V sqrt visited (k + 1) s od avg tw hpos]
      exact ⟨[], by rw [List.append_nil], by rw [reached_nil, List.append_nil],
        fun m hm => absurd hm (List.not_mem_nil m)⟩

theorem averageTrack_trace {α : Type} [Add α] [Mul α] [Div α] (V : IntView α)
    (sqrt : α → α) (fuel : Nat) (recs : List (Record α)) (s : MListState α)
    (output : List (Record α)) (molecule visited : Int)
    (hlen : s.records.length = recs.length) :
    ∃ trav : List Int,
      (averageTrack V sqrt fuel s output molecule visited).input.reads = s.reads ++ trav ∧
      (averageTrack V sqrt fuel s output molecule visited).input.writes =
        s.writes ++ reached recs trav ∧
      ∀ m ∈ trav, m = molecule ∨ 0 < m := by
  cases hr : readRecord s.records molecule with
  | none =>
    rw [averageTrack_short V sqrt fuel s output molecule visited hr]
    have hn : readRecord recs molecule = none :=
      (readRecord_none_congr s.records recs _ hlen).1 hr
    refine ⟨[molecule], rfl, ?_, ?_⟩
    · rw [reached_cons_none recs _ _ hn, reached_nil, List.append_nil]
    · intro m hm
      rw [List.mem_singleton] at hm
      exact Or.inl hm
  | some a =>
    rw [averageTrack_read V sqrt fuel s output molecule visited a hr _ rfl]
    have hsome : ∃ b, readRecord recs molecule = some b := by
      cases hb : readRecord recs molecule with
      | none =>
        rw [(readRecord_none_congr s.records recs _ hlen).2 hb] at hr
        cases hr
      | some b => exact ⟨b, rfl⟩
    obtain ⟨b, hb⟩ := hsome
    obtain ⟨trav, h1, h2, h3⟩ := whileLink_trace V sqrt visited recs fuel
      (fwriteRecord { s with reads := s.reads ++ [molecule] } molecule
        (Function.update a VISITED (V.ofInt visited)))
      (Function.update a VISITED (V.ofInt visited)) (normalizeFields a (sqrt (a HEIGHT)))
      (sqrt (a HEIGHT))
      (by simp only [fwriteRecord, List.length_set]; exact hlen)
    refine ⟨molecule :: trav, ?_, ?_, ?_⟩
    · split
      · rw [h1]
        simp only [fwriteRecord, List.append_assoc, List.singleton_append]
      · rw [h1]
        simp only [fwriteRecord, List.append_assoc, List.singleton_append]
    · split
      · rw [h2, reached_cons_some recs _ _ b hb]
        simp only [fwriteRecord, List.append_assoc, List.singleton_append]
      · rw [h2, reached_cons_some recs _ _ b hb]
        simp only [fwriteRecord, List.append_assoc, List.singleton_append]
    · intro m hm
      rcases List.mem_cons.1 hm with h | h
      · exact Or.inl h
      · exact Or.inr (h3 m h)

theorem scanLoop_trace {α : Type} [Add α] [Mul α] [Div α] (V : IntView α) (sqrt : α → α)
    (fuel : Nat) (unvisited : Int) (recs : List (Record α)) :
    ∀ (cnt i : Nat) (s : MListState α) (output : List (Record α)) (tracks : Nat)
      (R : ScanResult α), s.records.length = recs.length →
      scanLoop V sqrt fuel unvisited cnt i s output tracks = R →
      ∃ (j : Nat) (trav : List Int), j ≤ cnt ∧ (R.ret = Ret.zero → j = cnt) ∧
        List.Perm R.input.reads
          (s.reads ++ ((List.range' i j).map (fun k : Nat => (k : Int)) ++ trav)) ∧
        R.input.writes = s.writes ++ reached recs trav ∧
        ∀ m ∈ trav, 0 < m ∨
          ∃ i2 : Nat, i2 < i + cnt ∧ readRecord recs (i2 : Int) ≠ none ∧ m = toInt32 i2 := by
  intro cnt
  induction cnt with
  | zero =>
    intro i s output tracks R _ hR
    rw [scanLoop_zero] at hR
    subst hR
    refine ⟨0, [], Nat.le_refl 0, fun _ => rfl, ?_, ?_,
      fun m hm => absurd hm (List.not_mem_nil m)⟩
    · simp only [List.range'_zero, List.map_nil, List.append_nil]
      exact List.Perm.refl _
    · rw [reached_nil, List.append_nil]
  | succ c ih =>
    intro i s output tracks R hlen hR
    cases hr : readRecord s.records (i : Int) with
    | none =>
      rw [scanLoop_short V sqrt fuel unvisited c i s output tracks hr] at hR
      subst hR
      refine ⟨1, [], by omega, fun h => Ret.noConfusion h, ?_, ?_,
        fun m hm => absurd hm (List.not_mem_nil m)⟩
      · simp only [List.range'_one, List.map_cons, List.map_nil, List.append_nil]
        exact List.Perm.refl _
      · rw [reached_nil, List.append_nil]
    | some od =>
      have hcomplete : readRecord recs (i : Int) ≠ none := by
        intro hn
        rw [(readRecord_none_congr s.records recs _ hlen).2 hn] at hr
        cases hr
      by_cases hv : V.u32 (od VISITED) = toU32 unvisited
      · rw [scanLoop_track V sqrt fuel unvisited c i s output tracks od hr hv _ rfl] at hR
        obtain ⟨t, ht1, ht2, ht3⟩ := averageTrack_trace V sqrt fuel recs
          { s with reads := s.reads ++ [(i : Int)] } output (toInt32 i)
          (toInt32 (toU32 (unvisited + 1))) hlen
        have hlenT := (averageTrack_frame V sqrt fuel recs
          { s with reads := s.reads ++ [(i : Int)] } output (toInt32 i)
          (toInt32 (toU32 (unvisited + 1))) hlen).1.1
        have hkt : ∀ m ∈ t, 0 < m ∨
            ∃ i2 : Nat, i2 < i + (c + 1) ∧ readRecord recs (i2 : Int) ≠ none ∧
              m = toInt32 i2 := by
          intro m hm
          rcases ht3 m hm with h | h
          · exact Or.inr ⟨i, by omega, hcomplete, h⟩
          · exact Or.inl h
        split at hR
        · obtain ⟨j, trav, hj, hjz, hp, hw, hk⟩ := ih (i + 1) _ _ _ R
            (by rw [hlenT]; exact hlen) hR
          refine ⟨j + 1, t ++ trav, by omega, fun h => by rw [hjz h], ?_, ?_, ?_⟩
          · refine hp.trans ?_
            rw [ht1, List.range'_succ]
            show List.Perm ((s.reads ++ [(i : Int)]) ++ t ++
              ((List.range' (i + 1) j).map (fun k : Nat => (k : Int)) ++ trav))
              (s.reads ++ ((i : Int) :: (List.range' (i + 1) j).map (fun k : Nat => (k : Int))
                ++ (t ++ trav)))
            simp only [List.append_assoc, List.singleton_append, List.cons_append,
              List.nil_append]
            apply List.Perm.append_left
            apply List.Perm.cons
            rw [← List.append_assoc, ← List.append_assoc]
            exact List.Perm.append_right _ List.perm_append_comm
          · rw [hw, ht2, reached_append, List.append_assoc]
          · intro m hm
            rcases List.mem_append.1 hm with h | h
            · exact hkt m h
            · rcases hk m h with h2 | ⟨i2, h2, h3, h4⟩
              · exact Or.inl h2
              · exact Or.inr ⟨i2, by omega, h3, h4⟩
        · rename_i hnz
          subst hR
          refine ⟨1, t, by omega, fun h => absurd h hnz, ?_, ht2, hkt⟩
          show List.Perm (averageTrack V sqrt fuel { s with reads := s.reads ++ [(i : Int)] }
            output (toInt32 i) (toInt32 (toU32 (unvisited + 1)))).input.reads _
          rw [ht1]
          simp only [List.range'_one, List.map_cons, List.map_nil, List.append_assoc,
            List.singleton_append, List.nil_append]
          exact List.Perm.refl _
      · rw [scanLoop_skip V sqrt fuel unvisited c i s output tracks od hr hv] at hR
        obtain ⟨j, trav, hj, hjz, hp, hw, hk⟩ := ih (i + 1)
          { s with reads := s.reads ++ [(i : Int)] } _ _ R hlen hR
        refine ⟨j + 1, trav, by omega, fun h => by rw [hjz h], ?_, hw, ?_⟩
        · refine hp.trans ?_
          rw [List.range'_succ]
          show List.Perm ((s.reads ++ [(i : Int)]) ++
            ((List.range' (i + 1) j).map (fun k : Nat => (k : Int)) ++ trav))
            (s.reads ++ ((i : Int) :: (List.range' (i + 1) j).map (fun k : Nat => (k : Int))
              ++ trav))
          simp only [List.append_assoc, List.singleton_append, List.cons_append,
              List.nil_append]
          exact List.Perm.refl _
        · intro m hm
          rcases hk m hm with h2 | ⟨i2, h2, h3, h4⟩
          · exact Or.inl h2
          · exact Or.inr ⟨i2, by omega, h3, h4⟩

/-! ## Short reads and the links followed -/

theorem readKind_mono {α : Type} (V : IntView α) (recs : List (Record α)) (molecules : Nat)
    (W W2 : List Int) (m : Int) (hW : ∀ k ∈ W, k ∈ W2)
    (h : ReadKind V recs molecules W m) : ReadKind V recs molecules W2 m := by
  rcases h with h | ⟨k, hk, r, h1, h2, h3⟩
  · exact Or.inl h
  · exact Or.inr ⟨k, hW k hk, r, h1, h2, h3⟩

theorem whileLink_links {α : Type} [Add α] [Mul α] (V : IntView α) (sqrt : α → α)
    (visited : Int) (recs : List (Record α)) (molecules : Nat) :
    ∀ (fuel : Nat) (s : MListState α) (od avg : Record α) (tw : α) (R : LoopResult α),
      StoreAgreeOff VISITED s.records recs →
      (∃ k ∈ s.writes, ∃ r, readRecord recs k = some r ∧ r LINK = od LINK) →
      (∀ k ∈ s.writes, ∀ r, readRecord recs k = some r → 0 < V.i32 (r LINK) →
        readRecord recs (V.i32 (r LINK)) = none → r LINK = od LINK) →
      (∀ m ∈ s.reads, ReadKind V recs molecules s.writes m) →
      whileLink V sqrt visited fuel s od avg tw = R →
      StoreAgreeOff VISITED R.input.records recs ∧
      (∀ m ∈ R.input.reads, ReadKind V recs molecules R.input.writes m) ∧
      (R.ret = Ret.zero → ∀ k ∈ R.input.writes, ¬ LinkShort V recs k) ∧
      (R.ret = Ret.one → ∃ k ∈ R.input.writes, LinkShort V recs k) := by
  intro fuel
  induction fuel with
  | zero =>
    intro s od avg tw R hs _ hpend hP hR
    by_cases hpos : 0 < V.i32 (od LINK)
    · rw [whileLink_zero V sqrt visited s od avg tw hpos] at hR
      subst hR
      exact ⟨hs, hP, fun h => Ret.noConfusion h, fun h => Ret.noConfusion h⟩
    · rw [whileLink_done V sqrt visited 0 s od avg tw hpos] at hR
      subst hR
      refine ⟨hs, hP, ?_, fun h => Ret.noConfusion h⟩
      intro _ k hk ⟨r, h1, h2, h3⟩
      rw [hpend k hk r h1 h2 h3] at h2
      exact hpos h2
  | succ n ih =>
    intro s od avg tw R hs hcur hpend hP hR
    by_cases hpos : 0 < V.i32 (od LINK)
    · obtain ⟨kc, hkc, rc, hrc, hlc⟩ := hcur
      have hkind : ReadKind V recs molecules s.writes (V.i32 (od LINK)) :=
        Or.inr ⟨kc, hkc, rc, hrc, by rw [hlc]; exact hpos, by rw [hlc]⟩
      rcases readRecord_agree_both VISITED s.records recs (V.i32 (od LINK)) hs with
        ⟨hn, hn2⟩ | ⟨a, b, ha, hb, hab⟩
      · rw [whileLink_short V sqrt visited n s od avg tw hpos hn] at hR
        subst hR
        refine ⟨hs, mem_snoc_forall s.reads _ hP hkind, fun h => Ret.noConfusion h, ?_⟩
        intro _
        exact ⟨kc, hkc, rc, hrc, by rw [hlc]; exact hpos, by rw [hlc]; exact hn2⟩
      · rw [whileLink_step V sqrt visited n s od avg tw a hpos ha] at hR
        obtain ⟨_, _, hget⟩ := readRecord_some recs _ b hb
        have hlink : Function.update a VISITED (V.ofInt visited) LINK = b LINK :=
          agreeOff_update VISITED a b _ hab LINK (by decide)
        refine ih _ _ _ _ R ?_ ?_ ?_ ?_ hR
        · simp only [fwriteRecord]
          exact storeAgreeOff_set VISITED _ _ _ _ b hs hget (agreeOff_update VISITED a b _ hab)
        · simp only [fwriteRecord]
          exact ⟨V.i32 (od LINK), List.mem_append_right _ (List.mem_singleton.2 rfl), b, hb,
            hlink.symm⟩
        · simp only [fwriteRecord]
          intro k hk r h1 h2 h3
          rcases List.mem_append.1 hk with h | h
          · have := hpend k h r h1 h2 h3
            rw [this, hb] at h3
            cases h3
          · rw [List.mem_singleton] at h
            subst h
            rw [hb] at h1
            cases h1
            exact hlink.symm
        · simp only [fwriteRecord]
          intro m hm
          apply readKind_mono V recs molecules s.writes _ m
            (fun k hk => List.mem_append_left _ hk)
          exact mem_snoc_forall s.reads _ hP hkind m hm
    · rw [whileLink_done V sqrt visited (n + 1) s od avg tw hpos] at hR
      subst hR
      refine ⟨hs, hP, ?_, fun h => Ret.noConfusion h⟩
      intro _ k hk ⟨r, h1, h2, h3⟩
      rw [hpend k hk r h1 h2 h3] at h2
      exact hpos h2

theorem averageTrack_links {α : Type} [Add α] [Mul α] [Div α] (V : IntView α)
    (sqrt : α → α) (fuel : Nat) (recs : List (Record α)) (molecules : Nat)
    (s : MListState α) (output : List (Record α)) (molecule visited : Int)
    (T : TrackResult α)
    (hs : StoreAgreeOff VISITED s.records recs)
    (hok : ∀ k ∈ s.writes, ¬ LinkShort V recs k)
    (hP : ∀ m ∈ s.reads, ReadKind V recs molecules s.writes m)
    (hm : ∃ i : Nat, i < molecules ∧ molecule = (i : Int))
    (hT : averageTrack V sqrt fuel s output molecule visited = T) :
    StoreAgreeOff VISITED T.input.records recs ∧
    (∀ m ∈ T.input.reads, ReadKind V recs molecules T.input.writes m) ∧
    (T.ret = Ret.zero → ∀ k ∈ T.input.writes, ¬ LinkShort V recs k) ∧
    (T.ret = Ret.one →
      readRecord recs molecule = none ∨ ∃ k ∈ T.input.writes, LinkShort V recs k) := by
  rcases readRecord_agree_both VISITED s.records recs molecule hs with
    ⟨hn, hn2⟩ | ⟨a, b, ha, hb, hab⟩
  · rw [averageTrack_short V sqrt fuel s output molecule visited hn] at hT
    subst hT
    exact ⟨hs, mem_snoc_forall s.reads _ hP (Or.inl hm), fun h => Ret.noConfusion h,
      fun _ => Or.inl hn2⟩
  · rw [averageTrack_read V sqrt fuel s output molecule visited a ha _ rfl] at hT
    obtain ⟨_, _, hget⟩ := readRecord_some recs _ b hb
    have hlink : Function.update a VISITED (V.ofInt visited) LINK = b LINK :=
      agreeOff_update VISITED a b _ hab LINK (by decide)
    obtain ⟨h1, h2, h3, h4⟩ := whileLink_links V sqrt visited recs molecules fuel
      (fwriteRecord { s with reads := s.reads ++ [molecule] } molecule
        (Function.update a VISITED (V.ofInt visited)))
      (Function.update a VISITED (V.ofInt visited)) (normalizeFields a (sqrt (a HEIGHT)))
      (sqrt (a HEIGHT)) _
      (by
        simp only [fwriteRecord]
        exact storeAgreeOff_set VISITED _ _ _ _ b hs hget (agreeOff_update VISITED a b _ hab))
      (by
        simp only [fwriteRecord]
        exact ⟨molecule, List.mem_append_right _ (List.mem_singleton.2 rfl), b, hb,
          hlink.symm⟩)
      (by
        simp only [fwriteRecord]
        intro k hk r h1 h2 h3
        rcases List.mem_append.1 hk with h | h
        · exact absurd ⟨r, h1, h2, h3⟩ (hok k h)
        · rw [List.mem_singleton] at h
          subst h
          rw [hb] at h1
          cases h1
          exact hlink.symm)
      (by
        simp only [fwriteRecord]
        intro m hmem
        apply readKind_mono V recs molecules s.writes _ m
          (fun k hk => List.mem_append_left _ hk)
        exact mem_snoc_forall s.reads _ hP (Or.inl hm) m hmem)
      rfl
    split at hT
    · rename_i hz
      subst hT
      exact ⟨h1, h2, fun _ => h3 hz, fun h => Ret.noConfusion h⟩
    · subst hT
      exact ⟨h1, h2, h3, fun h => Or.inr (h4 h)⟩

theorem scanLoop_links {α : Type} [Add α] [Mul α] [Div α] (V : IntView α) (sqrt : α → α)
    (fuel : Nat) (unvisited : Int) (recs : List (Record α)) (molecules : Nat)
    (hsmall : molecules ≤ 2147483648 ∨ recs.length ≤ 2147483648) :
    ∀ (cnt i : Nat) (s : MListState α) (output : List (Record α)) (tracks : Nat)
      (R : ScanResult α), i + cnt = molecules →
      StoreAgreeOff VISITED s.records recs →
      (∀ k ∈ s.writes, ¬ LinkShort V recs k) →
      (∀ m ∈ s.reads, ReadKind V recs molecules s.writes m) →
      scanLoop V sqrt fuel unvisited cnt i s output tracks = R →
      (∀ m ∈ R.input.reads, ReadKind V recs molecules R.input.writes m) ∧
      (R.ret = Ret.zero →
        (∀ i2 : Nat, i ≤ i2 → i2 < molecules → readRecord recs (i2 : Int) ≠ none) ∧
        ∀ k ∈ R.input.writes, ¬ LinkShort V recs k) ∧
      (R.ret = Ret.one →
        (∃ i2 : Nat, i2 < molecules ∧ readRecord recs (i2 : Int) = none) ∨
        ∃ k ∈ R.input.writes, LinkShort V recs k) := by
  intro cnt
  induction cnt with
  | zero =>
    intro i s output tracks R hic _ hok hP hR
    rw [scanLoop_zero] at hR
    subst hR
    refine ⟨hP, fun _ => ⟨?_, hok⟩, fun h => Ret.noConfusion h⟩
    intro i2 h1 h2
    omega
  | succ c ih =>
    intro i s output tracks R hic hs hok hP hR
    have hki : ReadKind V recs molecules s.writes (i : Int) := Or.inl ⟨i, by omega, rfl⟩
    rcases readRecord_agree_both VISITED s.records recs (i : Int) hs with
      ⟨hn, hn2⟩ | ⟨od, b, hr, hb, _⟩
    · rw [scanLoop_short V sqrt fuel unvisited c i s output tracks hn] at hR
      subst hR
      exact ⟨mem_snoc_forall s.reads _ hP hki, fun h => Ret.noConfusion h,
        fun _ => Or.inl ⟨i, by omega, hn2⟩⟩
    · have hcomplete : readRecord recs (i : Int) ≠ none := by
        rw [hb]
        intro h
        cases h
      have hrest : ∀ (R : ScanResult α),
          (R.ret = Ret.zero →
            (∀ i2 : Nat, i + 1 ≤ i2 → i2 < molecules → readRecord recs (i2 : Int) ≠ none) ∧
            ∀ k ∈ R.input.writes, ¬ LinkShort V recs k) →
          (R.ret = Ret.zero →
            (∀ i2 : Nat, i ≤ i2 → i2 < molecules → readRecord recs (i2 : Int) ≠ none) ∧
            ∀ k ∈ R.input.writes, ¬ LinkShort V recs k) := by
        intro R h hz
        refine ⟨?_, (h hz).2⟩
        intro i2 h1 h2
        by_cases he : i2 = i
        · rw [he]
          exact hcomplete
        · exact (h hz).1 i2 (by omega) h2
      by_cases hv : V.u32 (od VISITED) = toU32 unvisited
      · rw [scanLoop_track V sqrt fuel unvisited c i s output tracks od hr hv _ rfl] at hR
        have hlt : i < 2147483648 := by
          rcases hsmall with h | h
          · omega
          · have := (readRecord_some recs _ b hb).2.1
            rw [Int.toNat_ofNat] at this
            omega
        obtain ⟨h1, h2, h3, h4⟩ := averageTrack_links V sqrt fuel recs molecules
          { s with reads := s.reads ++ [(i : Int)] } output (toInt32 i)
          (toInt32 (toU32 (unvisited + 1))) _ hs hok (mem_snoc_forall s.reads _ hP hki)
          ⟨i, by omega, toInt32_of_lt i hlt⟩ rfl
        split at hR
        · rename_i hz
          obtain ⟨g1, g2, g3⟩ := ih (i + 1) _ _ _ R (by omega) h1 (h3 hz) h2 hR
          exact ⟨g1, hrest R g2, g3⟩
        · rename_i hnz
          subst hR
          refine ⟨h2, fun h => absurd h hnz, ?_⟩
          intro h
          rcases h4 h with h5 | h5
          · rw [toInt32_of_lt i hlt] at h5
            exact absurd h5 hcomplete
          · exact Or.inr h5
      · rw [scanLoop_skip V sqrt fuel unvisited c i s output tracks od hr hv] at hR
        obtain ⟨g1, g2, g3⟩ := ih (i + 1) { s with reads := s.reads ++ [(i : Int)] } _ _ R
          (by omega) hs hok (mem_snoc_forall s.reads _ hP hki) hR
        exact ⟨g1, hrest R g2, g3⟩

/-! ## A run that ends does not depend on the iteration bound -/

theorem whileLink_fuel_mono {α : Type} [Add α] [Mul α] (V : IntView α) (sqrt : α → α)
    (visited : Int) :
    ∀ (fuel fuel2 : Nat) (s : MListState α) (od avg : Record α) (tw : α),
      fuel ≤ fuel2 →
      (whileLink V sqrt visited fuel s od avg tw).ret ≠ Ret.running →
      whileLink V sqrt visited fuel2 s od avg tw =
        whileLink V sqrt visited fuel s od avg tw := by
  intro fuel
  induction fuel with
  | zero =>
    intro fuel2 s od avg tw _ hne
    by_cases hpos : 0 < V.i32 (od LINK)
    · rw [whileLink_zero V sqrt visited s od avg tw hpos] at hne
      exact absurd rfl hne
    · rw [whileLink_done V sqrt visited 0 s od avg tw hpos,
        whileLink_done V sqrt visited fuel2 s od avg tw hpos]
  | succ n ih =>
    intro fuel2 s od avg tw hle hne
    by_cases hpos : 0 < V.i32 (od LINK)
    · cases fuel2 with
      | zero => omega
      | succ n2 =>
        cases hr : readRecord s.records (V.i32 (od LINK)) with
        | none =>
          rw [whileLink_short V sqrt visited n s od avg tw hpos hr,
            whileLink_short V sqrt visited n2 s od avg tw hpos hr]
        | some a =>
          rw [whileLink_step V sqrt visited n s od avg tw a hpos hr] at hne
          rw [whileLink_step V sqrt visited n s od avg tw a hpos hr,
            whileLink_step V sqrt visited n2 s od avg tw a hpos hr]
          exact ih n2 _ _ _ _ (by omega) hne
    · rw [whileLink_done V sqrt visited (n + 1) s od avg tw hpos,
        whileLink_done V sqrt visited fuel2 s od avg tw hpos]

theorem averageTrack_fuel_mono {α : Type} [Add α] [Mul α] [Div α] (V : IntView α)
    (sqrt : α → α) (fuel fuel2 : Nat) (s : MListState α) (output : List (Record α))
    (molecule visited : Int) (hle : fuel ≤ fuel2)
    (hne : (averageTrack V sqrt fuel s output molecule visited).ret ≠ Ret.running) :
    averageTrack V sqrt fuel2 s output molecule visited =
      averageTrack V sqrt fuel s output molecule visited := by
  cases hr : readRecord s.records molecule with
  | none =>
    rw [averageTrack_short V sqrt fuel s output molecule visited hr,
      averageTrack_short V sqrt fuel2 s output molecule visited hr]
  | some a =>
    rw [averageTrack_read V sqrt fuel s output molecule visited a hr _ rfl] at hne
    have hL : (whileLink V sqrt visited fuel
        (fwriteRecord { s with reads := s.reads ++ [molecule] } molecule
          (Function.update a VISITED (V.ofInt visited)))
        (Function.update a VISITED (V.ofInt visited))
        (normalizeFields a (sqrt (a HEIGHT))) (sqrt (a HEIGHT))).ret ≠ Ret.running := by
      intro h
      rw [if_neg (by rw [h]; intro h2; cases h2)] at hne
      exact hne h
    rw [averageTrack_read V sqrt fuel s output molecule visited a hr _ rfl,
      averageTrack_read V sqrt fuel2 s output molecule visited a hr _ rfl,
      whileLink_fuel_mono V sqrt visited fuel fuel2 _ _ _ _ hle hL]

theorem scanLoop_fuel_mono {α : Type} [Add α] [Mul α] [Div α] (V : IntView α)
    (sqrt : α → α) (fuel fuel2 : Nat) (unvisited : Int) (hle : fuel ≤ fuel2) :
    ∀ (cnt i : Nat) (s : MListState α) (output : List (Record α)) (tracks : Nat),
      (scanLoop V sqrt fuel unvisited cnt i s output tracks).ret ≠ Ret.running →
      scanLoop V sqrt fuel2 unvisited cnt i s output tracks =
        scanLoop V sqrt fuel unvisited cnt i s output tracks := by
  intro cnt
  induction cnt with
  | zero =>
    intro i s output tracks _
    rw [scanLoop_zero, scanLoop_zero]
  | succ c ih =>
    intro i s output tracks hne
    cases hr : readRecord s.records (i : Int) with
    | none =>
      rw [scanLoop_short V sqrt fuel unvisited c i s output tracks hr,
        scanLoop_short V sqrt fuel2 unvisited c i s output tracks hr]
    | some od =>
      by_cases hv : V.u32 (od VISITED) = toU32 unvisited
      · rw [scanLoop_track V sqrt fuel unvisited c i s output tracks od hr hv _ rfl] at hne
        have hT : (averageTrack V sqrt fuel { s with reads := s.reads ++ [(i : Int)] } output
            (toInt32 i) (toInt32 (toU32 (unvisited + 1)))).ret ≠ Ret.running := by
          intro h
          rw [if_neg (by rw [h]; intro h2; cases h2)] at hne
          exact hne h
        rw [scanLoop_track V sqrt fuel unvisited c i s output tracks od hr hv _ rfl,
          scanLoop_track V sqrt fuel2 unvisited c i s output tracks od hr hv _ rfl,
          averageTrack_fuel_mono V sqrt fuel fuel2 _ output _ _ hle hT]
        split
        · rename_i hz
          rw [if_pos hz] at hne
          exact ih _ _ _ _ hne
        · rfl
      · rw [scanLoop_skip V sqrt fuel unvisited c i s output tracks od hr hv] at hne
        rw [scanLoop_skip V sqrt fuel unvisited c i s output tracks od hr hv,
          scanLoop_skip V sqrt fuel2 unvisited c i s output tracks od hr hv]
        exact ih _ _ _ _ hne

theorem avemlist_fuel_mono {α : Type} [Add α] [Mul α] [Div α] (V : IntView α)
    (sqrt : α → α) (fuel fuel2 DATA MOLECULES : Nat) (f : MList α) (hle : fuel ≤ fuel2)
    (hne : (avemlist V sqrt fuel DATA MOLECULES f).ret ≠ Ret.running) :
    avemlist V sqrt fuel2 DATA MOLECULES f = avemlist V sqrt fuel DATA MOLECULES f := by
  rw [(avemlist_input V sqrt fuel DATA MOLECULES f).1] at hne
  rw [avemlist_eq V sqrt fuel DATA MOLECULES f _ rfl,
    avemlist_eq V sqrt fuel2 DATA MOLECULES f _ rfl,
    scanLoop_fuel_mono V sqrt fuel fuel2 _ hle _ _ _ _ _ hne]

/-! ## Claims on the input file -/

/-- C9: for a head index that is not negative, whatever averageTrack returns (0, 1, or still
looping when the iteration bound is hit), with `trav` the indices of the record reads of the
traversal: the input file keeps its number of records, the records written back are exactly
the records reached (the complete records among those read), a record whose index was not
read is unchanged in all fields, and every record reached is unchanged in every field except
VISITED, which holds the stamp passed in.  The same holds for a whole run of avemlist on
a file whose molecule count or number of records is at most 2^31 (every index scanned is then
below 2^31), with the stamp `unvisited + 1`, where the record reads of the run are the reads
of the scan at the indices below some `j` (the molecule count when the run returns 0)
together with the reads `trav` of the traversals; no read is at a negative index. -/
theorem visited_only_frame {α : Type} [Add α] [Mul α] [Div α] (V : IntView α)
    (sqrt : α → α) (fuel : Nat) (s : MListState α) (output : List (Record α))
    (molecule visited : Int) (DATA MOLECULES : Nat) (f : MList α)
    (hhead : 0 ≤ molecule)
    (hsmall : readWord32 f.header MOLECULES ≤ 2147483648 ∨ f.records.length ≤ 2147483648) :
    (∃ trav : List Int,
      (averageTrack V sqrt fuel s output molecule visited).input.reads = s.reads ++ trav ∧
      (∀ m ∈ trav, 0 ≤ m) ∧
      ReachedFrame (V.ofInt visited) trav s
        (averageTrack V sqrt fuel s output molecule visited).input) ∧
    (∃ (j : Nat) (trav : List Int), j ≤ readWord32 f.header MOLECULES ∧
      ((avemlist V sqrt fuel DATA MOLECULES f).ret = Ret.zero →
        j = readWord32 f.header MOLECULES) ∧
      List.Perm (avemlist V sqrt fuel DATA MOLECULES f).input.reads
        ((List.range j).map (fun k : Nat => (k : Int)) ++ trav) ∧
      (∀ m ∈ trav, 0 ≤ m) ∧
      ReachedFrame (V.ofInt (toInt32 (toU32 (readUnvisited V f.records + 1)))) trav
        ⟨f.records, [], []⟩ (avemlist V sqrt fuel DATA MOLECULES f).input) := by
  constructor
  · obtain ⟨trav, h1, h2, h3⟩ :=
      averageTrack_trace V sqrt fuel s.records s output molecule visited rfl
    refine ⟨trav, h1, ?_, reachedFrame_of_frame _ trav s _
      (averageTrack_frame V sqrt fuel s.records s output molecule visited rfl).1 h2⟩
    intro m hm
    rcases h3 m hm with h | h
    · rw [h]
      exact hhead
    · exact Int.le_of_lt h
  · obtain ⟨hret, hinp, _, _⟩ := avemlist_input V sqrt fuel DATA MOLECULES f
    obtain ⟨j, trav, hj, hjz, hp, hw, hk⟩ := scanLoop_trace V sqrt fuel
      (readUnvisited V f.records) f.records (readWord32 f.header MOLECULES) 0
      ⟨f.records, [], []⟩ [] 0 _ rfl rfl
    rw [← hinp] at hp hw
    rw [← hret] at hjz
    refine ⟨j, trav, hj, hjz, ?_, ?_, ?_⟩
    · rw [List.range_eq_range']
      exact hp
    · intro m hm
      rcases hk m hm with h | ⟨i2, h1, h2, h3⟩
      · exact Int.le_of_lt h
      · have hlt : i2 < 2147483648 := by
          rcases hsmall with h | h
          · omega
          · have := (readRecord_none_iff f.records (i2 : Int)).not.1 h2
            rw [Int.toNat_ofNat] at this
            omega
        rw [h3, toInt32_of_lt i2 hlt]
        exact Int.ofNat_nonneg i2
    · apply reachedFrame_of_frame _ trav _ _ _ hw
      rw [hinp]
      exact (scanLoop_frame V sqrt fuel (readUnvisited V f.records) f.records
        (readWord32 f.header MOLECULES) 0 ⟨f.records, [], []⟩ [] 0 rfl).1

theorem visited_only_frame_witness :
    (0 : Int) ≤ 0 ∧
    (readWord32 scenarioFile.header 12 ≤ 2147483648 ∨
      scenarioFile.records.length ≤ 2147483648) ∧
    (∃ trav : List Int,
      (averageTrack ratView ratSqrt 2 ⟨pairStore, [], []⟩ [] 0 1).input.reads =
        ([] : List Int) ++ trav ∧
      (∀ m ∈ trav, 0 ≤ m) ∧
      ReachedFrame (ratView.ofInt 1) trav ⟨pairStore, [], []⟩
        (averageTrack ratView ratSqrt 2 ⟨pairStore, [], []⟩ [] 0 1).input) ∧
    (∃ (j : Nat) (trav : List Int), j ≤ readWord32 scenarioFile.header 12 ∧
      ((avemlist ratView ratSqrt 2 16 12 scenarioFile).ret = Ret.zero →
        j = readWord32 scenarioFile.header 12) ∧
      List.Perm (avemlist ratView ratSqrt 2 16 12 scenarioFile).input.reads
        ((List.range j).map (fun k : Nat => (k : Int)) ++ trav) ∧
      (∀ m ∈ trav, 0 ≤ m) ∧
      ReachedFrame
        (ratView.ofInt (toInt32 (toU32 (readUnvisited ratView scenarioFile.records + 1))))
        trav ⟨scenarioFile.records, [], []⟩
        (avemlist ratView ratSqrt 2 16 12 scenarioFile).input) :=
  ⟨by decide, Or.inl (by decide),
    visited_only_frame ratView ratSqrt 2 ⟨pairStore, [], []⟩ [] 0 1 16 12 scenarioFile
      (by decide) (Or.inl (by decide))⟩

/-! ## Claim on the return value -/

/-- C10: for a run that ends (the while loops of averageTrack terminate) on a file whose
molecule count or number of records is at most 2^31, avemlist returns 1 exactly when some index below the molecule count of the
header is not a complete record of the input file or some record folded by averageTrack has a
positive LINK whose target is not a complete record, and it returns 0 exactly when neither is
the case; it returns 1 exactly when one of its record reads is short; and every record read
is at an index that is not negative, namely a scanned index below the molecule count or the
positive LINK of a record folded by averageTrack; the run is the same under every larger
iteration bound. -/
theorem avemlist_status {α : Type} [Add α] [Mul α] [Div α] (V : IntView α) (sqrt : α → α)
    (fuel DATA MOLECULES : Nat) (f : MList α)
    (hterm : (avemlist V sqrt fuel DATA MOLECULES f).ret ≠ Ret.running)
    (hsmall : readWord32 f.header MOLECULES ≤ 2147483648 ∨ f.records.length ≤ 2147483648) :
    ((avemlist V sqrt fuel DATA MOLECULES f).ret = Ret.one ↔
      (∃ i : Nat, i < readWord32 f.header MOLECULES ∧ readRecord f.records (i : Int) = none) ∨
      ∃ k ∈ (avemlist V sqrt fuel DATA MOLECULES f).input.writes, LinkShort V f.records k) ∧
    ((avemlist V sqrt fuel DATA MOLECULES f).ret = Ret.zero ↔
      (∀ i : Nat, i < readWord32 f.header MOLECULES → readRecord f.records (i : Int) ≠ none) ∧
      ∀ k ∈ (avemlist V sqrt fuel DATA MOLECULES f).input.writes,
        ¬ LinkShort V f.records k) ∧
    ((avemlist V sqrt fuel DATA MOLECULES f).ret = Ret.one ↔
      ∃ m ∈ (avemlist V sqrt fuel DATA MOLECULES f).input.reads,
        readRecord f.records m = none) ∧
    (∀ m ∈ (avemlist V sqrt fuel DATA MOLECULES f).input.reads,
      0 ≤ m ∧ ReadKind V f.records (readWord32 f.header MOLECULES)
        (avemlist V sqrt fuel DATA MOLECULES f).input.writes m) ∧
    (∀ fuel2 : Nat, fuel ≤ fuel2 →
      avemlist V sqrt fuel2 DATA MOLECULES f = avemlist V sqrt fuel DATA MOLECULES f) := by
  obtain ⟨hret, hinp, _, _⟩ := avemlist_input V sqrt fuel DATA MOLECULES f
  obtain ⟨rd, hrd, h1, h2⟩ := (scanLoop_frame V sqrt fuel (readUnvisited V f.records)
    f.records (readWord32 f.header MOLECULES) 0 ⟨f.records, [], []⟩ [] 0 rfl).2
  obtain ⟨g1, g2, g3⟩ := scanLoop_links V sqrt fuel (readUnvisited V f.records) f.records
    (readWord32 f.header MOLECULES) hsmall (readWord32 f.header MOLECULES) 0
    ⟨f.records, [], []⟩ [] 0 _ (by omega) (storeAgreeOff_refl VISITED f.records)
    (fun k hk => absurd hk (List.not_mem_nil k))
    (fun m hm => absurd hm (List.not_mem_nil m)) rfl
  rw [← hret] at h1 h2 g2 g3
  rw [← hinp] at hrd g1 g2 g3
  simp only [List.nil_append] at hrd
  refine ⟨⟨g3, ?_⟩, ⟨?_, ?_⟩, ?_, ?_,
    fun fuel2 hle => avemlist_fuel_mono V sqrt fuel fuel2 DATA MOLECULES f hle hterm⟩
  · intro hshort
    cases hc : (avemlist V sqrt fuel DATA MOLECULES f).ret with
    | zero =>
      obtain ⟨c1, c2⟩ := g2 hc
      rcases hshort with ⟨i, hi, hn⟩ | ⟨k, hk, hl⟩
      · exact absurd hn (c1 i (Nat.zero_le i) hi)
      · exact absurd hl (c2 k hk)
    | one => rfl
    | running => exact absurd hc hterm
  · intro hz
    exact ⟨fun i hi => (g2 hz).1 i (Nat.zero_le i) hi, (g2 hz).2⟩
  · intro ⟨c1, c2⟩
    cases hc : (avemlist V sqrt fuel DATA MOLECULES f).ret with
    | zero => rfl
    | one =>
      rcases g3 hc with ⟨i, hi, hn⟩ | ⟨k, hk, hl⟩
      · exact absurd hn (c1 i hi)
      · exact absurd hl (c2 k hk)
    | running => exact absurd hc hterm
  · rw [hrd]
    constructor
    · exact h1
    · intro ⟨m, hm, hs⟩
      by_contra hne
      exact h2 hne m hm hs
  · intro m hm
    have hk := g1 m hm
    refine ⟨?_, hk⟩
    rcases hk with ⟨i, _, hi⟩ | ⟨k, _, r, _, hpos, hl⟩
    · rw [hi]
      exact Int.ofNat_nonneg i
    · rw [hl]
      exact Int.le_of_lt hpos

theorem avemlist_status_witness :
    (avemlist ratView ratSqrt 1 16 12 truncatedFile).ret ≠ Ret.running ∧
    (readWord32 truncatedFile.header 12 ≤ 2147483648 ∨
      truncatedFile.records.length ≤ 2147483648) ∧
    ((avemlist ratView ratSqrt 1 16 12 truncatedFile).ret = Ret.one ↔
      (∃ i : Nat, i < readWord32 truncatedFile.header 12 ∧
        readRecord truncatedFile.records (i : Int) = none) ∨
      ∃ k ∈ (avemlist ratView ratSqrt 1 16 12 truncatedFile).input.writes,
        LinkShort ratView truncatedFile.records k) ∧
    ((avemlist ratView ratSqrt 1 16 12 truncatedFile).ret = Ret.zero ↔
      (∀ i : Nat, i < readWord32 truncatedFile.header 12 →
        readRecord truncatedFile.records (i : Int) ≠ none) ∧
      ∀ k ∈ (avemlist ratView ratSqrt 1 16 12 truncatedFile).input.writes,
        ¬ LinkShort ratView truncatedFile.records k) ∧
    ((avemlist ratView ratSqrt 1 16 12 truncatedFile).ret = Ret.one ↔
      ∃ m ∈ (avemlist ratView ratSqrt 1 16 12 truncatedFile).input.reads,
        readRecord truncatedFile.records m = none) ∧
    (∀ m ∈ (avemlist ratView ratSqrt 1 16 12 truncatedFile).input.reads,
      0 ≤ m ∧ ReadKind ratView truncatedFile.records (readWord32 truncatedFile.header 12)
        (avemlist ratView ratSqrt 1 16 12 truncatedFile).input.writes m) ∧
    (∀ fuel2 : Nat, 1 ≤ fuel2 →
      avemlist ratView ratSqrt fuel2 16 12 truncatedFile =
        avemlist ratView ratSqrt 1 16 12 truncatedFile) :=
  ⟨by decide, Or.inl (by decide),
    avemlist_status ratView ratSqrt 1 16 12 truncatedFile (by decide) (Or.inl (by decide))⟩

end Avemlist
